import Mathlib

/-!
sg3_utils, the program sg_reassign.

A shallow embedding of the address-list reader (get_llnum, build_lba_arr), of the
REASSIGN BLOCKS parameter-block builder, of the grown-defect-list header decoder and
of main of src/sg_reassign.c, followed by theorems about them. The results of
getopt_long, which is not part of the sources, are an argument of main.

Conventions.
* A C string is the list of its characters before the terminating NUL; a pointer into
  a string is the suffix that starts there.
* long long is an Int in [-2^63, 2^63), unsigned long long a Nat below 2^64, an
  unsigned char a Nat below 256.
* Functions that return 0 or 1 in C return an Except value; the diagnostics written to
  stderr are kept only as the kind of the error.
-/

namespace SgReassign

/-! ## The C library functions used by the reader -/

/-- The white-space test of the C locale. -/
def isspace (c : Char) : Bool :=
  c = ' ' || c = '\t' || c = '\n' || c = '\x0b' || c = '\x0c' || c = '\r'

/-- Value of a decimal digit. -/
def decDigit (c : Char) : Option Nat :=
  if '0' ≤ c ∧ c ≤ '9' then some (c.toNat - '0'.toNat) else none

/-- Value of a hexadecimal digit. -/
def hexDigit (c : Char) : Option Nat :=
  if '0' ≤ c ∧ c ≤ '9' then some (c.toNat - '0'.toNat)
  else if 'a' ≤ c ∧ c ≤ 'f' then some (c.toNat - 'a'.toNat + 10)
  else if 'A' ≤ c ∧ c ≤ 'F' then some (c.toNat - 'A'.toNat + 10)
  else none

/-- The longest prefix of digits (in the base of the digit function), read as a number:
the count of characters read and their value. -/
def scanDigits (digit : Char → Option Nat) (base : Nat) : List Char → Nat → Nat → Nat × Nat
  | [], cnt, acc => (cnt, acc)
  | c :: s, cnt, acc =>
    match digit c with
    | some d => scanDigits digit base s (cnt + 1) (base * acc + d)
    | none => (cnt, acc)

/-- An optional sign in front of a number: whether it is a minus, and what follows. -/
def scanSign : List Char → Bool × List Char
  | '-' :: s => (true, s)
  | '+' :: s => (false, s)
  | s => (false, s)

/-- The call sscanf(s, "%lld", &num): none when no item is assigned (the result is not 1),
the value stored otherwise. White space is skipped, a sign is optional, at least one
decimal digit is needed, and the value is the one strtoll gives (out of range values
are clamped to the ends of long long). -/
def sscanf_lld (s : List Char) : Option Int :=
  let (neg, t) := scanSign (s.dropWhile isspace)
  let (cnt, v) := scanDigits decDigit 10 t 0 0
  if cnt = 0 then none
  else if neg then some (if v ≤ 2 ^ 63 then -(v : Int) else -(2 ^ 63 : Int))
  else some (if v < 2 ^ 63 then (v : Int) else (2 ^ 63 - 1 : Int))

/-- The digits of a hexadecimal item after white space and sign: a 0x or 0X in front
is part of the item, and must then be followed by a digit (an item 0x with no digit
after it is a matching failure, as the C standard has it). -/
def scanHexItem : List Char → Nat × Nat
  | '0' :: x :: s =>
    if x = 'x' ∨ x = 'X' then scanDigits hexDigit 16 s 0 0
    else scanDigits hexDigit 16 ('0' :: x :: s) 0 0
  | s => scanDigits hexDigit 16 s 0 0

/-- The call sscanf(s, "%llx", &unum): none when no item is assigned, the value stored
otherwise. The value is the one strtoull gives in base 16: too large a value is
clamped to 2^64 - 1 and a minus sign negates modulo 2^64. -/
def sscanf_llx (s : List Char) : Option Nat :=
  let (neg, t) := scanSign (s.dropWhile isspace)
  let (cnt, v) := scanHexItem t
  if cnt = 0 then none
  else if 2 ^ 64 ≤ v then some (2 ^ 64 - 1)
  else if neg then some ((2 ^ 64 - v) % 2 ^ 64)
  else some v

/-- The length of the longest prefix made of characters of the accept set. -/
def strspn (s accept : List Char) : Nat :=
  (s.takeWhile (fun c => accept.contains c)).length

/-- The suffix starting at the first character that is in the accept set, if any. -/
def strpbrk (s accept : List Char) : Option (List Char) :=
  match s.dropWhile (fun c => !accept.contains c) with
  | [] => none
  | c :: t => some (c :: t)

/-- The suffix starting at the first occurrence of the character, if any. -/
def strchr (s : List Char) (ch : Char) : Option (List Char) :=
  match s.dropWhile (fun c => c != ch) with
  | [] => none
  | c :: t => some (c :: t)

/-- What fgets stores when at most n more characters fit: the characters up to and
including the first newline, and the input left. -/
def fgetsChars : Nat → List Char → List Char × List Char
  | 0, s => ([], s)
  | _, [] => ([], [])
  | n + 1, c :: s =>
    if c = '\n' then ([c], s)
    else ((c :: (fgetsChars n s).1), (fgetsChars n s).2)

/-- The call fgets(line, size, stdin): none at end of input, otherwise the characters
stored (at most size - 1) and the rest of the input. -/
def fgets (size : Nat) (stdin : List Char) : Option (List Char × List Char) :=
  match stdin with
  | [] => none
  | _ => some (fgetsChars (size - 1) stdin)

/-- The C string held by a buffer: its characters before the first NUL. -/
def cstr (buf : List Char) : List Char :=
  buf.takeWhile (fun c => c != Char.ofNat 0)

/-! ## get_llnum -/

/-- The conversion of an unsigned long long to long long. -/
def toLongLong (u : Nat) : Int :=
  if u % 2 ^ 64 < 2 ^ 63 then ((u % 2 ^ 64 : Nat) : Int) else ((u % 2 ^ 64 : Nat) : Int) - 2 ^ 64

/-- The conversion of a long long to unsigned long long. -/
def toULongLong (i : Int) : Nat :=
  (i % 2 ^ 64).toNat

/-- The function get_llnum: the number at the start of buf, or -1.
The buffer is read as hexadecimal when it starts with 0x or 0X (the number then
starts after these two characters) or when the last character of the buffer is
h or H; it is read as decimal otherwise. -/
def get_llnum (buf : List Char) : Int :=
  match buf with
  | [] => -1
  | b0 :: rest =>
    if b0 = '0' ∧ (rest.head? = some 'x' ∨ rest.head? = some 'X') then
      match sscanf_llx (buf.drop 2) with
      | some unum => toLongLong unum
      | none => -1
    else if buf.getLast? = some 'h' ∨ buf.getLast? = some 'H' then
      match sscanf_llx buf with
      | some unum => toLongLong unum
      | none => -1
    else
      match sscanf_lld buf with
      | some num => num
      | none => -1

/-! ## build_lba_arr -/

/-- Why build_lba_arr returns 1: a character that may not occur, a number that
cannot be read, or more numbers than the array holds. -/
inductive BuildErr where
  | syntaxError
  | numberError
  | lengthExceeded
  deriving DecidableEq, Repr

/-- The characters a command line list may hold. -/
def listChars : List Char := "0123456789aAbBcCdDeEfFhHxX,".toList

/-- The characters the numbers of an input line may hold. -/
def lineChars : List Char := "0123456789aAbBcCdDeEfFhHxX ,\t".toList

/-- The separators of the numbers of an input line. -/
def sepChars : List Char := " ,\t".toList

/-- The characters skipped at the start of an input line. -/
def blankChars : List Char := " \t".toList

/-- The loop over the numbers of a command line list, for (k = 0; k < max_arr_len; ++k),
with the statements that follow it. The first argument counts the iterations left,
max_arr_len - k. The result is the array and the length stored in lba_arr_len. -/
def inline_loop : Nat → Nat → List Char → List Nat → Except BuildErr (List Nat × Nat)
  | 0, _, _, _ => .error .lengthExceeded
  | n + 1, k, lcp, lba_arr =>
    if get_llnum lcp ≠ -1 then
      match strchr lcp ',' with
      | none => .ok (lba_arr.set k (toULongLong (get_llnum lcp)), k + 1)
      | some cp => inline_loop n (k + 1) (cp.drop 1) (lba_arr.set k (toULongLong (get_llnum lcp)))
    else .error .numberError

/-- The loop over the numbers of one input line, for (k = 0; k < 1024; ++k), with the
statement off += (k + 1) that follows it. The first argument counts the iterations
left, 1024 - k. The result is the array and the new value of off. -/
def line_loop (max_arr_len off : Nat) :
    Nat → Nat → List Char → List Nat → Except BuildErr (List Nat × Nat)
  | 0, k, _, lba_arr => .ok (lba_arr, off + (k + 1))
  | n + 1, k, lcp, lba_arr =>
    if get_llnum lcp ≠ -1 then
      if off + k ≥ max_arr_len then .error .lengthExceeded
      else
        match strpbrk lcp sepChars with
        | none => .ok (lba_arr.set (off + k) (toULongLong (get_llnum lcp)), off + (k + 1))
        | some p =>
          if p.drop (strspn p sepChars) = [] then
            .ok (lba_arr.set (off + k) (toULongLong (get_llnum lcp)), off + (k + 1))
          else
            line_loop max_arr_len off n (k + 1) (p.drop (strspn p sepChars))
              (lba_arr.set (off + k) (toULongLong (get_llnum lcp)))
    else if lcp.head? = some '#' then .ok (lba_arr, off + k)
    else .error .numberError

/-- The line held by the buffer after fgets, without its final newline. -/
def chomp (buf : List Char) : List Char :=
  if (cstr buf).getLast? = some '\n' then (cstr buf).dropLast else cstr buf

/-- The body of the loop over the input lines, after fgets has filled the buffer: the
line is skipped (continue) when it is empty, blank or a comment, refused when it holds
a character that may not occur, and read by the loop over its numbers otherwise. The
result is the array and the value of off after the line. -/
def line_body (max_arr_len off : Nat) (lba_arr : List Nat) (buf : List Char) :
    Except BuildErr (List Nat × Nat) :=
  let line := chomp buf
  if line = [] then .ok (lba_arr, off)
  else
    let m := strspn line blankChars
    if m = line.length then .ok (lba_arr, off)
    else
      let lcp := line.drop m
      if lcp.head? = some '#' then .ok (lba_arr, off)
      else
        let k := strspn lcp lineChars
        if k < lcp.length ∧ lcp[k]? ≠ some '#' then .error .syntaxError
        else line_loop max_arr_len off 1024 0 lcp lba_arr

/-- The loop over the input lines, for (j = 0; j < 512; ++j). The first argument counts
the iterations left, 512 - j. The result is the array and the final value of off. -/
def stream_loop (max_arr_len : Nat) :
    Nat → List Char → Nat → List Nat → Except BuildErr (List Nat × Nat)
  | 0, _, off, lba_arr => .ok (lba_arr, off)
  | n + 1, stdin, off, lba_arr =>
    match fgets 512 stdin with
    | none => .ok (lba_arr, off)
    | some (buf, rest) =>
      match line_body max_arr_len off lba_arr buf with
      | .error e => .error e
      | .ok (arr, off1) => stream_loop max_arr_len n rest off1 arr

/-- The function build_lba_arr, for non-null arguments. The numbers are read from the
standard input when inp starts with a minus sign, from inp otherwise. On success the
result is the array lba_arr with the numbers stored in it and the value stored in
lba_arr_len. -/
def build_lba_arr (inp stdin : List Char) (lba_arr : List Nat) (max_arr_len : Nat) :
    Except BuildErr (List Nat × Nat) :=
  if inp.head? = some '-' then stream_loop max_arr_len 512 stdin 0 lba_arr
  else if strspn inp listChars ≠ inp.length then .error .syntaxError
  else inline_loop max_arr_len 0 inp lba_arr

/-- The list of numbers a successful call hands to its caller: the first lba_arr_len
elements of the array. -/
def lbaList (r : List Nat × Nat) : List Nat := r.1.take r.2

/-- The constant MAX_NUM_ADDR. -/
def MAX_NUM_ADDR : Nat := 1024

/-- The option --address= of main: the array is cleared, then filled by build_lba_arr
with room for MAX_NUM_ADDR numbers. -/
def main_address (optarg stdin : List Char) : Except BuildErr (List Nat × Nat) :=
  build_lba_arr optarg stdin (List.replicate MAX_NUM_ADDR 0) MAX_NUM_ADDR

/-! ## main: the parameter block of REASSIGN BLOCKS -/

/-- Modelled from the spec: the constant ULONG_MAX of limits.h, which is not part of the
sources, where unsigned long has 32 bits; the spec compares addresses with the maximum
representable in 4 bytes, which is this value. Where unsigned long has 64 bits the
constant is 2^64 - 1: width_loop, select_eight and main_param take the value of the
constant as an argument, and run and main are given for the value below. -/
def ULONG_MAX : Nat := 2 ^ 32 - 1

/-- Why main returns 1 while it prepares the parameter block: an address needs eight
bytes although --eight=0 was given (with the number of the address, counted from 1),
or a write past the end of param_arr (undefined in C). -/
inductive ParamErr where
  | widthMismatch (addressNumber : Nat)
  | outOfBounds
  deriving DecidableEq, Repr

/-- The loop that looks for an address of ULONG_MAX or more, for (k = 0; k < addr_arr_len;
++k), over the addresses from index k on. The result is the value of eight after
the loop: -1 when not given, 0 or 1. -/
def width_loop (ulong_max : Nat) (eight : Int) : List Nat → Nat → Except ParamErr Int
  | [], _ => .ok eight
  | a :: rest, k =>
    if a ≥ ulong_max then
      if eight < 0 then .ok 1
      else if eight = 0 then .error (.widthMismatch (k + 1))
      else width_loop ulong_max eight rest (k + 1)
    else width_loop ulong_max eight rest (k + 1)

/-- The choice of the address width: the loop, then if (eight < 0) eight = 0. -/
def select_eight (ulong_max : Nat) (eight : Int) (addrs : List Nat) : Except ParamErr Int :=
  match width_loop ulong_max eight addrs 0 with
  | .error e => .error e
  | .ok e => .ok (if e < 0 then 0 else e)

/-- The assignment param_arr[i] = v; none when i is not an index of the array. -/
def poke (param_arr : List Nat) (i v : Nat) : Option (List Nat) :=
  if i < param_arr.length then some (param_arr.set i v) else none

/-- The four assignments param_arr[k++] = (a >> s) & 0xff for s = sh + 24, sh + 16,
sh + 8 and sh. -/
def put4 (param_arr : List Nat) (k a sh : Nat) : Option (List Nat) := do
  let p ← poke param_arr k (a / 2 ^ (sh + 24) % 256)
  let p ← poke p (k + 1) (a / 2 ^ (sh + 16) % 256)
  let p ← poke p (k + 2) (a / 2 ^ (sh + 8) % 256)
  poke p (k + 3) (a / 2 ^ sh % 256)

/-- The loop that writes the addresses, for (j = 0; j < addr_arr_len; ++j), over the
addresses from index j on. The result is the array and the final value of k. -/
def encode_loop (eight : Int) : List Nat → Nat → List Nat → Option (List Nat × Nat)
  | [], k, param_arr => some (param_arr, k)
  | a :: rest, k, param_arr =>
    if eight ≠ 0 then
      match put4 param_arr k a 32 with
      | none => none
      | some p =>
        match put4 p (k + 4) a 0 with
        | none => none
        | some q => encode_loop eight rest (k + 8) q
    else
      match put4 param_arr k a 0 with
      | none => none
      | some p => encode_loop eight rest (k + 4) p

/-- The header: with k the length of the addresses in bytes, bytes 0 and 1 are written
only if longlist is set, bytes 2 and 3 always. -/
def put_header (longlist : Int) (param_arr : List Nat) (k : Nat) : Option (List Nat) :=
  if longlist ≠ 0 then do
    let p ← poke param_arr 0 (k / 2 ^ 24 % 256)
    let p ← poke p 1 (k / 2 ^ 16 % 256)
    let p ← poke p 2 (k / 2 ^ 8 % 256)
    poke p 3 (k % 256)
  else do
    let p ← poke param_arr 2 (k / 2 ^ 8 % 256)
    poke p 3 (k % 256)

/-- The block if (got_addr) of main that prepares the parameter block. The arguments
are the value of ULONG_MAX, the options eight (-1 when not given) and longlist, the
addresses addr_arr[0 .. addr_arr_len) and the array param_arr as it is on entry, which
main does not initialise. The result is the final value of eight, the array and
param_len. -/
def main_param (ulong_max : Nat) (eight longlist : Int) (addrs : List Nat)
    (param_arr : List Nat) : Except ParamErr (Int × List Nat × Nat) :=
  match select_eight ulong_max eight addrs with
  | .error e => .error e
  | .ok e =>
    match encode_loop e addrs 4 param_arr with
    | none => .error .outOfBounds
    | some (p, k) =>
      match put_header longlist p (k - 4) with
      | none => .error .outOfBounds
      | some q => .ok (e, q, k)

/-- The size of the array param_arr of main. -/
def PARAM_ARR_SIZE : Nat := 4 + MAX_NUM_ADDR * 8

/-! ## main: the length of the grown defect list -/

/-- What main prints about the grown defect list: a count of elements, or a length in
bytes when the size of an element is not known. -/
inductive GrownReport where
  | elements (count : Nat)
  | bytes (len : Nat)
  deriving DecidableEq, Repr

/-- What main takes from the header of a READ DEFECT DATA (10) response. -/
structure GrownInfo where
  dl_format : Nat
  div : Nat
  dl_len : Nat
  report : GrownReport
  deriving DecidableEq, Repr

/-- Why the header of the response is refused: it is not that of a grown list alone
(asked for grown defect list but didn't get it). -/
inductive GrownErr where
  | notGrownList
  deriving DecidableEq, Repr

/-- The statements of main that follow a successful READ DEFECT DATA (10): the test of
byte 1, the format code, the size of an element (div, 0 when the format is unknown),
the length of the list and the line printed. The bytes of param_arr are below 256. -/
def grown_decode (param_arr : List Nat) : Except GrownErr GrownInfo :=
  if 0x8 ≠ (param_arr.getD 1 0 &&& 0x18) then .error .notGrownList
  else
    let dl_format := param_arr.getD 1 0 &&& 0x7
    let div := if dl_format = 0 then 4
      else if dl_format = 3 ∨ dl_format = 4 ∨ dl_format = 5 then 8
      else 0
    let dl_len := param_arr.getD 2 0 * 2 ^ 8 + param_arr.getD 3 0
    .ok { dl_format := dl_format, div := div, dl_len := dl_len,
          report := if dl_len = 0 then .elements 0
            else if div = 0 then .bytes dl_len
            else .elements (dl_len / div) }

deriving instance DecidableEq for Except

/-! ## Notions used to state the properties -/

/-- The width in bytes of an address for a value of eight. -/
def addrWidth (eight : Int) : Nat := if eight ≠ 0 then 8 else 4

/-- The w bytes of the big-endian form of a, most significant first (the low 8w bits
of a when a is larger). -/
def bigEndian : Nat → Nat → List Nat
  | 0, _ => []
  | w + 1, a => (a / 2 ^ (8 * w) % 256) :: bigEndian w a

/-- The number whose big-endian form is the list of bytes. -/
def beValue (bytes : List Nat) : Nat := bytes.foldl (fun acc b => acc * 256 + b) 0

/-- The first n integers of w bytes each, big-endian, held by a list of bytes. -/
def decodeBE (w : Nat) : Nat → List Nat → List Nat
  | 0, _ => []
  | n + 1, bytes => beValue (bytes.take w) :: decodeBE w n (bytes.drop w)

/-- The four header bytes of a parameter block whose addresses take k bytes, where p0
and p1 are the bytes the array held at indices 0 and 1 before. -/
def headerBytes (longlist : Int) (p0 p1 k : Nat) : List Nat :=
  if longlist ≠ 0 then [k / 2 ^ 24 % 256, k / 2 ^ 16 % 256, k / 2 ^ 8 % 256, k % 256]
  else [p0, p1, k / 2 ^ 8 % 256, k % 256]

/-- The decimal digits. -/
def digitChars : List Char := "0123456789".toList

/-- The value of a list of decimal digits. -/
def decValue (t : List Char) : Nat :=
  t.foldl (fun acc c => 10 * acc + (c.toNat - '0'.toNat)) 0

/-- A decimal number below 2^63: one or more decimal digits. -/
def isNumber (t : List Char) : Bool :=
  !t.isEmpty && t.all (fun c => digitChars.contains c) && decide (decValue t < 2 ^ 63)

/-- A separator of numbers: one or more spaces, tabs or commas. -/
def isSeparator (s : List Char) : Bool :=
  !s.isEmpty && s.all (fun c => sepChars.contains c)

/-- A line of the input, without its newline, given by its parts:
a blank line, made of spaces and tabs (or of nothing);
a comment line, where spaces and tabs are followed by a # and any text;
a data line, where spaces and tabs are followed by a first number, by more numbers each
after a separator, and by spaces, tabs or commas at the end. -/
inductive Line where
  | blank (lead : List Char)
  | comment (lead text : List Char)
  | data (lead first : List Char) (more : List (List Char × List Char)) (trail : List Char)

/-- The characters of a line. -/
def Line.chars : Line → List Char
  | .blank lead => lead
  | .comment lead text => lead ++ '#' :: text
  | .data lead first more trail =>
    lead ++ (first ++ (more.flatMap (fun st => st.1 ++ st.2) ++ trail))

/-- The parts of a line are what they are said to be. -/
def Line.wf : Line → Bool
  | .blank lead => lead.all (fun c => blankChars.contains c)
  | .comment lead text => lead.all (fun c => blankChars.contains c) && text.all (fun c => c != '\n')
  | .data lead first more trail =>
    lead.all (fun c => blankChars.contains c) && isNumber first
      && more.all (fun st => isSeparator st.1 && isNumber st.2)
      && trail.all (fun c => sepChars.contains c)

/-- The numbers a line holds, in order: none for a blank or a comment line. -/
def Line.numbers : Line → List Nat
  | .blank _ => []
  | .comment _ _ => []
  | .data _ first more _ => decValue first :: more.map (fun st => decValue st.2)

/-- The input made of the lines, each followed by a newline. -/
def streamText : List Line → List Char
  | [] => []
  | l :: ls => l.chars ++ '\n' :: streamText ls

/-- The input made of the lines, where no newline follows the last line. -/
def streamTextOpen : List Line → List Char
  | [] => []
  | [l] => l.chars
  | l :: ls => l.chars ++ '\n' :: streamTextOpen ls

/-- The array after the values have been stored from index i on. -/
def storeAll : List Nat → Nat → List Nat → List Nat
  | arr, _, [] => arr
  | arr, i, v :: vs => storeAll (arr.set i v) (i + 1) vs

/-- The command line list made of the tokens, with a comma between two tokens. -/
def commaList : List (List Char) → List Char
  | [] => []
  | [t] => t
  | t :: ts => t ++ ',' :: commaList ts

/-! ## main: the options, the device and the commands -/

/-- The call sscanf(optarg, "%d", &res): none when no item is assigned, the value stored
otherwise, which is the one strtol gives where long has 32 bits (out of range values
are clamped to the ends of int). -/
def sscanf_d (s : List Char) : Option Int :=
  match sscanf_lld s with
  | none => none
  | some v => some (if v < -(2 ^ 31) then -(2 ^ 31) else if v > 2 ^ 31 - 1 then 2 ^ 31 - 1 else v)

/-- The input left after a successful call of build_lba_arr that read the standard
input: the loop over the lines has called fgets until the end of the input, or 512
times. The first argument counts the calls left. -/
def stdin_after : Nat → List Char → List Char
  | 0, stdin => stdin
  | n + 1, stdin =>
    match fgets 512 stdin with
    | none => stdin
    | some (_, rest) => stdin_after n rest

/-- One result of getopt_long in the loop of main, with optarg where the option has an
argument: the value c of the switch. The case help stands for the values h and ?,
the case other for a value that the switch does not name. -/
inductive Opt where
  | address (optarg : List Char)
  | dummy
  | eight (optarg : List Char)
  | grown
  | help
  | longlist (optarg : List Char)
  | verbose
  | version
  | other (c : Int)
  deriving DecidableEq, Repr

/-- A call of the transport by main, with its arguments (and, for an open, its result).
The parameter block of REASSIGN BLOCKS is given by its first param_len bytes. -/
inductive Event where
  | openDevice (name : List Char) (read_only : Int) (verbose : Int) (result : Int)
  | closeDevice (fd : Int)
  | reassignBlocks (fd : Int) (eight longlist : Int) (param : List Nat)
  | readDefect10 (fd : Int) (req_plist req_glist dl_format : Int) (param_len : Nat)
  deriving DecidableEq, Repr

/-- A line printed by main, on stdout or stderr. -/
inductive Msg where
  | badAddress (e : BuildErr)
  | badEight
  | badLonglist
  | usage
  | version
  | unrecognised (c : Int)
  | extraArgument (arg : List Char)
  | missingDevice
  | grownAndAddress
  | needAddress
  | widthMismatch (addressNumber : Nat)
  | openError
  | dummyNotExecuted
  | reassignNotSupported
  | reassignFailed
  | defectNotSupported
  | defectFailed
  | notGrownList
  | askedGot (asked got : Nat)
  | formatUnknown (dl_format : Nat)
  | grown (report : GrownReport)
  | closeError
  deriving DecidableEq, Repr

/-- The behaviour of the transport during one run: the value of the macro
SG_LIB_CAT_INVALID_OP of sg_lib.h (which is not part of the sources), the result of
sg_cmds_open_device, the result of sg_ll_reassign_blocks, the result of
sg_ll_read_defect10 with the bytes it leaves at the start of param_arr, and the result
of sg_cmds_close_device. -/
structure Transport where
  invalid_op : Int
  open1 : Int
  reassign_blocks : Int
  read_defect10 : Int × List Nat
  close : Int

/-- The variables of main set by the loop over the options, and the standard input not
yet read. -/
structure Options where
  dummy : Int
  got_addr : Int
  eight : Int
  addr_arr : List Nat
  addr_arr_len : Nat
  grown : Int
  longlist : Int
  verbose : Int
  stdin : List Char
  deriving DecidableEq, Repr

/-- The values of the variables before the loop (the array addr_arr is not read before
the option --address clears it). -/
def Options.init (stdin : List Char) : Options :=
  { dummy := 0, got_addr := 0, eight := -1, addr_arr := List.replicate MAX_NUM_ADDR 0,
    addr_arr_len := 0, grown := 0, longlist := 0, verbose := 0, stdin := stdin }

/-- What main returns: the exit status, the calls of the transport, in order, and the
lines printed. -/
structure Outcome where
  exit : Int
  events : List Event
  out : List Msg
  deriving DecidableEq, Repr

/-- The result of one turn of the loop over the options: main returns, or the loop goes
on with new values of the variables. -/
inductive Step where
  | stop (exit : Int) (out : List Msg)
  | next (o : Options)
  deriving DecidableEq

/-- The switch of the loop over the options, for one result of getopt_long. -/
def opt_step (o : Options) : Opt → Step
  | .address optarg =>
    match main_address optarg o.stdin with
    | .error e => .stop 1 [.badAddress e]
    | .ok (arr, len) =>
      .next { o with addr_arr := arr, addr_arr_len := len, got_addr := 1,
                     stdin := if optarg.head? = some '-' then stdin_after 512 o.stdin
                              else o.stdin }
  | .dummy => .next { o with dummy := 1 }
  | .eight optarg =>
    match sscanf_d optarg with
    | some res => if res = 0 ∨ res = 1 then .next { o with eight := res } else .stop 1 [.badEight]
    | none => .stop 1 [.badEight]
  | .grown => .next { o with grown := 1 }
  | .help => .stop 0 [.usage]
  | .longlist optarg =>
    match sscanf_d optarg with
    | some res =>
      if res = 0 ∨ res = 1 then .next { o with longlist := res } else .stop 1 [.badLonglist]
    | none => .stop 1 [.badLonglist]
  | .verbose => .next { o with verbose := o.verbose + 1 }
  | .version => .stop 0 [.version]
  | .other c => .stop 1 [.unrecognised c, .usage]

/-- The loop while (1) over the results of getopt_long. -/
def opt_loop : Options → List Opt → Step
  | o, [] => .next o
  | o, c :: rest =>
    match opt_step o c with
    | .stop e m => .stop e m
    | .next o1 => opt_loop o1 rest

/-- The statements that fill device_name from the arguments left after the options,
argv[optind], ...: the name (at most 255 characters of the first argument, none when
there is no argument), or the lines printed when there are more arguments than one. -/
def device_name (args : List (List Char)) : Except (List Msg) (List Char) :=
  match args with
  | [] => .ok []
  | [a] => .ok (a.take 255)
  | _ :: rest => .error (rest.map Msg.extraArgument ++ [.usage])

/-- The end of main from the label err_out, with the value of ret. -/
def err_out (t : Transport) (fd : Int) (ret : Int) (events : List Event) (out : List Msg) :
    Outcome :=
  if t.close < 0 then
    { exit := 1, events := events ++ [.closeDevice fd], out := out ++ [.closeError] }
  else { exit := ret, events := events ++ [.closeDevice fd], out := out }

/-- The branch of main that reads the length of the grown defect list, entered with the
device open as fd. The value of ret is 1 throughout. -/
def grown_branch (t : Transport) (o : Options) (fd : Int) (events : List Event) : Outcome :=
  let ev := events ++ [.readDefect10 fd 0 1 4 4]
  if t.invalid_op = t.read_defect10.1 then err_out t fd 1 ev [.defectNotSupported]
  else if t.read_defect10.1 ≠ 0 then err_out t fd 1 ev [.defectFailed]
  else
    match grown_decode t.read_defect10.2 with
    | .error _ => err_out t fd 1 ev [.notGrownList]
    | .ok g =>
      err_out t fd 1 ev
        ((if o.verbose ≠ 0 then [.askedGot 4 g.dl_format] else [])
          ++ (if g.div = 0 then [.formatUnknown g.dl_format] else [])
          ++ [.grown g.report])

/-- The part of main that follows the loop over the options. The array param_arr is
given as it is on entry, since main does not initialise it. The result is none where
main reads or writes past the end of an array, which C leaves undefined. -/
def run (t : Transport) (o : Options) (args : List (List Char)) (param_arr : List Nat) :
    Option Outcome :=
  match device_name args with
  | .error m => some { exit := 1, events := [], out := m }
  | .ok name =>
    if name = [] then some { exit := 1, events := [], out := [.missingDevice, .usage] }
    else if o.grown ≠ 0 ∧ o.got_addr ≠ 0 then
      some { exit := 1, events := [], out := [.grownAndAddress, .usage] }
    else if o.grown = 0 ∧ (o.got_addr = 0 ∨ o.addr_arr_len < 1) then
      some { exit := 1, events := [], out := [.needAddress, .usage] }
    else if o.got_addr ≠ 0 then
      if o.addr_arr.length < o.addr_arr_len then none
      else
        match main_param ULONG_MAX o.eight o.longlist (o.addr_arr.take o.addr_arr_len)
            param_arr with
        | .error (.widthMismatch k) => some { exit := 1, events := [], out := [.widthMismatch k] }
        | .error .outOfBounds => none
        | .ok (eight, p, param_len) =>
          let ev := [Event.openDevice name 0 o.verbose t.open1]
          if t.open1 < 0 then some { exit := 1, events := ev, out := [.openError] }
          else if o.dummy ≠ 0 then some { exit := 0, events := ev, out := [.dummyNotExecuted] }
          else
            let ev1 := ev ++ [.reassignBlocks t.open1 eight o.longlist (p.take param_len)]
            if t.invalid_op = t.reassign_blocks then
              some (err_out t t.open1 1 ev1 [.reassignNotSupported])
            else if t.reassign_blocks ≠ 0 then some (err_out t t.open1 1 ev1 [.reassignFailed])
            else some (err_out t t.open1 0 ev1 [])
    else
      let ev := [Event.openDevice name 0 o.verbose t.open1]
      if t.open1 < 0 then some { exit := 1, events := ev, out := [.openError] }
      else some (grown_branch t o t.open1 ev)

/-- The function main of sg_reassign, for the results of getopt_long in order, the
arguments left after the options, the content of the standard input, the content of
param_arr on entry and the behaviour of the transport. -/
def main (opts : List Opt) (args : List (List Char)) (stdin : List Char)
    (param_arr : List Nat) (t : Transport) : Option Outcome :=
  match opt_loop (Options.init stdin) opts with
  | .stop e m => some { exit := e, events := [], out := m }
  | .next o => run t o args param_arr

/-! ## Notions about hexadecimal numbers -/

/-- The hexadecimal digits. -/
def hexChars : List Char := "0123456789abcdefABCDEF".toList

/-- The value of a list of hexadecimal digits. -/
def hexValue (t : List Char) : Nat :=
  t.foldl (fun acc c => 16 * acc + (hexDigit c).getD 0) 0

/-- The last character of the buffer is h or H. -/
def endsInH (buf : List Char) : Bool :=
  buf.getLast? = some 'h' || buf.getLast? = some 'H'

/-- The buffer begins with 0x or 0X. -/
def hasHexPrefix : List Char → Bool
  | '0' :: x :: _ => x = 'x' || x = 'X'
  | _ => false

/-- The letters that may follow the digits of a number in a command line list. -/
def trailChars : List Char := "abcdefABCDEFxXhH".toList

/-- A token of a command line list given by its parts: a decimal number below 2^63,
then letters; it does not begin with 0x or 0X. -/
def isLeadToken (p : List Char × List Char) : Bool :=
  isNumber p.1 && p.2.all (fun c => trailChars.contains c) && !hasHexPrefix (p.1 ++ p.2)

/-! ## Notions about lines and lists of tokens -/

/-- The characters a number may hold: the digits and the letters a to f, h and x, in
either case. -/
def numberChars : List Char := "0123456789aAbBcCdDeEfFhHxX".toList

/-- A token: one or more of the characters a number may hold. -/
def isToken (t : List Char) : Bool :=
  !t.isEmpty && t.all (fun c => numberChars.contains c)

/-- What follows the first run of separators of a text; nothing when the text holds no
separator. -/
def afterSep (text : List Char) : List Char :=
  (text.dropWhile (fun c => !sepChars.contains c)).dropWhile (fun c => sepChars.contains c)

/-- What may stand at the end of a data line, after the separators that follow the last
token: nothing, or a comment, a # and any text. Where no separator stands between
the last token and the #, the text of the comment holds no separator, or what follows
its first run of separators is nothing or begins with another #. -/
def isNote (trail note : List Char) : Bool :=
  match note with
  | [] => true
  | c :: text =>
    c = '#' && text.all (fun x => x != '\n' && x != Char.ofNat 0)
      && (!trail.isEmpty || (afterSep text).isEmpty || (afterSep text).head? = some '#')

/-- A line of the input, without its newline, given by its parts:
a blank line, made of spaces and tabs (or of nothing);
a comment line, where spaces and tabs are followed by a # and any text;
a data line, where spaces and tabs are followed by a first token, by more tokens each
after a separator, by spaces, tabs or commas (or nothing), and by a comment or by
nothing. -/
inductive Row where
  | blank (lead : List Char)
  | comment (lead text : List Char)
  | data (lead first : List Char) (more : List (List Char × List Char))
      (trail note : List Char)

/-- The characters of a line. -/
def Row.chars : Row → List Char
  | .blank lead => lead
  | .comment lead text => lead ++ '#' :: text
  | .data lead first more trail note =>
    lead ++ (first ++ (more.flatMap (fun st => st.1 ++ st.2) ++ (trail ++ note)))

/-- The parts of a line are what they are said to be. -/
def Row.wf : Row → Bool
  | .blank lead => lead.all (fun c => blankChars.contains c)
  | .comment lead text => lead.all (fun c => blankChars.contains c) && text.all (fun c => c != '\n')
  | .data lead first more trail note =>
    lead.all (fun c => blankChars.contains c) && isToken first
      && more.all (fun st => isSeparator st.1 && isToken st.2)
      && trail.all (fun c => sepChars.contains c) && isNote trail note

end SgReassign

/-!
sg3_utils, the program sg_readcap.

A shallow embedding of main of src/sg_readcap.c. The arguments are argv[1], argv[2], ...;
the transport (sg_cmds_open_device, sg_ll_readcap_10, sg_ll_readcap_16 and
sg_cmds_close_device) is given by the results of its calls; the result of main is its
exit status, the calls of the transport it made, in order, and the lines it printed.
The two sizes printed as floating point numbers (MiB, GB) are left out.
-/

namespace SgReadcap

open SgReassign (sscanf_llx)

/-- A call of the transport, with its arguments (and, for an open, its result). -/
inductive Event where
  | openDevice (name : List Char) (read_only : Int) (verbose : Int) (result : Int)
  | closeDevice (fd : Int)
  | readcap10 (fd : Int) (pmi : Int) (lba : Nat)
  | readcap16 (fd : Int) (pmi : Int) (llba : Nat)
  deriving DecidableEq, Repr

/-- A line printed by main, on stdout or stderr, with the numbers it shows. -/
inductive Msg where
  | version
  | usage
  | badLba
  | unrecognized (cp : List Char)
  | tooManyArgs (cp : List Char)
  | noDevice
  | lbaNeedsPmi
  | openError
  | brief (blocks block_size : Nat)
  | results
  | pmiMode (lba last_blk_addr : Nat)
  | lastBlock (last_blk_addr blocks : Nat)
  | blockSize (block_size : Nat)
  | deviceSize (total_sz : Nat)
  | tooLarge
  | reopenError
  | trying16
  | badField10
  | failed10 (res : Int)
  | protection (prot_en p_type : Nat)
  | notSupported16
  | badField16
  | failed16 (res : Int)
  deriving DecidableEq, Repr

/-- The behaviour of the transport during one run: the values of the macros
SG_LIB_CAT_INVALID_OP and SG_LIB_CAT_ILLEGAL_REQ of sg_lib.h (which is not part of the
sources), the results of the first and of the second call of sg_cmds_open_device, and
for each of the two commands its result and the content of resp_buff after it. -/
structure Transport where
  invalid_op : Int
  illegal_req : Int
  open1 : Int
  open2 : Int
  readcap10 : Int × List Nat
  readcap16 : Int × List Nat

/-- The variables of main set by the loop over the arguments. -/
structure Options where
  lba : Nat
  llba : Nat
  brief : Int
  pmi : Int
  do16 : Int
  verbose : Int
  file_name : Option (List Char)
  deriving DecidableEq, Repr

/-- The values of the variables before the loop. -/
def Options.init : Options :=
  { lba := 0, llba := 0, brief := 0, pmi := 0, do16 := 0, verbose := 0, file_name := none }

/-- What main returns: the exit status, the calls of the transport and the lines
printed. -/
structure Outcome where
  exit : Int
  events : List Event
  out : List Msg
  deriving DecidableEq, Repr

/-- The result of the loop over the characters of an option: main ends at once, or the
loop is left at cp with a value of jmp_out. -/
inductive Dash where
  | stop (exit : Int) (out : List Msg)
  | next (cp : List Char) (jmp_out : Bool) (o : Options)
  deriving DecidableEq

/-- The loop over the characters that follow the - of an option,
for (--plen, ++cp, jmp_out = 0; plen > 0; --plen, ++cp), started at cp. -/
def dash_loop : List Char → Options → Dash
  | [], o => .next [] false o
  | c :: cp, o =>
    if c = '1' then
      match cp with
      | '6' :: rest => dash_loop rest { o with do16 := 1 }
      | _ => .next (c :: cp) true o
    else if c = 'b' then dash_loop cp { o with brief := 1 }
    else if c = 'p' then
      match cp with
      | 'm' :: 'i' :: rest => dash_loop rest { o with pmi := 1 }
      | _ => .next (c :: cp) true o
    else if c = 'v' then dash_loop cp { o with verbose := o.verbose + 1 }
    else if c = 'V' then .stop 0 [.version]
    else if c = '?' ∨ c = 'h' then .stop 1 [.usage]
    else .next (c :: cp) true o

/-- The result of one turn of the loop over the arguments: main ends, or the loop goes
on with new values of the variables. -/
inductive Step where
  | stop (exit : Int) (out : List Msg)
  | next (o : Options)
  deriving DecidableEq

/-- The body of the loop over the arguments, for one argument. -/
def arg_step (o : Options) (arg : List Char) : Step :=
  match arg with
  | [] => .next o
  | c :: rest =>
    if c = '-' then
      match dash_loop rest o with
      | .stop e m => .stop e m
      | .next cp jmp_out o1 =>
        if cp = [] then .next o1
        else if "lba=".toList.isPrefixOf cp then
          match sscanf_llx (cp.drop 4) with
          | none => .stop 1 [.badLba, .usage]
          | some u =>
            .next { o1 with llba := u, do16 := if u > 0xfffffffe then 1 else o1.do16,
                            lba := u % 2 ^ 32 }
        else if jmp_out then .stop 1 [.unrecognized cp, .usage]
        else .next o1
    else
      match o.file_name with
      | none => .next { o with file_name := some arg }
      | some _ => .stop 1 [.tooManyArgs arg, .usage]

/-- The loop over the arguments, for (k = 1; k < argc; ++k). -/
def parse_args : Options → List (List Char) → Step
  | o, [] => .next o
  | o, arg :: rest =>
    match arg_step o arg with
    | .stop e m => .stop e m
    | .next o1 => parse_args o1 rest

/-- The expression (resp_buff[i] << 24) | (resp_buff[i+1] << 16) | (resp_buff[i+2] << 8)
| resp_buff[i+3], stored in an unsigned int. -/
def get32 (resp_buff : List Nat) (i : Nat) : Nat :=
  (resp_buff.getD i 0 <<< 24 ||| resp_buff.getD (i + 1) 0 <<< 16
    ||| resp_buff.getD (i + 2) 0 <<< 8 ||| resp_buff.getD (i + 3) 0) % 2 ^ 32

/-- The loop for (k = 0, llast_blk_addr = 0; k < 8; ++k) with the statements
llast_blk_addr <<= 8 and llast_blk_addr |= resp_buff[k], on an unsigned long long. -/
def get64 (resp_buff : List Nat) : Nat :=
  (List.range 8).foldl (fun llast k => (llast <<< 8) % 2 ^ 64 ||| resp_buff.getD k 0) 0

/-- The end of main after the label good. -/
def good (fd : Int) (events : List Event) (out : List Msg) : Outcome :=
  { exit := 0, events := events ++ [.closeDevice fd], out := out }

/-- The end of main when no result was printed: the line 0x0 0x0 if brief, the close of
the device and the exit status 1. -/
def failed (o : Options) (fd : Int) (events : List Event) (out : List Msg) : Outcome :=
  { exit := 1, events := events ++ [.closeDevice fd],
    out := out ++ (if o.brief ≠ 0 then [.brief 0 0] else []) }

/-- The lines printed for a successful READ CAPACITY (10) whose last block address is not
0xffffffff. -/
def report10 (o : Options) (resp_buff : List Nat) : List Msg :=
  let last_blk_addr := get32 resp_buff 0
  let block_size := get32 resp_buff 4
  if o.brief ≠ 0 then [.brief ((last_blk_addr + 1) % 2 ^ 32) block_size]
  else
    [.results]
    ++ (if o.pmi ≠ 0 then [.pmiMode o.lba last_blk_addr]
        else [.lastBlock last_blk_addr ((last_blk_addr + 1) % 2 ^ 32)])
    ++ [.blockSize block_size]
    ++ (if o.pmi = 0 then [.deviceSize (((last_blk_addr + 1) % 2 ^ 32) * block_size % 2 ^ 64)]
        else [])

/-- The lines printed for a successful READ CAPACITY (16). -/
def report16 (o : Options) (resp_buff : List Nat) : List Msg :=
  let llast_blk_addr := get64 resp_buff
  let block_size := get32 resp_buff 8
  if o.brief ≠ 0 then [.brief ((llast_blk_addr + 1) % 2 ^ 64) block_size]
  else
    [.results,
     .protection (if resp_buff.getD 12 0 &&& 0x1 ≠ 0 then 1 else 0)
       (resp_buff.getD 12 0 >>> 1 &&& 0x7)]
    ++ (if o.pmi ≠ 0 then [.pmiMode o.llba llast_blk_addr]
        else [.lastBlock llast_blk_addr ((llast_blk_addr + 1) % 2 ^ 64)])
    ++ [.blockSize block_size]
    ++ (if o.pmi = 0 then
          [.deviceSize (((llast_blk_addr + 1) % 2 ^ 64) * block_size % 2 ^ 64)]
        else [])

/-- The block if (do16) of main and what follows it, entered with the device open as fd
after the calls and lines given. -/
def phase16 (t : Transport) (o : Options) (fd : Int) (events : List Event)
    (out : List Msg) : Outcome :=
  if t.readcap16.1 = 0 then
    good fd (events ++ [.readcap16 fd o.pmi o.llba]) (out ++ report16 o t.readcap16.2)
  else
    failed o fd (events ++ [.readcap16 fd o.pmi o.llba])
      (out ++ (if t.invalid_op = t.readcap16.1 then [.notSupported16]
               else if t.illegal_req = t.readcap16.1 then [.badField16]
               else if o.verbose = 0 then [.failed16 t.readcap16.1]
               else []))

/-- The part of main that follows the loop over the arguments. -/
def run (t : Transport) (o : Options) : Outcome :=
  match o.file_name with
  | none => { exit := 1, events := [], out := [.noDevice, .usage] }
  | some name =>
    if o.pmi = 0 ∧ o.lba > 0 then { exit := 1, events := [], out := [.lbaNeedsPmi, .usage] }
    else if t.open1 < 0 then
      { exit := 1,
        events := [.openDevice name (if o.do16 ≠ 0 then 0 else 1) o.verbose t.open1],
        out := [.openError] }
    else
      let ev := [Event.openDevice name (if o.do16 ≠ 0 then 0 else 1) o.verbose t.open1]
      if o.do16 = 0 then
        let ev10 := ev ++ [.readcap10 t.open1 o.pmi o.lba]
        if t.readcap10.1 = 0 then
          if get32 t.readcap10.2 0 ≠ 0xffffffff then
            good t.open1 ev10 (report10 o t.readcap10.2)
          else phase16 t o t.open1 ev10 [.tooLarge]
        else if t.invalid_op = t.readcap10.1 then
          if t.open2 < 0 then
            { exit := 1,
              events := ev10 ++ [.closeDevice t.open1, .openDevice name 0 o.verbose t.open2],
              out := [.reopenError] }
          else
            phase16 t o t.open2
              (ev10 ++ [.closeDevice t.open1, .openDevice name 0 o.verbose t.open2])
              (if o.verbose ≠ 0 then [.trying16] else [])
        else if t.illegal_req = t.readcap10.1 then failed o t.open1 ev10 [.badField10]
        else if o.verbose = 0 then failed o t.open1 ev10 [.failed10 t.readcap10.1]
        else failed o t.open1 ev10 []
      else phase16 t o t.open1 ev []

/-- The function main of sg_readcap. -/
def main (argv : List (List Char)) (t : Transport) : Outcome :=
  match parse_args Options.init argv with
  | .stop e m => { exit := e, events := [], out := m }
  | .next o => run t o

/-- What the loop over the arguments keeps true of its variables: lba is llba cut to 32
bits, do16 is 0 or 1, and it is 1 once llba is above 0xfffffffe. -/
def Options.consistent (o : Options) : Prop :=
  o.lba = o.llba % 2 ^ 32 ∧ (o.llba > 0xfffffffe → o.do16 ≠ 0) ∧ (o.do16 = 0 ∨ o.do16 = 1)

end SgReadcap

/-!
sg3_utils, the program sg_start.

A shallow embedding of main of src/sg_start.c, in the same way as for sg_readcap: the
arguments are argv[1], argv[2], ...; the transport (sg_cmds_open_device,
sg_ll_start_stop_unit and sg_cmds_close_device) is given by the results of its calls;
the result of main is its exit status, the calls of the transport it made and the
lines it printed. The function usage ends the program with status 1.
-/

namespace SgStart

open SgReassign (scanSign scanHexItem isspace ULONG_MAX)

/-- The call sscanf(s, "%x", &u): none when no item is assigned, the value stored in the
unsigned int otherwise. The value is the one strtoul gives in base 16 (too large a
value is clamped to ULONG_MAX, a minus sign negates modulo ULONG_MAX + 1), cut to 32
bits. -/
def sscanf_x (s : List Char) : Option Nat :=
  let (neg, t) := scanSign (s.dropWhile isspace)
  let (cnt, v) := scanHexItem t
  if cnt = 0 then none
  else if ULONG_MAX < v then some (ULONG_MAX % 2 ^ 32)
  else if neg then some ((ULONG_MAX + 1 - v) % (ULONG_MAX + 1) % 2 ^ 32)
  else some (v % 2 ^ 32)

/-- The conversion of an unsigned int to int. -/
def toInt (u : Nat) : Int :=
  if u % 2 ^ 32 < 2 ^ 31 then ((u % 2 ^ 32 : Nat) : Int) else ((u % 2 ^ 32 : Nat) : Int) - 2 ^ 32

/-- A call of the transport, with its arguments (and, for an open, its result). The
arguments of startStopUnit are those of sg_ll_start_stop_unit, but noisy and verbose. -/
inductive Event where
  | openDevice (name : List Char) (read_only : Int) (verbose : Int) (result : Int)
  | closeDevice (fd : Int)
  | startStopUnit (fd immed fl_num power_cond fl loej start : Int)
  deriving DecidableEq, Repr

/-- A line printed by main. -/
inductive Msg where
  | version
  | usage
  | badFl
  | badImm
  | badPc
  | unrecognized (cp : List Char)
  | tooManyArgs (cp : List Char)
  | ambiguous
  | noDevice
  | flWithStop
  | flWithPc
  | openError
  | notSupported
  | malformed
  | failed
  deriving DecidableEq, Repr

/-- The behaviour of the transport during one run: the values of the macros
SG_LIB_CAT_INVALID_OP and SG_LIB_CAT_ILLEGAL_REQ of sg_lib.h (which is not part of the
sources), the result of sg_cmds_open_device and the result of sg_ll_start_stop_unit. -/
structure Transport where
  invalid_op : Int
  illegal_req : Int
  open1 : Int
  start_stop : Int

/-- The variables of main set by the loop over the arguments. -/
structure Options where
  startstop : Int
  file_name : Option (List Char)
  immed : Int
  loej : Int
  fl_num : Int
  power_conds : Int
  verbose : Int
  deriving DecidableEq, Repr

/-- The values of the variables before the loop. -/
def Options.init : Options :=
  { startstop := -1, file_name := none, immed := 0, loej := 0, fl_num := -1,
    power_conds := 0, verbose := 0 }

/-- What main returns: the exit status, the calls of the transport and the lines
printed. -/
structure Outcome where
  exit : Int
  events : List Event
  out : List Msg
  deriving DecidableEq, Repr

/-- The result of the loop over the characters of an option: main ends at once, or the
loop is left at cp with a value of jmp_out. -/
inductive Dash where
  | stop (exit : Int) (out : List Msg)
  | next (cp : List Char) (jmp_out : Bool) (o : Options)
  deriving DecidableEq

/-- The loop over the characters that follow the first - of an option,
for (--plen, ++cp, jmp_out = 0; plen > 0; --plen, ++cp), started at cp. -/
def dash_loop : List Char → Options → Dash
  | [], o => .next [] false o
  | c :: cp, o =>
    if c = 'v' then dash_loop cp { o with verbose := o.verbose + 1 }
    else if c = 'V' then .stop 0 [.version]
    else if c = '?' then .stop 1 [.usage]
    else if c = '-' then .next cp true o
    else .next (c :: cp) true o

/-- The result of one turn of the loop over the arguments: main ends, or the loop goes
on with new values of the variables. -/
inductive Step where
  | stop (exit : Int) (out : List Msg)
  | next (o : Options)
  deriving DecidableEq

/-- The end of main when ambigu is set. -/
def ambiguous : Step := .stop 1 [.ambiguous, .usage]

/-- The body of the loop over the arguments, for one argument. -/
def arg_step (o : Options) (arg : List Char) : Step :=
  match arg with
  | [] => .next o
  | c :: rest =>
    if c = '-' then
      match dash_loop rest o with
      | .stop e m => .stop e m
      | .next cp jmp_out o1 =>
        if cp = [] then .next o1
        else if "eject".toList.isPrefixOf cp then
          if o1.startstop = 1 then ambiguous else .next { o1 with loej := 1, startstop := 0 }
        else if "fl=".toList.isPrefixOf cp then
          match sscanf_x (cp.drop 3) with
          | none => .stop 1 [.badFl, .usage]
          | some u => .next { o1 with fl_num := toInt u }
        else if "imm=".toList.isPrefixOf cp then
          match sscanf_x (cp.drop 4) with
          | none => .stop 1 [.badImm, .usage]
          | some u => if u > 1 then .stop 1 [.badImm, .usage] else .next { o1 with immed := u }
        else if "load".toList.isPrefixOf cp then
          if o1.startstop = 0 then ambiguous else .next { o1 with loej := 1, startstop := 1 }
        else if "loej".toList.isPrefixOf cp then .next { o1 with loej := 1 }
        else if "pc=".toList.isPrefixOf cp then
          match sscanf_x (cp.drop 3) with
          | none => .stop 1 [.badPc, .usage]
          | some u =>
            if u > 15 then .stop 1 [.badPc, .usage] else .next { o1 with power_conds := u }
        else if "start".toList.isPrefixOf cp then
          if o1.startstop = 0 then ambiguous else .next { o1 with startstop := 1 }
        else if "stop".toList.isPrefixOf cp then
          if o1.startstop = 1 then ambiguous else .next { o1 with startstop := 0 }
        else if jmp_out then .stop 1 [.unrecognized cp, .usage]
        else .next o1
    else if arg = "0".toList then
      if o.startstop ≥ 0 then ambiguous else .next { o with startstop := 0 }
    else if arg = "1".toList then
      if o.startstop ≥ 0 then ambiguous else .next { o with startstop := 1 }
    else
      match o.file_name with
      | none => .next { o with file_name := some arg }
      | some _ => .stop 1 [.tooManyArgs arg, .usage]

/-- The loop over the arguments, for (k = 1; k < argc; ++k). -/
def parse_args : Options → List (List Char) → Step
  | o, [] => .next o
  | o, arg :: rest =>
    match arg_step o arg with
    | .stop e m => .stop e m
    | .next o1 => parse_args o1 rest

/-- The checks and defaults of main between the loop over the arguments and the open of
the device: the lines printed when main ends there, the variables otherwise. -/
def resolve (o : Options) : Except (List Msg) Options :=
  match o.file_name with
  | none => .error [.noDevice, .usage]
  | some _ =>
    if o.fl_num ≥ 0 then
      if o.startstop = 0 then .error [.flWithStop, .usage]
      else if o.power_conds > 0 then .error [.flWithPc, .usage]
      else .ok o
    else
      .ok { o with startstop :=
              if (if o.startstop = -1 ∧ o.loej ≠ 0 then 0 else o.startstop) = -1
                  ∧ o.power_conds = 0 then 1
              else if o.startstop = -1 ∧ o.loej ≠ 0 then 0 else o.startstop }

/-- The command issued for the variables, if any, on the handle fd. -/
def command (o : Options) (fd : Int) : List Event :=
  if o.fl_num ≥ 0 then [.startStopUnit fd o.immed o.fl_num o.power_conds 1 1 1]
  else if o.power_conds > 0 then [.startStopUnit fd o.immed 0 o.power_conds 0 0 0]
  else if o.startstop ≠ -1 then [.startStopUnit fd o.immed 0 0 0 o.loej o.startstop]
  else []

/-- The part of main from the open of the device on. -/
def run (t : Transport) (o : Options) : Outcome :=
  if t.open1 < 0 then
    { exit := 2, events := [.openDevice (o.file_name.getD []) 0 o.verbose t.open1],
      out := [.openError] }
  else
    { exit := if (if command o t.open1 = [] then 0 else t.start_stop) ≠ 0 then 1 else 0,
      events := [.openDevice (o.file_name.getD []) 0 o.verbose t.open1]
        ++ command o t.open1 ++ [.closeDevice t.open1],
      out :=
        if (if command o t.open1 = [] then 0 else t.start_stop) ≠ 0 then
          (if o.verbose < 2 then
            (if t.invalid_op = t.start_stop then [.notSupported]
             else if t.illegal_req = t.start_stop then [.malformed]
             else [])
           else []) ++ [.failed]
        else [] }

/-- The loop over the arguments followed by the checks and defaults: the exit status and
lines printed when main ends before the open of the device, the variables otherwise. -/
def resolved (argv : List (List Char)) : Except (Int × List Msg) Options :=
  match parse_args Options.init argv with
  | .stop e m => .error (e, m)
  | .next o =>
    match resolve o with
    | .error m => .error (1, m)
    | .ok o1 => .ok o1

/-- The function main of sg_start. -/
def main (argv : List (List Char)) (t : Transport) : Outcome :=
  match resolved argv with
  | .error (e, m) => { exit := e, events := [], out := m }
  | .ok o => run t o

/-- A flag of the start-stop tool; the flags with a number carry the text of the number. -/
inductive Flag where
  | eject
  | formatLayer (s : List Char)
  | immediate (s : List Char)
  | load
  | loadEjectBit
  | powerCondition (s : List Char)
  | start
  | stop
  | zero
  | one
  deriving DecidableEq, Repr

/-- The argument that gives a flag on the command line. -/
def Flag.arg : Flag → List Char
  | .eject => "--eject".toList
  | .formatLayer s => "--fl=".toList ++ s
  | .immediate s => "--imm=".toList ++ s
  | .load => "--load".toList
  | .loadEjectBit => "--loej".toList
  | .powerCondition s => "--pc=".toList ++ s
  | .start => "--start".toList
  | .stop => "--stop".toList
  | .zero => "0".toList
  | .one => "1".toList

/-- A flag is well formed when its number, if it has one, is read by sscanf and is in
range: 0 or 1 for the immediate bit, at most 15 for the power condition. -/
def Flag.wf : Flag → Bool
  | .formatLayer s => (sscanf_x s).isSome
  | .immediate s => match sscanf_x s with
    | some u => decide (u ≤ 1)
    | none => false
  | .powerCondition s => match sscanf_x s with
    | some u => decide (u ≤ 15)
    | none => false
  | _ => true

/-- A flag that sets the action: eject, load, start, stop, 0 or 1. -/
def Flag.isAction : Flag → Bool
  | .eject | .load | .start | .stop | .zero | .one => true
  | _ => false

/-- A format layer flag. -/
def Flag.isFormatLayer : Flag → Bool
  | .formatLayer _ => true
  | _ => false

/-- A format layer flag, if it is one, has a number below 2^31. -/
def Flag.layerBelow (f : Flag) : Bool :=
  match f with
  | .formatLayer s => match sscanf_x s with
    | some u => decide (u < 2 ^ 31)
    | none => false
  | _ => true

/-- A device name: an argument that is not empty, does not start with a - and is
neither 0 nor 1. -/
def isDeviceName (name : List Char) : Bool :=
  name ≠ [] && name.head? ≠ some '-' && name ≠ "0".toList && name ≠ "1".toList

/-- What the body of the loop over the arguments does for the argument of a flag. -/
def flagStep (o : Options) : Flag → Step
  | .eject => if o.startstop = 1 then ambiguous else .next { o with loej := 1, startstop := 0 }
  | .formatLayer s =>
    match sscanf_x s with
    | none => .stop 1 [.badFl, .usage]
    | some u => .next { o with fl_num := toInt u }
  | .immediate s =>
    match sscanf_x s with
    | none => .stop 1 [.badImm, .usage]
    | some u => if u > 1 then .stop 1 [.badImm, .usage] else .next { o with immed := u }
  | .load => if o.startstop = 0 then ambiguous else .next { o with loej := 1, startstop := 1 }
  | .loadEjectBit => .next { o with loej := 1 }
  | .powerCondition s =>
    match sscanf_x s with
    | none => .stop 1 [.badPc, .usage]
    | some u => if u > 15 then .stop 1 [.badPc, .usage] else .next { o with power_conds := u }
  | .start => if o.startstop = 0 then ambiguous else .next { o with startstop := 1 }
  | .stop => if o.startstop = 1 then ambiguous else .next { o with startstop := 0 }
  | .zero => if o.startstop ≥ 0 then ambiguous else .next { o with startstop := 0 }
  | .one => if o.startstop ≥ 0 then ambiguous else .next { o with startstop := 1 }

/-- The loop over the arguments of a list of flags, by flagStep. -/
def flagsFrom : Options → List Flag → Step
  | o, [] => .next o
  | o, f :: fs =>
    match flagStep o f with
    | .stop e m => .stop e m
    | .next o1 => flagsFrom o1 fs

/-- A format layer flag, if it is one, has a number of 2^31 or more. -/
def Flag.layerHigh (f : Flag) : Bool :=
  match f with
  | .formatLayer s => match sscanf_x s with
    | some u => decide (2 ^ 31 ≤ u)
    | none => false
  | _ => true

/-- The flags that are left when the format layer flags are taken out. -/
def dropLayer (fs : List Flag) : List Flag :=
  fs.filter (fun f => !f.isFormatLayer)

/-- The text of the number of the last format layer flag of a sequence of flags, if it
holds one. -/
def lastLayer : List Flag → Option (List Char)
  | [] => none
  | f :: fs =>
    match lastLayer fs with
    | some s => some s
    | none =>
      match f with
      | .formatLayer s => some s
      | _ => none

end SgStart

/-!
Notions about the calls of the transport, shared by the three programs.
-/

namespace SgUtils

/-- The commands the three programs submit. -/
inductive Kind where
  | readCapacity10
  | readCapacity16
  | reassignBlocks
  | readDefect10
  | startStopUnit
  deriving DecidableEq, Repr

/-- A call of the transport, as far as the handle is concerned: an open that gives a
handle, an open that fails, the close of a handle, a command submitted on a handle. -/
inductive Call where
  | opened (fd : Int)
  | openFailed
  | closed (fd : Int)
  | command (kind : Kind) (fd : Int)
  deriving DecidableEq, Repr

/-- The discipline of the handle over a sequence of calls, from the handle that is open
at the start (none when no handle is open): the device is opened only while no handle
is open, a handle is closed or used by a command only while it is the open one, and no
handle is open at the end. -/
def closesAll : Option Int → List Call → Bool
  | cur, [] => cur.isNone
  | cur, .opened fd :: rest => cur.isNone && closesAll (some fd) rest
  | cur, .openFailed :: rest => cur.isNone && closesAll none rest
  | cur, .closed fd :: rest => decide (cur = some fd) && closesAll none rest
  | cur, .command _ fd :: rest => decide (cur = some fd) && closesAll cur rest

/-- The commands submitted by a sequence of calls, in order. -/
def commands : List Call → List Kind
  | [] => []
  | .command kind _ :: rest => kind :: commands rest
  | _ :: rest => commands rest

/-- A call of sg_readcap. -/
def readcapCall : SgReadcap.Event → Call
  | .openDevice _ _ _ result => if result < 0 then .openFailed else .opened result
  | .closeDevice fd => .closed fd
  | .readcap10 fd _ _ => .command .readCapacity10 fd
  | .readcap16 fd _ _ => .command .readCapacity16 fd

/-- A call of sg_reassign. -/
def reassignCall : SgReassign.Event → Call
  | .openDevice _ _ _ result => if result < 0 then .openFailed else .opened result
  | .closeDevice fd => .closed fd
  | .reassignBlocks fd _ _ _ => .command .reassignBlocks fd
  | .readDefect10 fd _ _ _ _ => .command .readDefect10 fd

/-- A call of sg_start. -/
def startCall : SgStart.Event → Call
  | .openDevice _ _ _ result => if result < 0 then .openFailed else .opened result
  | .closeDevice fd => .closed fd
  | .startStopUnit fd _ _ _ _ _ _ => .command .startStopUnit fd

end SgUtils

namespace SgReassign

/-! ## Theorems -/

/-! ### The reader on decimal input -/

theorem digit_facts : ∀ c ∈ digitChars,
    decDigit c = some (c.toNat - '0'.toNat) ∧ isspace c = false ∧ sepChars.contains c = false
      ∧ lineChars.contains c = true ∧ blankChars.contains c = false
      ∧ c ≠ '#' ∧ c ≠ '\n' ∧ c ≠ Char.ofNat 0 ∧ c ≠ 'h' ∧ c ≠ 'H' ∧ c ≠ 'x' ∧ c ≠ 'X'
      ∧ c ≠ '-' ∧ c ≠ '+' := by
  decide

theorem sep_facts : ∀ c ∈ sepChars,
    decDigit c = none ∧ lineChars.contains c = true
      ∧ c ≠ '#' ∧ c ≠ '\n' ∧ c ≠ Char.ofNat 0 ∧ c ≠ 'h' ∧ c ≠ 'H' ∧ c ≠ 'x' ∧ c ≠ 'X' := by
  decide

theorem blank_facts : ∀ c ∈ blankChars,
    sepChars.contains c = true ∧ c ≠ '#' ∧ c ≠ '\n' ∧ c ≠ Char.ofNat 0 := by
  decide

theorem takeWhile_append_stop {α : Type} (p : α → Bool) (a b : List α)
    (ha : ∀ x ∈ a, p x = true) (hb : ∀ x, b.head? = some x → p x = false) :
    (a ++ b).takeWhile p = a := by
  induction a with
  | nil =>
    cases b with
    | nil => rfl
    | cons y b => simp [List.takeWhile, hb y rfl]
  | cons x a ih =>
    rw [List.cons_append, List.takeWhile_cons, ha x (List.mem_cons_self _ _), if_pos rfl,
      ih (fun y hy => ha y (List.mem_cons_of_mem _ hy))]

theorem dropWhile_append_stop {α : Type} (p : α → Bool) (a b : List α)
    (ha : ∀ x ∈ a, p x = true) (hb : ∀ x, b.head? = some x → p x = false) :
    (a ++ b).dropWhile p = b := by
  induction a with
  | nil =>
    cases b with
    | nil => rfl
    | cons y b => simp [List.dropWhile, hb y rfl]
  | cons x a ih =>
    rw [List.cons_append, List.dropWhile_cons, ha x (List.mem_cons_self _ _), if_pos rfl,
      ih (fun y hy => ha y (List.mem_cons_of_mem _ hy))]

theorem scanDigits_append (t rest : List Char) (cnt acc : Nat)
    (ht : ∀ c ∈ t, c ∈ digitChars) (hr : ∀ c, rest.head? = some c → decDigit c = none) :
    scanDigits decDigit 10 (t ++ rest) cnt acc
      = (cnt + t.length, t.foldl (fun a c => 10 * a + (c.toNat - '0'.toNat)) acc) := by
  induction t generalizing cnt acc with
  | nil =>
    cases rest with
    | nil => rfl
    | cons y r => simp [scanDigits, hr y rfl]
  | cons x t ih =>
    have hx := (digit_facts x (ht x (List.mem_cons_self _ _))).1
    rw [List.cons_append, scanDigits, hx]
    simp only [List.foldl_cons, List.length_cons]
    rw [ih _ _ (fun y hy => ht y (List.mem_cons_of_mem _ hy))]
    congr 1
    omega

theorem contains_iff (l : List Char) (c : Char) : l.contains c = true ↔ c ∈ l := by
  simp [List.contains]

theorem isNumber_iff (t : List Char) (h : isNumber t = true) :
    t ≠ [] ∧ (∀ c ∈ t, c ∈ digitChars) ∧ decValue t < 2 ^ 63 := by
  simp only [isNumber, Bool.and_eq_true, Bool.not_eq_true', List.isEmpty_eq_false_iff_exists_mem,
    List.all_eq_true, contains_iff, decide_eq_true_eq] at h
  refine ⟨?_, h.1.2, h.2⟩
  obtain ⟨⟨x, hx⟩, _⟩ := h.1
  exact List.ne_nil_of_mem hx

theorem isSeparator_iff (s : List Char) (h : isSeparator s = true) :
    s ≠ [] ∧ ∀ c ∈ s, c ∈ sepChars := by
  simp only [isSeparator, Bool.and_eq_true, Bool.not_eq_true', List.isEmpty_eq_false_iff_exists_mem,
    List.all_eq_true, contains_iff] at h
  obtain ⟨⟨x, hx⟩, h2⟩ := h
  exact ⟨List.ne_nil_of_mem hx, h2⟩

theorem scanSign_plain (c : Char) (s : List Char) (h1 : c ≠ '-') (h2 : c ≠ '+') :
    scanSign (c :: s) = (false, c :: s) := by
  unfold scanSign
  split
  · rename_i heq
    simp at heq
    exact absurd heq.1 h1
  · rename_i heq
    simp at heq
    exact absurd heq.1 h2
  · rfl

theorem get_llnum_decimal (t rest : List Char) (ht : isNumber t = true)
    (hrest : ∀ c ∈ rest, c ∈ digitChars ∨ c ∈ sepChars)
    (hr : ∀ c, rest.head? = some c → c ∈ sepChars) :
    get_llnum (t ++ rest) = (decValue t : Int) := by
  obtain ⟨hne, hdig, hval⟩ := isNumber_iff t ht
  have hall : ∀ c ∈ t ++ rest, c ≠ 'h' ∧ c ≠ 'H' ∧ c ≠ 'x' ∧ c ≠ 'X' := by
    intro c hc
    rcases List.mem_append.mp hc with h | h
    · have := digit_facts c (hdig c h)
      exact ⟨this.2.2.2.2.2.2.2.2.1, this.2.2.2.2.2.2.2.2.2.1, this.2.2.2.2.2.2.2.2.2.2.1,
        this.2.2.2.2.2.2.2.2.2.2.2.1⟩
    · rcases hrest c h with h | h
      · have := digit_facts c h
        exact ⟨this.2.2.2.2.2.2.2.2.1, this.2.2.2.2.2.2.2.2.2.1, this.2.2.2.2.2.2.2.2.2.2.1,
          this.2.2.2.2.2.2.2.2.2.2.2.1⟩
      · have := sep_facts c h
        exact ⟨this.2.2.2.2.2.1, this.2.2.2.2.2.2.1, this.2.2.2.2.2.2.2.1, this.2.2.2.2.2.2.2.2⟩
  cases t with
  | nil => exact absurd rfl hne
  | cons b0 t' =>
    have hb0 := digit_facts b0 (hdig b0 (List.mem_cons_self _ _))
    have hhead : ¬ (b0 = '0' ∧ ((t' ++ rest).head? = some 'x' ∨ (t' ++ rest).head? = some 'X')) := by
      rintro ⟨_, h | h⟩
      · exact (hall 'x' (List.mem_cons_of_mem _ (List.mem_of_mem_head? h))).2.2.1 rfl
      · exact (hall 'X' (List.mem_cons_of_mem _ (List.mem_of_mem_head? h))).2.2.2 rfl
    have hlast : ¬ ((b0 :: (t' ++ rest)).getLast? = some 'h'
        ∨ (b0 :: (t' ++ rest)).getLast? = some 'H') := by
      rintro (h | h)
      · exact (hall 'h' (List.mem_of_mem_getLast? h)).1 rfl
      · exact (hall 'H' (List.mem_of_mem_getLast? h)).2.1 rfl
    have hscan := scanDigits_append (b0 :: t') rest 0 0 hdig
      (fun c hc => (sep_facts c (hr c hc)).1)
    have hlld : sscanf_lld (b0 :: (t' ++ rest)) = some (decValue (b0 :: t') : Int) := by
      unfold sscanf_lld
      rw [List.dropWhile_cons, hb0.2.1]
      simp only [Bool.false_eq_true, if_false]
      rw [scanSign_plain _ _ hb0.2.2.2.2.2.2.2.2.2.2.2.2.1 hb0.2.2.2.2.2.2.2.2.2.2.2.2.2]
      simp only
      rw [← List.cons_append, hscan]
      simp only [zero_add, List.length_cons, Nat.add_one_ne_zero, if_false, Bool.false_eq_true]
      unfold decValue at hval ⊢
      rw [if_pos hval]
    show get_llnum (b0 :: (t' ++ rest)) = _
    unfold get_llnum
    simp only [hhead, hlast, if_false, hlld]

theorem strpbrk_append (a b : List Char) (ha : ∀ c ∈ a, sepChars.contains c = false)
    (hb : ∀ c, b.head? = some c → sepChars.contains c = true) :
    strpbrk (a ++ b) sepChars = if b = [] then none else some b := by
  unfold strpbrk
  have hd := dropWhile_append_stop (fun c => !sepChars.contains c) a b
    (fun c hc => by show (!sepChars.contains c) = true; rw [ha c hc]; rfl)
    (fun c hc => by show (!sepChars.contains c) = false; rw [hb c hc]; rfl)
  rw [hd]
  cases b <;> simp

theorem strspn_append (a b accept : List Char) (ha : ∀ c ∈ a, accept.contains c = true)
    (hb : ∀ c, b.head? = some c → accept.contains c = false) :
    strspn (a ++ b) accept = a.length := by
  unfold strspn
  rw [takeWhile_append_stop _ a b ha hb]

theorem strspn_all (a accept : List Char) (ha : ∀ c ∈ a, accept.contains c = true) :
    strspn a accept = a.length := by
  have := strspn_append a [] accept ha (by simp)
  simpa using this

theorem dataTail_facts (more : List (List Char × List Char)) (trail : List Char)
    (hm : ∀ st ∈ more, isSeparator st.1 = true ∧ isNumber st.2 = true)
    (ht : ∀ c ∈ trail, c ∈ sepChars) :
    (∀ c ∈ more.flatMap (fun st => st.1 ++ st.2) ++ trail, c ∈ digitChars ∨ c ∈ sepChars)
    ∧ (∀ c, (more.flatMap (fun st => st.1 ++ st.2) ++ trail).head? = some c → c ∈ sepChars) := by
  constructor
  · intro c hc
    rcases List.mem_append.mp hc with h | h
    · obtain ⟨st, hst, hcst⟩ := List.mem_flatMap.mp h
      rcases List.mem_append.mp hcst with h1 | h1
      · exact Or.inr ((isSeparator_iff _ (hm st hst).1).2 c h1)
      · exact Or.inl ((isNumber_iff _ (hm st hst).2).2.1 c h1)
    · exact Or.inr (ht c h)
  · intro c hc
    cases more with
    | nil =>
      simp only [List.flatMap_nil, List.nil_append] at hc
      exact ht c (List.mem_of_mem_head? hc)
    | cons st m =>
      obtain ⟨hne, hs⟩ := isSeparator_iff _ (hm st (List.mem_cons_self _ _)).1
      cases hs1 : st.1 with
      | nil => exact absurd hs1 hne
      | cons c0 s' =>
        simp only [List.flatMap_cons, hs1, List.cons_append, List.head?_cons,
          Option.some.injEq] at hc
        subst hc
        exact hs c0 (by rw [hs1]; exact List.mem_cons_self _ _)

theorem toULongLong_decValue (t : List Char) (h : decValue t < 2 ^ 63) :
    toULongLong (decValue t : Int) = decValue t := by
  unfold toULongLong
  omega

theorem line_loop_data (cap off : Nat) (trail : List Char) (ht : ∀ c ∈ trail, c ∈ sepChars)
    (more : List (List Char × List Char)) :
    ∀ (first : List Char) (k fuel : Nat) (arr : List Nat), isNumber first = true →
      (∀ st ∈ more, isSeparator st.1 = true ∧ isNumber st.2 = true) → more.length < fuel →
      line_loop cap off fuel k (first ++ (more.flatMap (fun st => st.1 ++ st.2) ++ trail)) arr
        = if off + k + more.length + 1 ≤ cap then
            .ok (storeAll arr (off + k) (decValue first :: more.map (fun st => decValue st.2)),
              off + (k + more.length + 1))
          else .error .lengthExceeded := by
  induction more with
  | nil =>
    intro first k fuel arr hf _ hfuel
    obtain ⟨n, rfl⟩ : ∃ n, fuel = n + 1 := ⟨fuel - 1, by simp at hfuel; omega⟩
    obtain ⟨hne, hdig, hval⟩ := isNumber_iff first hf
    have hg := get_llnum_decimal first trail hf (fun c hc => Or.inr (ht c hc))
      (fun c hc => ht c (List.mem_of_mem_head? hc))
    have hp := strpbrk_append first trail (fun c hc => (digit_facts c (hdig c hc)).2.2.1)
      (fun c hc => (contains_iff _ _).mpr (ht c (List.mem_of_mem_head? hc)))
    have hne1 : (decValue first : Int) ≠ -1 := by omega
    simp only [List.flatMap_nil, List.nil_append, List.length_nil, List.map_nil, Nat.add_zero,
      storeAll]
    unfold line_loop
    rw [hg, hp, toULongLong_decValue _ hval]
    simp only [ne_eq, hne1, not_false_eq_true, if_true, ge_iff_le]
    by_cases hc : cap ≤ off + k
    · rw [if_pos hc, if_neg (show ¬ off + k + 1 ≤ cap by omega)]
    · rw [if_neg hc, if_pos (show off + k + 1 ≤ cap by omega)]
      by_cases htr : trail = []
      · rw [if_pos htr]
      · rw [if_neg htr]
        simp only
        rw [strspn_all _ _ (fun x hx => (contains_iff _ _).mpr (ht x hx))]
        simp
  | cons st m ih =>
    intro first k fuel arr hf hm hfuel
    obtain ⟨n, rfl⟩ : ∃ n, fuel = n + 1 := ⟨fuel - 1, by simp at hfuel; omega⟩
    obtain ⟨hne, hdig, hval⟩ := isNumber_iff first hf
    obtain ⟨hrest, hhead⟩ := dataTail_facts (st :: m) trail hm ht
    have hg := get_llnum_decimal first _ hf hrest hhead
    have hp := strpbrk_append first _ (fun c hc => (digit_facts c (hdig c hc)).2.2.1)
      (fun c hc => (contains_iff _ _).mpr (hhead c hc))
    have hne1 : (decValue first : Int) ≠ -1 := by omega
    obtain ⟨hsne, hs⟩ := isSeparator_iff _ (hm st (List.mem_cons_self _ _)).1
    obtain ⟨htne, htd, _⟩ := isNumber_iff _ (hm st (List.mem_cons_self _ _)).2
    have hm' : ∀ x ∈ m, isSeparator x.1 = true ∧ isNumber x.2 = true :=
      fun x hx => hm x (List.mem_cons_of_mem _ hx)
    have hshape : (st :: m).flatMap (fun st => st.1 ++ st.2) ++ trail
        = st.1 ++ (st.2 ++ (m.flatMap (fun st => st.1 ++ st.2) ++ trail)) := by
      simp [List.flatMap_cons, List.append_assoc]
    have hspn : strspn (st.1 ++ (st.2 ++ (m.flatMap (fun st => st.1 ++ st.2) ++ trail))) sepChars
        = st.1.length := by
      apply strspn_append _ _ _ (fun x hx => (contains_iff _ _).mpr (hs x hx))
      intro c hc
      cases h2 : st.2 with
      | nil => exact absurd h2 htne
      | cons d t2 =>
        rw [h2] at hc
        simp only [List.cons_append, List.head?_cons, Option.some.injEq] at hc
        subst hc
        exact (digit_facts d (htd d (by rw [h2]; exact List.mem_cons_self _ _))).2.2.1
    have hnext : st.2 ++ (m.flatMap (fun st => st.1 ++ st.2) ++ trail) ≠ [] := by
      intro h
      exact htne (List.append_eq_nil.mp h).1
    have hrne : (st :: m).flatMap (fun st => st.1 ++ st.2) ++ trail ≠ [] := by
      rw [hshape]
      intro h
      exact hsne (List.append_eq_nil.mp h).1
    unfold line_loop
    rw [hg, hp, toULongLong_decValue _ hval, if_neg hrne]
    simp only [ne_eq, hne1, not_false_eq_true, if_true, ge_iff_le]
    by_cases hc : cap ≤ off + k
    · rw [if_pos hc, if_neg (show ¬ off + k + (st :: m).length + 1 ≤ cap by omega)]
    · rw [if_neg hc, hshape, hspn, List.drop_left, if_neg hnext,
        ih _ _ _ _ (hm st (List.mem_cons_self _ _)).2 hm' (by simp at hfuel; omega)]
      simp only [List.length_cons, List.map_cons, storeAll]
      by_cases hc2 : off + (k + 1) + m.length + 1 ≤ cap
      · rw [if_pos hc2, if_pos (show off + k + (m.length + 1) + 1 ≤ cap by omega)]
        congr 2
        omega
      · rw [if_neg hc2, if_neg (show ¬ off + k + (m.length + 1) + 1 ≤ cap by omega)]

theorem cstr_plain (l : List Char) (h : ∀ c ∈ l, c ≠ Char.ofNat 0) : cstr l = l := by
  unfold cstr
  have := takeWhile_append_stop (fun c => c != Char.ofNat 0) l []
    (fun c hc => by simpa using h c hc) (by simp)
  simpa using this

theorem chomp_newline (l : List Char) (h0 : ∀ c ∈ l, c ≠ Char.ofNat 0) :
    chomp (l ++ ['\n']) = l := by
  unfold chomp
  rw [cstr_plain (l ++ ['\n']) (by
    intro c hc
    rcases List.mem_append.mp hc with h | h
    · exact h0 c h
    · simp at h; subst h; decide)]
  simp

theorem chomp_open (l : List Char) (h0 : ∀ c ∈ l, c ≠ Char.ofNat 0) (hn : ∀ c ∈ l, c ≠ '\n') :
    chomp l = l := by
  unfold chomp
  rw [cstr_plain l h0, if_neg]
  intro h
  exact hn _ (List.mem_of_mem_getLast? h) rfl

theorem chomp_comment (lead text tail : List Char) (hl : ∀ c ∈ lead, c ∈ blankChars) :
    ∃ t, chomp (lead ++ '#' :: text ++ tail) = lead ++ '#' :: t := by
  have hc : cstr (lead ++ '#' :: text ++ tail)
      = lead ++ '#' :: (text ++ tail).takeWhile (fun c => c != Char.ofNat 0) := by
    unfold cstr
    rw [List.append_assoc, List.takeWhile_append_of_pos (fun c hc => by
      have := (blank_facts c (hl c hc)).2.2.2
      simpa using this)]
    simp [List.takeWhile_cons]
  unfold chomp
  rw [hc]
  split
  · rename_i hlast
    cases hx : (text ++ tail).takeWhile (fun c => c != Char.ofNat 0) with
    | nil =>
      rw [hx] at hlast
      simp at hlast
    | cons y ys =>
      exact ⟨(y :: ys).dropLast, by rw [List.dropLast_append_cons]; rfl⟩
  · exact ⟨_, rfl⟩

theorem line_body_skip_comment (cap off : Nat) (arr : List Nat) (lead t : List Char)
    (hl : ∀ c ∈ lead, c ∈ blankChars) (buf : List Char) (hb : chomp buf = lead ++ '#' :: t) :
    line_body cap off arr buf = .ok (arr, off) := by
  have hspn : strspn (lead ++ '#' :: t) blankChars = lead.length :=
    strspn_append _ _ _ (fun c hc => (contains_iff _ _).mpr (hl c hc))
      (fun c hc => by simp at hc; subst hc; decide)
  unfold line_body
  simp only [hb, hspn, List.drop_left]
  rw [if_neg (by simp), if_neg (by simp)]
  simp

theorem line_body_skip_blank (cap off : Nat) (arr : List Nat) (lead : List Char)
    (hl : ∀ c ∈ lead, c ∈ blankChars) (buf : List Char) (hb : chomp buf = lead) :
    line_body cap off arr buf = .ok (arr, off) := by
  have hspn : strspn lead blankChars = lead.length :=
    strspn_all _ _ (fun c hc => (contains_iff _ _).mpr (hl c hc))
  unfold line_body
  simp only [hb, hspn]
  by_cases h : lead = []
  · rw [if_pos h]
  · rw [if_neg h]
    simp

theorem line_body_data (cap off : Nat) (arr : List Nat) (lead first trail : List Char)
    (more : List (List Char × List Char)) (buf : List Char)
    (hl : ∀ c ∈ lead, c ∈ blankChars) (hf : isNumber first = true)
    (hm : ∀ st ∈ more, isSeparator st.1 = true ∧ isNumber st.2 = true)
    (ht : ∀ c ∈ trail, c ∈ sepChars) (hlen : more.length < 1024)
    (hb : chomp buf = lead ++ (first ++ (more.flatMap (fun st => st.1 ++ st.2) ++ trail))) :
    line_body cap off arr buf
      = if off + (more.length + 1) ≤ cap then
          .ok (storeAll arr off (decValue first :: more.map (fun st => decValue st.2)),
            off + (more.length + 1))
        else .error .lengthExceeded := by
  obtain ⟨hne, hdig, hval⟩ := isNumber_iff first hf
  obtain ⟨hrest, hhead⟩ := dataTail_facts more trail hm ht
  obtain ⟨b0, t', rfl⟩ : ∃ b0 t', first = b0 :: t' := by
    cases first with
    | nil => exact absurd rfl hne
    | cons b0 t' => exact ⟨b0, t', rfl⟩
  have hb0 := digit_facts b0 (hdig b0 (List.mem_cons_self _ _))
  have hspn : strspn (lead ++ (b0 :: t' ++ (more.flatMap (fun st => st.1 ++ st.2) ++ trail)))
      blankChars = lead.length :=
    strspn_append _ _ _ (fun c hc => (contains_iff _ _).mpr (hl c hc))
      (fun c hc => by simp at hc; subst hc; exact hb0.2.2.2.2.1)
  have hline : strspn (b0 :: t' ++ (more.flatMap (fun st => st.1 ++ st.2) ++ trail)) lineChars
      = (b0 :: t' ++ (more.flatMap (fun st => st.1 ++ st.2) ++ trail)).length := by
    apply strspn_all
    intro c hc
    rcases List.mem_append.mp hc with h | h
    · exact (digit_facts c (hdig c h)).2.2.2.1
    · rcases hrest c h with h | h
      · exact (digit_facts c h).2.2.2.1
      · exact (sep_facts c h).2.1
  have hloop := line_loop_data cap off trail ht more (b0 :: t') 0 1024 arr hf hm hlen
  unfold line_body
  simp only [hb, hspn, List.drop_left, hline]
  rw [if_neg (by simp), if_neg (by simp), if_neg (by simpa using hb0.2.2.2.2.2.1),
    if_neg (by simp), hloop]
  simp only [Nat.add_zero, Nat.zero_add, Nat.add_assoc]

theorem flatMap_length_ge (more : List (List Char × List Char))
    (hm : ∀ st ∈ more, isSeparator st.1 = true ∧ isNumber st.2 = true) :
    more.length ≤ (more.flatMap (fun st => st.1 ++ st.2)).length := by
  induction more with
  | nil => simp
  | cons st m ih =>
    have h1 := (isSeparator_iff _ (hm st (List.mem_cons_self _ _)).1).1
    have h2 : 0 < st.1.length := List.length_pos.mpr h1
    have := ih (fun x hx => hm x (List.mem_cons_of_mem _ hx))
    simp only [List.flatMap_cons, List.length_append, List.length_cons]
    omega

theorem Line.wf_plain (l : Line) (hwf : l.wf = true) :
    (∀ c ∈ l.chars, c ≠ '\n') ∧
    ((∃ lead text, l = .comment lead text) ∨ ∀ c ∈ l.chars, c ≠ Char.ofNat 0) := by
  cases l with
  | blank lead =>
    simp only [Line.wf, List.all_eq_true, contains_iff] at hwf
    exact ⟨fun c hc => (blank_facts c (hwf c hc)).2.2.1,
      Or.inr (fun c hc => (blank_facts c (hwf c hc)).2.2.2)⟩
  | comment lead text =>
    simp only [Line.wf, Bool.and_eq_true, List.all_eq_true, contains_iff, bne_iff_ne] at hwf
    refine ⟨?_, Or.inl ⟨lead, text, rfl⟩⟩
    intro c hc
    simp only [Line.chars, List.mem_append, List.mem_cons] at hc
    rcases hc with h | h | h
    · exact (blank_facts c (hwf.1 c h)).2.2.1
    · subst h; decide
    · exact hwf.2 c h
  | data lead first more trail =>
    simp only [Line.wf, Bool.and_eq_true, List.all_eq_true, contains_iff] at hwf
    obtain ⟨⟨⟨hl, hf⟩, hm⟩, ht⟩ := hwf
    obtain ⟨_, hdig, _⟩ := isNumber_iff first hf
    obtain ⟨hrest, _⟩ := dataTail_facts more trail hm ht
    have key : ∀ c ∈ (Line.data lead first more trail).chars, c ≠ '\n' ∧ c ≠ Char.ofNat 0 := by
      intro c hc
      simp only [Line.chars, List.mem_append] at hc
      rcases hc with h | h | h
      · exact ⟨(blank_facts c (hl c h)).2.2.1, (blank_facts c (hl c h)).2.2.2⟩
      · have := digit_facts c (hdig c h)
        exact ⟨this.2.2.2.2.2.2.1, this.2.2.2.2.2.2.2.1⟩
      · rcases hrest c (List.mem_append.mpr h) with h | h
        · have := digit_facts c h
          exact ⟨this.2.2.2.2.2.2.1, this.2.2.2.2.2.2.2.1⟩
        · have := sep_facts c h
          exact ⟨this.2.2.2.1, this.2.2.2.2.1⟩
    exact ⟨fun c hc => (key c hc).1, Or.inr (fun c hc => (key c hc).2)⟩

theorem line_body_line (cap off : Nat) (arr : List Nat) (l : Line) (buf : List Char)
    (hwf : l.wf = true) (hfit : l.chars.length ≤ 510) (hoff : off ≤ cap)
    (hbuf : buf = l.chars ++ ['\n'] ∨ buf = l.chars) :
    line_body cap off arr buf
      = if off + l.numbers.length ≤ cap then
          .ok (storeAll arr off l.numbers, off + l.numbers.length)
        else .error .lengthExceeded := by
  obtain ⟨hnl, h0⟩ := Line.wf_plain l hwf
  cases l with
  | blank lead =>
    have hc : chomp buf = lead := by
      have h0' : ∀ c ∈ lead, c ≠ Char.ofNat 0 := by
        rcases h0 with ⟨_, _, h⟩ | h
        · cases h
        · exact h
      rcases hbuf with rfl | rfl
      · exact chomp_newline _ h0'
      · exact chomp_open _ h0' hnl
    simp only [Line.wf, List.all_eq_true, contains_iff] at hwf
    rw [line_body_skip_blank cap off arr lead hwf buf hc]
    simp [Line.numbers, storeAll, hoff]
  | comment lead text =>
    simp only [Line.wf, Bool.and_eq_true, List.all_eq_true, contains_iff] at hwf
    have hc : ∃ t, chomp buf = lead ++ '#' :: t := by
      rcases hbuf with rfl | rfl
      · have := chomp_comment lead text ['\n'] hwf.1
        simpa [Line.chars] using this
      · have := chomp_comment lead text [] hwf.1
        simpa [Line.chars] using this
    obtain ⟨t, ht⟩ := hc
    rw [line_body_skip_comment cap off arr lead t hwf.1 buf ht]
    simp [Line.numbers, storeAll, hoff]
  | data lead first more trail =>
    have hc : chomp buf = (Line.data lead first more trail).chars := by
      have h0' : ∀ c ∈ (Line.data lead first more trail).chars, c ≠ Char.ofNat 0 := by
        rcases h0 with ⟨_, _, h⟩ | h
        · cases h
        · exact h
      rcases hbuf with rfl | rfl
      · exact chomp_newline _ h0'
      · exact chomp_open _ h0' hnl
    simp only [Line.wf, Bool.and_eq_true, List.all_eq_true, contains_iff] at hwf
    obtain ⟨⟨⟨hl, hf⟩, hm⟩, ht⟩ := hwf
    have hlen : more.length < 1024 := by
      have := flatMap_length_ge more hm
      simp only [Line.chars, List.length_append] at hfit
      omega
    rw [line_body_data cap off arr lead first trail more buf hl hf hm ht hlen hc]
    simp [Line.numbers]

theorem fgetsChars_line (l rest : List Char) (n : Nat) (hnl : ∀ c ∈ l, c ≠ '\n')
    (hn : l.length < n) : fgetsChars n (l ++ '\n' :: rest) = (l ++ ['\n'], rest) := by
  induction l generalizing n with
  | nil =>
    obtain ⟨m, rfl⟩ : ∃ m, n = m + 1 := ⟨n - 1, by simp at hn; omega⟩
    simp [fgetsChars]
  | cons c l ih =>
    obtain ⟨m, rfl⟩ : ∃ m, n = m + 1 := ⟨n - 1, by simp at hn; omega⟩
    have hc : c ≠ '\n' := hnl c (List.mem_cons_self _ _)
    have := ih m (fun x hx => hnl x (List.mem_cons_of_mem _ hx)) (by simp at hn; omega)
    simp [fgetsChars, hc, this]

theorem fgetsChars_open (l : List Char) (n : Nat) (hnl : ∀ c ∈ l, c ≠ '\n')
    (hn : l.length ≤ n) : fgetsChars n l = (l, []) := by
  induction l generalizing n with
  | nil => cases n <;> simp [fgetsChars]
  | cons c l ih =>
    obtain ⟨m, rfl⟩ : ∃ m, n = m + 1 := ⟨n - 1, by simp at hn; omega⟩
    have hc : c ≠ '\n' := hnl c (List.mem_cons_self _ _)
    have := ih m (fun x hx => hnl x (List.mem_cons_of_mem _ hx)) (by simp at hn; omega)
    simp [fgetsChars, hc, this]

theorem fgets_line (l rest : List Char) (hnl : ∀ c ∈ l, c ≠ '\n') (hn : l.length ≤ 510) :
    fgets 512 (l ++ '\n' :: rest) = some (l ++ ['\n'], rest) := by
  unfold fgets
  rw [fgetsChars_line l rest _ hnl (by omega)]
  cases l <;> rfl

theorem fgets_open (l : List Char) (hne : l ≠ []) (hnl : ∀ c ∈ l, c ≠ '\n')
    (hn : l.length ≤ 510) : fgets 512 l = some (l, []) := by
  unfold fgets
  rw [fgetsChars_open l _ hnl (by omega)]
  cases l with
  | nil => exact absurd rfl hne
  | cons c l => rfl

theorem stream_loop_eof (cap n off : Nat) (arr : List Nat) :
    stream_loop cap n [] off arr = .ok (arr, off) := by
  cases n <;> simp [stream_loop, fgets]

theorem stream_loop_step (cap n off : Nat) (arr : List Nat) (l : Line) (rest : List Char)
    (hwf : l.wf = true) (hfit : l.chars.length ≤ 510) (hoff : off ≤ cap) :
    stream_loop cap (n + 1) (l.chars ++ '\n' :: rest) off arr
      = if off + l.numbers.length ≤ cap then
          stream_loop cap n rest (off + l.numbers.length) (storeAll arr off l.numbers)
        else .error .lengthExceeded := by
  rw [stream_loop, fgets_line l.chars rest (Line.wf_plain l hwf).1 hfit]
  simp only
  rw [line_body_line cap off arr l _ hwf hfit hoff (Or.inl rfl)]
  by_cases h : off + l.numbers.length ≤ cap
  · simp only [h, if_true]
  · simp only [h, if_false]

theorem stream_loop_last (cap n off : Nat) (arr : List Nat) (l : Line)
    (hwf : l.wf = true) (hfit : l.chars.length ≤ 510) (hoff : off ≤ cap) :
    stream_loop cap (n + 1) l.chars off arr
      = if off + l.numbers.length ≤ cap then
          .ok (storeAll arr off l.numbers, off + l.numbers.length)
        else .error .lengthExceeded := by
  by_cases hne : l.chars = []
  · have hnum : l.numbers = [] := by
      cases l with
      | blank lead => rfl
      | comment lead text => simp [Line.chars] at hne
      | data lead first more trail =>
        simp only [Line.wf, Bool.and_eq_true] at hwf
        have := (isNumber_iff first hwf.1.1.2).1
        simp [Line.chars, this] at hne
    rw [hne, stream_loop_eof, hnum]
    simp [storeAll, hoff]
  · rw [stream_loop, fgets_open l.chars hne (Line.wf_plain l hwf).1 hfit]
    simp only
    rw [line_body_line cap off arr l _ hwf hfit hoff (Or.inr rfl)]
    by_cases h : off + l.numbers.length ≤ cap
    · simp only [h, if_true]
      rw [stream_loop_eof]
    · simp only [h, if_false]

theorem storeAll_append (arr : List Nat) (i : Nat) (a b : List Nat) :
    storeAll (storeAll arr i a) (i + a.length) b = storeAll arr i (a ++ b) := by
  induction a generalizing arr i with
  | nil => simp [storeAll]
  | cons v a ih =>
    show storeAll (storeAll (arr.set i v) (i + 1) a) (i + (a.length + 1)) b
      = storeAll (arr.set i v) (i + 1) (a ++ b)
    rw [← ih]
    congr 1
    omega

theorem storeAll_length (arr : List Nat) (i : Nat) (vs : List Nat) :
    (storeAll arr i vs).length = arr.length := by
  induction vs generalizing arr i with
  | nil => rfl
  | cons v vs ih => simp [storeAll, ih]

theorem take_storeAll (arr : List Nat) (i : Nat) (vs : List Nat)
    (h : i + vs.length ≤ arr.length) :
    (storeAll arr i vs).take (i + vs.length) = arr.take i ++ vs := by
  induction vs generalizing arr i with
  | nil => simp [storeAll]
  | cons v vs ih =>
    simp only [List.length_cons] at h
    simp only [storeAll, List.length_cons]
    have := ih (arr.set i v) (i + 1) (by simp; omega)
    rw [show i + (vs.length + 1) = i + 1 + vs.length by omega, this, List.take_succ,
      List.getElem?_set_self (by omega)]
    have ht : (arr.set i v).take i = arr.take i := by
      apply List.ext_getElem?
      intro j
      by_cases hj : j < i
      · rw [List.getElem?_take_of_lt hj, List.getElem?_take_of_lt hj,
          List.getElem?_set_ne (by omega)]
      · rw [List.getElem?_take_eq_none (by omega), List.getElem?_take_eq_none (by omega)]
    rw [ht]
    simp

theorem stream_loop_lines (cap : Nat) (ls : List Line) :
    ∀ (n off : Nat) (arr : List Nat), (∀ l ∈ ls, l.wf = true) →
      (∀ l ∈ ls, l.chars.length ≤ 510) → ls.length ≤ n → off ≤ cap →
      stream_loop cap n (streamText ls) off arr
        = if off + (ls.flatMap Line.numbers).length ≤ cap then
            .ok (storeAll arr off (ls.flatMap Line.numbers),
              off + (ls.flatMap Line.numbers).length)
          else .error .lengthExceeded := by
  induction ls with
  | nil =>
    intro n off arr _ _ _ hoff
    simp [streamText, stream_loop_eof, storeAll, hoff]
  | cons l ls ih =>
    intro n off arr hwf hfit hn hoff
    obtain ⟨m, rfl⟩ : ∃ m, n = m + 1 := ⟨n - 1, by simp at hn; omega⟩
    rw [streamText, stream_loop_step cap m off arr l _ (hwf l (List.mem_cons_self _ _))
      (hfit l (List.mem_cons_self _ _)) hoff]
    simp only [List.flatMap_cons, List.length_append]
    by_cases h1 : off + l.numbers.length ≤ cap
    · rw [if_pos h1, ih m _ _ (fun x hx => hwf x (List.mem_cons_of_mem _ hx))
        (fun x hx => hfit x (List.mem_cons_of_mem _ hx)) (by simp at hn; omega) h1,
        storeAll_append]
      by_cases h2 : off + l.numbers.length + (ls.flatMap Line.numbers).length ≤ cap
      · rw [if_pos h2, if_pos (show off + (l.numbers.length
          + (ls.flatMap Line.numbers).length) ≤ cap by omega), Nat.add_assoc]
      · rw [if_neg h2, if_neg (show ¬ off + (l.numbers.length
          + (ls.flatMap Line.numbers).length) ≤ cap by omega)]
    · rw [if_neg h1, if_neg (show ¬ off + (l.numbers.length
          + (ls.flatMap Line.numbers).length) ≤ cap by omega)]

theorem stream_loop_lines_open (cap : Nat) (ls : List Line) :
    ∀ (n off : Nat) (arr : List Nat), (∀ l ∈ ls, l.wf = true) →
      (∀ l ∈ ls, l.chars.length ≤ 510) → ls.length ≤ n → off ≤ cap →
      stream_loop cap n (streamTextOpen ls) off arr
        = if off + (ls.flatMap Line.numbers).length ≤ cap then
            .ok (storeAll arr off (ls.flatMap Line.numbers),
              off + (ls.flatMap Line.numbers).length)
          else .error .lengthExceeded := by
  induction ls with
  | nil =>
    intro n off arr _ _ _ hoff
    simp [streamTextOpen, stream_loop_eof, storeAll, hoff]
  | cons l ls ih =>
    intro n off arr hwf hfit hn hoff
    obtain ⟨m, rfl⟩ : ∃ m, n = m + 1 := ⟨n - 1, by simp at hn; omega⟩
    cases ls with
    | nil =>
      rw [streamTextOpen, stream_loop_last cap m off arr l (hwf l (List.mem_cons_self _ _))
        (hfit l (List.mem_cons_self _ _)) hoff]
      simp
    | cons l2 ls =>
      rw [show streamTextOpen (l :: l2 :: ls) = l.chars ++ '\n' :: streamTextOpen (l2 :: ls)
        from rfl, stream_loop_step cap m off arr l _ (hwf l (List.mem_cons_self _ _))
        (hfit l (List.mem_cons_self _ _)) hoff]
      simp only [List.flatMap_cons, List.length_append] at ih ⊢
      by_cases h1 : off + l.numbers.length ≤ cap
      · rw [if_pos h1, ih m _ _ (fun x hx => hwf x (List.mem_cons_of_mem _ hx))
          (fun x hx => hfit x (List.mem_cons_of_mem _ hx)) (by simp at hn ⊢; omega) h1,
          storeAll_append]
        by_cases h2 : off + l.numbers.length
            + (l2.numbers.length + (ls.flatMap Line.numbers).length) ≤ cap
        · rw [if_pos h2, if_pos (show off + (l.numbers.length
            + (l2.numbers.length + (ls.flatMap Line.numbers).length)) ≤ cap by omega),
            Nat.add_assoc]
        · rw [if_neg h2, if_neg (show ¬ off + (l.numbers.length
            + (l2.numbers.length + (ls.flatMap Line.numbers).length)) ≤ cap by omega)]
      · rw [if_neg h1, if_neg (show ¬ off + (l.numbers.length
            + (l2.numbers.length + (ls.flatMap Line.numbers).length)) ≤ cap by omega)]

theorem stream_build (ls : List Line) (stdin : List Char) (cap : Nat) (arr : List Nat)
    (hwf : ∀ l ∈ ls, l.wf = true) (hfit : ∀ l ∈ ls, l.chars.length ≤ 510)
    (hn : ls.length ≤ 512) (hin : stdin = streamText ls ∨ stdin = streamTextOpen ls) :
    build_lba_arr "-".toList stdin arr cap
      = if (ls.flatMap Line.numbers).length ≤ cap then
          .ok (storeAll arr 0 (ls.flatMap Line.numbers), (ls.flatMap Line.numbers).length)
        else .error .lengthExceeded := by
  have h1 := stream_loop_lines cap ls 512 0 arr hwf hfit hn (Nat.zero_le _)
  have h2 := stream_loop_lines_open cap ls 512 0 arr hwf hfit hn (Nat.zero_le _)
  simp only [Nat.zero_add] at h1 h2
  have hm : "-".toList.head? = some '-' := rfl
  unfold build_lba_arr
  rw [if_pos hm]
  rcases hin with rfl | rfl
  · exact h1
  · exact h2

theorem lbaList_storeAll (arr vs : List Nat) (h : vs.length ≤ arr.length) :
    lbaList (storeAll arr 0 vs, vs.length) = vs := by
  have := take_storeAll arr 0 vs (by omega)
  simpa [lbaList] using this

theorem listChars_facts : (∀ c ∈ digitChars, listChars.contains c = true)
    ∧ listChars.contains ',' = true ∧ ',' ∈ sepChars := by
  decide

theorem commaList_chars (ts : List (List Char)) (h : ∀ t ∈ ts, isNumber t = true) :
    ∀ c ∈ commaList ts, c ∈ digitChars ∨ c = ',' := by
  induction ts with
  | nil => simp [commaList]
  | cons t ts ih =>
    have ht := (isNumber_iff t (h t (List.mem_cons_self _ _))).2.1
    cases ts with
    | nil =>
      intro c hc
      exact Or.inl (ht c hc)
    | cons t2 ts =>
      intro c hc
      rw [show commaList (t :: t2 :: ts) = t ++ ',' :: commaList (t2 :: ts) from rfl] at hc
      simp only [List.mem_append, List.mem_cons] at hc
      rcases hc with hc | hc | hc
      · exact Or.inl (ht c hc)
      · exact Or.inr hc
      · exact ih (fun x hx => h x (List.mem_cons_of_mem _ hx)) c hc

theorem strchr_append (a b : List Char) (ha : ∀ c ∈ a, c ≠ ',')
    (hb : ∀ c, b.head? = some c → c = ',') :
    strchr (a ++ b) ',' = if b = [] then none else some b := by
  unfold strchr
  have hd := dropWhile_append_stop (fun c => c != ',') a b
    (fun c hc => by simpa using ha c hc) (fun c hc => by simpa using hb c hc)
  rw [hd]
  cases b <;> simp

theorem inline_loop_decimal (ts : List (List Char)) :
    ∀ (t : List Char) (n k : Nat) (arr : List Nat), isNumber t = true →
      (∀ x ∈ ts, isNumber x = true) →
      inline_loop n k (commaList (t :: ts)) arr
        = if ts.length < n then
            .ok (storeAll arr k (decValue t :: ts.map decValue), k + ts.length + 1)
          else .error .lengthExceeded := by
  induction ts with
  | nil =>
    intro t n k arr ht _
    obtain ⟨_, hdig, hval⟩ := isNumber_iff t ht
    cases n with
    | zero => simp [inline_loop]
    | succ n =>
      have hg := get_llnum_decimal t [] ht (by simp) (by simp)
      have hp := strchr_append t [] (fun c hc => by
        have := (digit_facts c (hdig c hc)).2.2.1
        intro hcc; subst hcc; exact absurd this (by decide)) (by simp)
      rw [List.append_nil] at hg hp
      have hne1 : (decValue t : Int) ≠ -1 := by omega
      rw [show commaList [t] = t from rfl, inline_loop, hg, hp, toULongLong_decValue _ hval]
      simp [hne1, storeAll]
  | cons t2 ts ih =>
    intro t n k arr ht hts
    obtain ⟨_, hdig, hval⟩ := isNumber_iff t ht
    cases n with
    | zero => simp [inline_loop]
    | succ n =>
      have hchars := commaList_chars (t2 :: ts) hts
      have hg := get_llnum_decimal t (',' :: commaList (t2 :: ts)) ht
        (by
          intro c hc
          rcases List.mem_cons.mp hc with rfl | hc
          · exact Or.inr listChars_facts.2.2
          · rcases hchars c hc with h | rfl
            · exact Or.inl h
            · exact Or.inr listChars_facts.2.2)
        (by intro c hc; simp at hc; subst hc; exact listChars_facts.2.2)
      have hp := strchr_append t (',' :: commaList (t2 :: ts)) (fun c hc => by
        have := (digit_facts c (hdig c hc)).2.2.1
        intro hcc; subst hcc; exact absurd this (by decide))
        (by intro c hc; simp at hc; exact hc.symm)
      have hne1 : (decValue t : Int) ≠ -1 := by omega
      rw [show commaList (t :: t2 :: ts) = t ++ ',' :: commaList (t2 :: ts) from rfl,
        inline_loop, hg, hp, toULongLong_decValue _ hval]
      simp only [ne_eq, hne1, not_false_eq_true, if_true, reduceCtorEq, if_false, List.drop_succ_cons,
        List.drop_zero]
      rw [ih t2 n (k + 1) _ (hts t2 (List.mem_cons_self _ _))
        (fun x hx => hts x (List.mem_cons_of_mem _ hx))]
      simp only [List.length_cons, List.map_cons, storeAll]
      by_cases h : ts.length < n
      · rw [if_pos h, if_pos (show ts.length + 1 < n + 1 by omega)]
        congr 2
        omega
      · rw [if_neg h, if_neg (show ¬ ts.length + 1 < n + 1 by omega)]

theorem inline_build (t : List Char) (ts : List (List Char)) (stdin : List Char)
    (arr : List Nat) (cap : Nat) (ht : isNumber t = true) (hts : ∀ x ∈ ts, isNumber x = true) :
    build_lba_arr (commaList (t :: ts)) stdin arr cap
      = if ts.length < cap then
          .ok (storeAll arr 0 (decValue t :: ts.map decValue), ts.length + 1)
        else .error .lengthExceeded := by
  obtain ⟨hne, hdig, _⟩ := isNumber_iff t ht
  have hall : ∀ x ∈ t :: ts, isNumber x = true := by
    intro x hx
    rcases List.mem_cons.mp hx with rfl | hx
    · exact ht
    · exact hts x hx
  have hchars := commaList_chars (t :: ts) hall
  have hhead : (commaList (t :: ts)).head? ≠ some '-' := by
    intro h
    rcases hchars _ (List.mem_of_mem_head? h) with h | h
    · exact (digit_facts _ h).2.2.2.2.2.2.2.2.2.2.2.2.1 rfl
    · exact absurd h (by decide)
  have hspn : strspn (commaList (t :: ts)) listChars = (commaList (t :: ts)).length := by
    apply strspn_all
    intro c hc
    rcases hchars c hc with h | rfl
    · exact listChars_facts.1 c h
    · exact listChars_facts.2.1
  unfold build_lba_arr
  rw [if_neg hhead, if_neg (by simp [hspn]), inline_loop_decimal ts t cap 0 arr ht hts]
  simp

/-! ### The parameter block -/

theorem width_loop_auto (ulong_max : Nat) (addrs : List Nat) (k : Nat)
    (h : ∃ a ∈ addrs, ulong_max ≤ a) : width_loop ulong_max (-1) addrs k = .ok 1 := by
  induction addrs generalizing k with
  | nil => simp at h
  | cons a rest ih =>
    by_cases ha : a ≥ ulong_max
    · simp [width_loop, ha]
    · have h2 : ∃ b ∈ rest, ulong_max ≤ b := by
        obtain ⟨b, hb, hb2⟩ := h
        rcases List.mem_cons.mp hb with rfl | hb
        · exact absurd hb2 ha
        · exact ⟨b, hb, hb2⟩
      simp [width_loop, ha, ih (k + 1) h2]

theorem width_loop_four (ulong_max : Nat) (addrs : List Nat) (k : Nat)
    (h : ∃ a ∈ addrs, ulong_max ≤ a) :
    ∃ j, k < j ∧ j ≤ k + addrs.length ∧ width_loop ulong_max 0 addrs k = .error (.widthMismatch j) := by
  induction addrs generalizing k with
  | nil => simp at h
  | cons a rest ih =>
    by_cases ha : a ≥ ulong_max
    · exact ⟨k + 1, by omega, by simp, by simp [width_loop, ha]⟩
    · have h2 : ∃ b ∈ rest, ulong_max ≤ b := by
        obtain ⟨b, hb, hb2⟩ := h
        rcases List.mem_cons.mp hb with rfl | hb
        · exact absurd hb2 ha
        · exact ⟨b, hb, hb2⟩
      obtain ⟨j, h1, h2, h3⟩ := ih (k + 1) h2
      exact ⟨j, by omega, by simp; omega, by simp [width_loop, ha, h3]⟩

theorem put4_append (pre post : List Nat) (x1 x2 x3 x4 a sh : Nat) :
    put4 (pre ++ x1 :: x2 :: x3 :: x4 :: post) pre.length a sh
      = some (pre ++ (a / 2 ^ (sh + 24) % 256) :: (a / 2 ^ (sh + 16) % 256)
          :: (a / 2 ^ (sh + 8) % 256) :: (a / 2 ^ sh % 256) :: post) := by
  simp [put4, poke, List.set_append, bind, Option.bind]

theorem exists_four (l : List Nat) (h : 4 ≤ l.length) :
    ∃ x1 x2 x3 x4 t, l = x1 :: x2 :: x3 :: x4 :: t := by
  match l, h with
  | x1 :: x2 :: x3 :: x4 :: t, _ => exact ⟨x1, x2, x3, x4, t, rfl⟩

theorem encode_loop_append (e : Int) (addrs pre rest : List Nat)
    (h : addrWidth e * addrs.length ≤ rest.length) :
    encode_loop e addrs pre.length (pre ++ rest)
      = some (pre ++ addrs.flatMap (bigEndian (addrWidth e)) ++ rest.drop (addrWidth e * addrs.length),
          pre.length + addrWidth e * addrs.length) := by
  induction addrs generalizing pre rest with
  | nil => simp [encode_loop]
  | cons a as ih =>
    by_cases he : e = 0
    · subst he
      simp only [addrWidth, ne_eq, not_true_eq_false, ite_false, List.length_cons] at h ih ⊢
      obtain ⟨x1, x2, x3, x4, t, rfl⟩ := exists_four rest (by omega)
      have hl : (pre ++ [a / 2 ^ 24 % 256, a / 2 ^ 16 % 256, a / 2 ^ 8 % 256, a / 2 ^ 0 % 256]).length
          = pre.length + 4 := by simp
      have := ih (pre ++ [a / 2 ^ 24 % 256, a / 2 ^ 16 % 256, a / 2 ^ 8 % 256, a / 2 ^ 0 % 256]) t
        (by simp at h; omega)
      rw [hl] at this
      simp only [encode_loop, ne_eq, not_true_eq_false, ite_false, put4_append]
      simp only [List.append_assoc, List.cons_append, List.nil_append, zero_add] at this ⊢
      rw [this]
      simp [bigEndian, Nat.mul_add, Nat.add_assoc]
      omega
    · simp only [addrWidth, ne_eq, he, not_false_eq_true, ite_true, List.length_cons] at h ih ⊢
      obtain ⟨x1, x2, x3, x4, t, rfl⟩ := exists_four rest (by omega)
      obtain ⟨y1, y2, y3, y4, u, rfl⟩ := exists_four t (by simp at h; omega)
      have hl : (pre ++ [a / 2 ^ 56 % 256, a / 2 ^ 48 % 256, a / 2 ^ 40 % 256, a / 2 ^ 32 % 256,
          a / 2 ^ 24 % 256, a / 2 ^ 16 % 256, a / 2 ^ 8 % 256, a / 2 ^ 0 % 256]).length
          = pre.length + 8 := by simp
      have hl4 : (pre ++ [a / 2 ^ 56 % 256, a / 2 ^ 48 % 256, a / 2 ^ 40 % 256,
          a / 2 ^ 32 % 256]).length = pre.length + 4 := by simp
      have h4 := put4_append (pre ++ [a / 2 ^ 56 % 256, a / 2 ^ 48 % 256, a / 2 ^ 40 % 256,
          a / 2 ^ 32 % 256]) u y1 y2 y3 y4 a 0
      rw [hl4] at h4
      have := ih (pre ++ [a / 2 ^ 56 % 256, a / 2 ^ 48 % 256, a / 2 ^ 40 % 256, a / 2 ^ 32 % 256,
          a / 2 ^ 24 % 256, a / 2 ^ 16 % 256, a / 2 ^ 8 % 256, a / 2 ^ 0 % 256]) u
        (by simp at h; omega)
      rw [hl] at this
      simp only [List.append_assoc, List.cons_append, List.nil_append, zero_add] at this h4
      simp only [encode_loop, ne_eq, he, not_false_eq_true, ite_true, put4_append, h4]
      simp only [List.append_assoc, List.cons_append, List.nil_append, zero_add] at this ⊢
      rw [this]
      simp [bigEndian, Nat.mul_add, Nat.add_assoc]
      omega

theorem bigEndian_length (w a : Nat) : (bigEndian w a).length = w := by
  induction w with
  | zero => rfl
  | succ w ih => simp [bigEndian, ih]

theorem flatMap_bigEndian_length (w : Nat) (addrs : List Nat) :
    (addrs.flatMap (bigEndian w)).length = w * addrs.length := by
  induction addrs with
  | nil => simp
  | cons a as ih => simp [List.flatMap_cons, bigEndian_length, ih, Nat.mul_add]; omega

theorem main_param_ok (ulong_max : Nat) (eight longlist e : Int) (addrs rest : List Nat)
    (p0 p1 p2 p3 : Nat) (he : select_eight ulong_max eight addrs = .ok e)
    (h : addrWidth e * addrs.length ≤ rest.length) :
    main_param ulong_max eight longlist addrs (p0 :: p1 :: p2 :: p3 :: rest)
      = .ok (e, headerBytes longlist p0 p1 (addrWidth e * addrs.length)
            ++ addrs.flatMap (bigEndian (addrWidth e))
            ++ rest.drop (addrWidth e * addrs.length),
          4 + addrWidth e * addrs.length) := by
  have henc := encode_loop_append e addrs [p0, p1, p2, p3] rest h
  simp only [List.length_cons, List.length_nil, zero_add, List.cons_append, List.nil_append,
    Nat.reduceAdd] at henc
  simp only [main_param, he, henc]
  by_cases hl : longlist = 0
  · simp [put_header, poke, hl, headerBytes, bind, Option.bind]
  · simp [put_header, poke, hl, headerBytes, bind, Option.bind]

theorem width_loop_result (um : Nat) (eight e : Int) (addrs : List Nat) (k : Nat)
    (h : width_loop um eight addrs k = .ok e) : e = eight ∨ (eight < 0 ∧ e = 1) := by
  induction addrs generalizing k with
  | nil => simp [width_loop] at h; exact Or.inl h.symm
  | cons a as ih =>
    simp only [width_loop] at h
    split at h
    · split at h
      · rename_i h1
        simp at h
        exact Or.inr ⟨h1, h.symm⟩
      · split at h
        · simp at h
        · exact ih _ h
    · exact ih _ h

theorem width_loop_small (um : Nat) (eight e : Int) (addrs : List Nat) (k : Nat)
    (h : width_loop um eight addrs k = .ok e) (he : e ≤ 0) : ∀ a ∈ addrs, a < um := by
  induction addrs generalizing k with
  | nil => simp
  | cons a as ih =>
    simp only [width_loop] at h
    intro b hb
    split at h
    · split at h
      · simp at h; omega
      · split at h
        · simp at h
        · rcases width_loop_result _ _ _ _ _ h with h1 | h1 <;> omega
    · rename_i hlt
      rcases List.mem_cons.mp hb with rfl | hb
      · omega
      · exact ih _ h b hb

theorem select_eight_fits (eight e : Int) (addrs : List Nat)
    (h : select_eight ULONG_MAX eight addrs = .ok e) (h64 : ∀ a ∈ addrs, a < 2 ^ 64) :
    ∀ a ∈ addrs, a < 2 ^ (8 * addrWidth e) := by
  intro a ha
  unfold select_eight at h
  split at h
  · simp at h
  · rename_i e0 h0
    simp only [Except.ok.injEq] at h
    by_cases hz : e = 0
    · have : e0 ≤ 0 := by
        split at h <;> omega
      have := width_loop_small _ _ _ _ _ h0 this a ha
      simp only [ULONG_MAX] at this
      simp [addrWidth, hz]
      omega
    · simp [addrWidth, hz]
      exact h64 a ha

theorem beValue_bigEndian (w a : Nat) (hw : w = 4 ∨ w = 8) (ha : a < 2 ^ (8 * w)) :
    beValue (bigEndian w a) = a := by
  rcases hw with rfl | rfl
  · simp [beValue, bigEndian] at ha ⊢
    omega
  · simp [beValue, bigEndian] at ha ⊢
    omega

theorem decodeBE_flatMap (w : Nat) (addrs : List Nat) (hw : w = 4 ∨ w = 8)
    (ha : ∀ a ∈ addrs, a < 2 ^ (8 * w)) :
    decodeBE w addrs.length (addrs.flatMap (bigEndian w)) = addrs := by
  induction addrs with
  | nil => simp [decodeBE]
  | cons a as ih =>
    have h1 : (bigEndian w a ++ as.flatMap (bigEndian w)).take w = bigEndian w a := by
      rw [List.take_append_of_le_length (by rw [bigEndian_length])]
      rw [List.take_of_length_le (by rw [bigEndian_length])]
    have h2 : (bigEndian w a ++ as.flatMap (bigEndian w)).drop w = as.flatMap (bigEndian w) := by
      rw [List.drop_append_of_le_length (by rw [bigEndian_length])]
      rw [List.drop_of_length_le (by rw [bigEndian_length])]
      simp
    simp only [List.length_cons, decodeBE, List.flatMap_cons, h1, h2]
    rw [beValue_bigEndian w a hw (ha a (List.mem_cons_self _ _)),
      ih (fun b hb => ha b (List.mem_cons_of_mem _ hb))]

theorem toULongLong_lt (i : Int) : toULongLong i < 2 ^ 64 := by
  unfold toULongLong
  omega

theorem inline_loop_inv (n k : Nat) (lcp : List Char) (arr : List Nat) (r : List Nat × Nat)
    (h : inline_loop n k lcp arr = .ok r) (harr : ∀ x ∈ arr, x < 2 ^ 64) :
    r.1.length = arr.length ∧ ∀ x ∈ r.1, x < 2 ^ 64 := by
  induction n generalizing k lcp arr with
  | zero => simp [inline_loop] at h
  | succ n ih =>
    have hset : ∀ x ∈ arr.set k (toULongLong (get_llnum lcp)), x < 2 ^ 64 := by
      intro x hx
      rcases List.mem_or_eq_of_mem_set hx with hx | rfl
      · exact harr x hx
      · exact toULongLong_lt _
    simp only [inline_loop] at h
    split at h
    · split at h
      · simp only [Except.ok.injEq] at h
        subst h
        exact ⟨by simp, hset⟩
      · have := ih _ _ _ h hset
        simpa using this
    · simp at h

theorem headerBytes_length (longlist : Int) (p0 p1 k : Nat) :
    (headerBytes longlist p0 p1 k).length = 4 := by
  unfold headerBytes
  split <;> rfl

theorem select_eight_auto (um : Nat) (addrs : List Nat) :
    ∃ e, select_eight um (-1) addrs = .ok e ∧ (e = 0 ∨ e = 1) := by
  have key : ∀ k, width_loop um (-1) addrs k = .ok (-1) ∨ width_loop um (-1) addrs k = .ok 1 := by
    induction addrs with
    | nil => intro k; simp [width_loop]
    | cons a as ih =>
      intro k
      by_cases ha : a ≥ um
      · simp [width_loop, ha]
      · simpa [width_loop, ha] using ih (k + 1)
  rcases key 0 with h | h
  · exact ⟨0, by simp [select_eight, h], Or.inl rfl⟩
  · exact ⟨1, by simp [select_eight, h], Or.inr rfl⟩

theorem payload_of_block (hdr payload tail : List Nat) (n : Nat) (hh : hdr.length = 4)
    (hpl : payload.length = n) :
    ((hdr ++ payload ++ tail).take (4 + n)).drop 4 = payload := by
  rw [List.append_assoc, List.take_append_eq_append_take, List.drop_append_eq_append_drop]
  simp [hh, hpl]

theorem replicate_param_arr (v : Nat) :
    List.replicate PARAM_ARR_SIZE v = v :: v :: v :: v :: List.replicate 8192 v := by
  rfl

set_option maxRecDepth 100000 in
theorem byte_kind_bits : ∀ b < 256,
    (b &&& 0x18 = 0x8 ↔ (b.testBit 3 = true ∧ b.testBit 4 = false)) := by
  decide

/-- The choice of the width depends on the value of ULONG_MAX: were unsigned long 64 bits
wide, the address 2^32 would not select eight bytes. -/
theorem select_eight_wide_ulong : select_eight (2 ^ 64 - 1) (-1) [2 ^ 32] = .ok 0 := by
  decide

/-! ### The properties of the specification -/

/-- C1: the command line list 0x10,17,20h (it does not start with a minus sign), read
with room for 1024 numbers, is accepted and gives the numbers 16, 23, 32 in this
order, with length 3. -/
theorem inline_example :
    "0x10,17,20h".toList.head? ≠ some '-' ∧
    (build_lba_arr "0x10,17,20h".toList [] (List.replicate 1024 0) 1024).map lbaList
      = .ok [16, 23, 32] ∧
    (build_lba_arr "0x10,17,20h".toList [] (List.replicate 1024 0) 1024).map Prod.snd
      = .ok 3 := by
  decide

/-- C2, at the failing input 17,20h: the list is accepted, and its first number, written
with decimal digits only, is read as hexadecimal (23) because the list ends in h,
while the same number alone is read as decimal (17). -/
theorem inline_token_context :
    (build_lba_arr "17,20h".toList [] (List.replicate 1024 0) 1024).map lbaList
      = .ok [23, 32] ∧
    (build_lba_arr "17".toList [] (List.replicate 1024 0) 1024).map lbaList = .ok [17] := by
  decide

set_option maxRecDepth 100000 in
/-- C3, as stated, fails: an input of one comment line, a # followed by 510 spaces and a
7, holds no number, yet the reader returns the number 7, because the line does not
fit the line buffer and its end is read as a second line. -/
theorem stream_long_comment_line :
    (∀ l ∈ [Line.comment [] (List.replicate 510 ' ' ++ ['7'])], l.wf = true) ∧
    [Line.comment [] (List.replicate 510 ' ' ++ ['7'])].flatMap Line.numbers = [] ∧
    (build_lba_arr "-".toList (streamText [Line.comment [] (List.replicate 510 ' ' ++ ['7'])])
      (List.replicate 1024 0) 1024).map lbaList = .ok [7] := by
  decide

/-- C3, amended: in stream mode (argument -), for every input of at most 512 lines, each
of at most 510 characters before its newline, in which each line is blank (spaces and
tabs only, or empty), a comment line (a # after spaces and tabs) or a data line of
decimal numbers below 2^63 separated by spaces, tabs or commas, and whose count of
numbers does not exceed the capacity, the reader succeeds and returns exactly the
numbers of the data lines in input order, with the returned length equal to their
count. The last line may or may not end with a newline. -/
theorem stream_numbers (ls : List Line) (stdin : List Char) (cap : Nat) (arr : List Nat)
    (hwf : ∀ l ∈ ls, l.wf = true) (hfit : ∀ l ∈ ls, l.chars.length ≤ 510)
    (hn : ls.length ≤ 512) (hin : stdin = streamText ls ∨ stdin = streamTextOpen ls)
    (hcap : (ls.flatMap Line.numbers).length ≤ cap) (harr : cap ≤ arr.length) :
    (build_lba_arr "-".toList stdin arr cap).map lbaList = .ok (ls.flatMap Line.numbers) ∧
    (build_lba_arr "-".toList stdin arr cap).map Prod.snd
      = .ok (ls.flatMap Line.numbers).length := by
  rw [stream_build ls stdin cap arr hwf hfit hn hin, if_pos hcap]
  exact ⟨congrArg Except.ok (lbaList_storeAll arr _ (by omega)), rfl⟩

/-- C3, amended, at the input of the lines 100 200, # comment and 300. -/
theorem stream_numbers_witness :
    (build_lba_arr "-".toList "100 200\n# comment\n300\n".toList (List.replicate 1024 0)
      1024).map lbaList = .ok [100, 200, 300] ∧
    (build_lba_arr "-".toList "100 200\n# comment\n300\n".toList (List.replicate 1024 0)
      1024).map Prod.snd = .ok 3 :=
  stream_numbers
    [.data [] "100".toList [(" ".toList, "200".toList)] [], .comment [] " comment".toList,
      .data [] "300".toList [] []]
    "100 200\n# comment\n300\n".toList 1024 (List.replicate 1024 0)
    (by decide) (by decide) (by decide) (Or.inl (by decide)) (by decide)
    (by rw [List.length_replicate])

/-- Where ULONG_MAX is 2^32 - 1, as it is where unsigned long has 32 bits: for every
command line list on which the reader succeeds with the numbers L, and without the
option --eight, the parameter block is built, and reading the bytes after its 4-byte
header as consecutive big-endian integers of the chosen width gives L again: same
values, same order, same length. -/
theorem inline_roundtrip (optarg stdin : List Char) (longlist : Int) (param_arr : List Nat)
    (r : List Nat × Nat) (hmode : optarg.head? ≠ some '-')
    (hp : param_arr.length = PARAM_ARR_SIZE) (hr : main_address optarg stdin = .ok r) :
    ∃ e q plen, main_param ULONG_MAX (-1) longlist (lbaList r) param_arr = .ok (e, q, plen) ∧
      decodeBE (addrWidth e) (((q.take plen).drop 4).length / addrWidth e)
        ((q.take plen).drop 4) = lbaList r := by
  have hinv : r.1.length = MAX_NUM_ADDR ∧ ∀ x ∈ r.1, x < 2 ^ 64 := by
    simp only [main_address, build_lba_arr, hmode, if_false] at hr
    split at hr
    · simp at hr
    · have := inline_loop_inv _ _ _ _ _ hr (by simp)
      simpa using this
  have hlen : (lbaList r).length ≤ MAX_NUM_ADDR := by
    unfold lbaList
    rw [List.length_take]
    omega
  have h64 : ∀ a ∈ lbaList r, a < 2 ^ 64 := fun a ha => hinv.2 a (List.mem_of_mem_take ha)
  obtain ⟨e, he, he01⟩ := select_eight_auto ULONG_MAX (lbaList r)
  obtain ⟨p0, p1, p2, p3, rest, rfl⟩ := exists_four param_arr (by rw [hp]; decide)
  have hw : addrWidth e = 4 ∨ addrWidth e = 8 := by
    rcases he01 with rfl | rfl
    · left; rfl
    · right; rfl
  have hrest : addrWidth e * (lbaList r).length ≤ rest.length := by
    simp [PARAM_ARR_SIZE, MAX_NUM_ADDR] at hp hlen
    rcases hw with h | h <;> rw [h] <;> omega
  refine ⟨e, _, _, main_param_ok ULONG_MAX (-1) longlist e (lbaList r) rest p0 p1 p2 p3 he hrest, ?_⟩
  rw [payload_of_block _ _ _ _ (headerBytes_length _ _ _ _) (flatMap_bigEndian_length _ _)]
  rw [flatMap_bigEndian_length, Nat.mul_div_cancel_left _ (by rcases hw with h | h <;> omega)]
  exact decodeBE_flatMap _ _ hw (select_eight_fits _ _ _ he h64)

set_option maxRecDepth 100000 in
/-- The round trip with ULONG_MAX = 2^32 - 1, at the list 0x10,17,20h. -/
theorem inline_roundtrip_witness :
    ∃ e q plen, main_param ULONG_MAX (-1) 0 [16, 23, 32] (List.replicate PARAM_ARR_SIZE 0)
        = .ok (e, q, plen) ∧
      decodeBE (addrWidth e) (((q.take plen).drop 4).length / addrWidth e)
        ((q.take plen).drop 4) = [16, 23, 32] :=
  inline_roundtrip "0x10,17,20h".toList [] 0 (List.replicate PARAM_ARR_SIZE 0)
    (16 :: 23 :: 32 :: List.replicate 1021 0, 3) (by decide) (List.length_replicate _ _) (by decide)

/-- Where ULONG_MAX is 2^32 - 1, as it is where unsigned long has 32 bits: for every
list of addresses that holds a value of 2^32 or more, the width chosen without the
option --eight is eight bytes (eight = 1), and with --eight=0 the block is refused
with the width error, which names the first such address, before anything is
written. -/
theorem width_eight_forced (addrs : List Nat) (longlist : Int) (param_arr : List Nat)
    (h : ∃ a ∈ addrs, 2 ^ 32 ≤ a) :
    select_eight ULONG_MAX (-1) addrs = .ok 1 ∧
    ∃ j, 1 ≤ j ∧ j ≤ addrs.length ∧
      select_eight ULONG_MAX 0 addrs = .error (.widthMismatch j) ∧
      main_param ULONG_MAX 0 longlist addrs param_arr = .error (.widthMismatch j) := by
  have h' : ∃ a ∈ addrs, ULONG_MAX ≤ a := by
    obtain ⟨a, ha, ha2⟩ := h
    exact ⟨a, ha, by unfold ULONG_MAX; omega⟩
  refine ⟨by simp [select_eight, width_loop_auto _ _ _ h'], ?_⟩
  obtain ⟨j, h1, h2, h3⟩ := width_loop_four ULONG_MAX addrs 0 h'
  exact ⟨j, by omega, by omega, by simp [select_eight, h3], by simp [main_param, select_eight, h3]⟩

/-- The width with ULONG_MAX = 2^32 - 1, at the addresses 7 and 2^32. -/
theorem width_eight_forced_witness :
    select_eight ULONG_MAX (-1) [7, 2 ^ 32] = .ok 1 ∧
    ∃ j, 1 ≤ j ∧ j ≤ [7, 2 ^ 32].length ∧
      select_eight ULONG_MAX 0 [7, 2 ^ 32] = .error (.widthMismatch j) ∧
      main_param ULONG_MAX 0 0 [7, 2 ^ 32] [] = .error (.widthMismatch j) :=
  width_eight_forced [7, 2 ^ 32] 0 [] ⟨2 ^ 32, by decide, by decide⟩

/-- Where no address reaches the value of ULONG_MAX, the loop over the addresses leaves
eight as it is, so that the width is eight bytes only if --eight=1 was given. -/
theorem select_eight_below (um : Nat) (eight : Int) (addrs : List Nat)
    (h : ∀ a ∈ addrs, a < um) :
    select_eight um eight addrs = .ok (if eight < 0 then 0 else eight) := by
  have key : ∀ k, width_loop um eight addrs k = .ok eight := by
    induction addrs with
    | nil => intro k; rfl
    | cons a as ih =>
      intro k
      have ha := h a (List.mem_cons_self _ _)
      rw [width_loop, if_neg (by omega)]
      exact ih (fun x hx => h x (List.mem_cons_of_mem _ hx)) (k + 1)
  simp only [select_eight, key 0]

set_option maxRecDepth 100000 in
/-- C4, at the failing input --address=1,0x100000005 where unsigned long has 64 bits, so
that ULONG_MAX is 2^64 - 1: the list is read as the numbers 1 and 2^32 + 5; neither
reaches ULONG_MAX, so without the option --eight the width chosen is four bytes and the
block, of length 12, holds the low four bytes of each address; read as big-endian
integers of four bytes, the bytes after the header give 1 and 5, which is not the
list. With the value 2^32 - 1 of ULONG_MAX the same list is written on eight bytes and
read back as it was. -/
theorem roundtrip_lost_wide_long :
    (main_address "1,0x100000005".toList []).map lbaList = .ok [1, 2 ^ 32 + 5] ∧
    (∃ q, main_param (2 ^ 64 - 1) (-1) 0 [1, 2 ^ 32 + 5] (List.replicate PARAM_ARR_SIZE 0)
        = .ok (0, q, 12) ∧
      (q.take 12).drop 4 = [0, 0, 0, 1, 0, 0, 0, 5] ∧
      decodeBE (addrWidth 0) (((q.take 12).drop 4).length / addrWidth 0) ((q.take 12).drop 4)
        = [1, 5]) ∧
    (∃ q, main_param (2 ^ 32 - 1) (-1) 0 [1, 2 ^ 32 + 5] (List.replicate PARAM_ARR_SIZE 0)
        = .ok (1, q, 20) ∧
      decodeBE (addrWidth 1) (((q.take 20).drop 4).length / addrWidth 1) ((q.take 20).drop 4)
        = [1, 2 ^ 32 + 5]) := by
  refine ⟨by decide, ?_, ?_⟩
  · rw [replicate_param_arr]
    exact ⟨_, main_param_ok (2 ^ 64 - 1) (-1) 0 0 [1, 2 ^ 32 + 5] (List.replicate 8192 0) 0 0 0 0
      (by decide) (by rw [List.length_replicate]; decide), by rfl, by rfl⟩
  · rw [replicate_param_arr]
    exact ⟨_, main_param_ok (2 ^ 32 - 1) (-1) 0 1 [1, 2 ^ 32 + 5] (List.replicate 8192 0) 0 0 0 0
      (by decide) (by rw [List.length_replicate]; decide), by rfl⟩

set_option maxRecDepth 100000 in
/-- C5, at the failing input --address=7,0x100000000 where unsigned long has 64 bits, so
that ULONG_MAX is 2^64 - 1: the list is read as the numbers 7 and 2^32, and although
2^32 does not fit in four bytes the width chosen without the option --eight is four
bytes (eight = 0), and with --eight=0 there is no width error: the block is built, of
length 12, with the four bytes 0, 0, 0, 0 for the address 2^32. With the value 2^32 - 1
of ULONG_MAX the same addresses give eight = 1 without the option and the width error
for address number 2 with --eight=0. -/
theorem four_bytes_kept_wide_long :
    (main_address "7,0x100000000".toList []).map lbaList = .ok [7, 2 ^ 32] ∧
    select_eight (2 ^ 64 - 1) (-1) [7, 2 ^ 32] = .ok 0 ∧
    select_eight (2 ^ 64 - 1) 0 [7, 2 ^ 32] = .ok 0 ∧
    (∃ q, main_param (2 ^ 64 - 1) 0 0 [7, 2 ^ 32] (List.replicate PARAM_ARR_SIZE 0)
        = .ok (0, q, 12) ∧
      (q.take 12).drop 4 = [0, 0, 0, 7, 0, 0, 0, 0]) ∧
    select_eight (2 ^ 32 - 1) (-1) [7, 2 ^ 32] = .ok 1 ∧
    select_eight (2 ^ 32 - 1) 0 [7, 2 ^ 32] = .error (.widthMismatch 2) ∧
    main_param (2 ^ 32 - 1) 0 0 [7, 2 ^ 32] (List.replicate PARAM_ARR_SIZE 0)
      = .error (.widthMismatch 2) := by
  refine ⟨by decide, by decide, by decide, ?_, by decide, by decide, ?_⟩
  · rw [replicate_param_arr]
    exact ⟨_, main_param_ok (2 ^ 64 - 1) 0 0 0 [7, 2 ^ 32] (List.replicate 8192 0) 0 0 0 0
      (by decide) (by rw [List.length_replicate]; decide), by rfl⟩
  · have h : select_eight (2 ^ 32 - 1) 0 [7, 2 ^ 32] = .error (.widthMismatch 2) := by decide
    simp only [main_param, h]

/-- C6, at the failing input of one address (1) with longlist = 0 and an array param_arr
whose bytes all hold 0xAA on entry: the block has length 8 and bytes 2 and 3 hold the
length 4 of the addresses, but bytes 0 and 1 still hold 0xAA. -/
theorem header_bytes_unwritten :
    ∃ q, main_param ULONG_MAX (-1) 0 [1] (List.replicate PARAM_ARR_SIZE 0xAA) = .ok (0, q, 8) ∧
      q.take 8 = [0xAA, 0xAA, 0, 4, 0, 0, 0, 1] := by
  rw [replicate_param_arr]
  refine ⟨_, main_param_ok ULONG_MAX (-1) 0 0 [1] (List.replicate 8192 0xAA) 0xAA 0xAA 0xAA 0xAA
    (by decide) (by rw [List.length_replicate]; decide), ?_⟩
  rfl

/-- C9, as stated, fails: a header whose byte 1 has bits 3 and 4 both set is refused, and
one with bit 3 alone is accepted. -/
theorem grown_kind_both_bits_refused :
    (0x18 &&& 0x18 = 0x18) ∧ grown_decode [0, 0x18, 0, 0] = .error .notGrownList ∧
    (0x08 &&& 0x18 ≠ 0x18) ∧
    grown_decode [0, 0x08, 0, 0]
      = .ok { dl_format := 0, div := 4, dl_len := 0, report := .elements 0 } := by
  decide

/-- C9, amended: for every response header, the decoder accepts the header when, of bits
3 and 4 of byte 1, bit 3 is set and bit 4 is clear ((byte1 & 0x18) = 0x08), and
refuses it as not a grown list in every other case. -/
theorem grown_kind_check (b0 b1 b2 b3 : Nat) (rest : List Nat) (h1 : b1 < 256) :
    (b1 &&& 0x18 = 0x8 ↔ (b1.testBit 3 = true ∧ b1.testBit 4 = false)) ∧
    (b1 &&& 0x18 = 0x8 → ∃ g, grown_decode (b0 :: b1 :: b2 :: b3 :: rest) = .ok g) ∧
    (b1 &&& 0x18 ≠ 0x8 →
      grown_decode (b0 :: b1 :: b2 :: b3 :: rest) = .error .notGrownList) := by
  refine ⟨byte_kind_bits b1 h1, ?_, ?_⟩
  · intro h
    simp [grown_decode, h]
  · intro h
    have h' : ¬ (8 = b1 &&& 24) := fun hc => h hc.symm
    simp [grown_decode, h']

/-- C9, amended, at byte 1 = 0x0C (accepted) and at byte 1 = 0x1C (refused). -/
theorem grown_kind_check_witness :
    (∃ g, grown_decode [0, 0x0C, 0, 0x10] = .ok g) ∧
    grown_decode [0, 0x1C, 0, 0x10] = .error .notGrownList :=
  ⟨(grown_kind_check 0 0x0C 0 0x10 [] (by decide)).2.1 (by decide),
   (grown_kind_check 0 0x1C 0 0x10 [] (by decide)).2.2 (by decide)⟩

/-- C10, as stated, fails: the header 0, 0x1C, 0x00, 0x10 is refused. -/
theorem grown_example_refused :
    grown_decode [0, 0x1C, 0x00, 0x10] = .error .notGrownList := by
  decide

/-- C10, amended: for every value of byte 0, the header b0, 0x1C, 0x00, 0x10 is refused as
not a grown list, and the header b0, 0x0C, 0x00, 0x10 is accepted with format code 4,
list length 16 and an element count of 2. -/
theorem grown_example (b0 : Nat) :
    grown_decode [b0, 0x1C, 0x00, 0x10] = .error .notGrownList ∧
    grown_decode [b0, 0x0C, 0x00, 0x10]
      = .ok { dl_format := 4, div := 8, dl_len := 16, report := .elements 2 } := by
  constructor <;> simp [grown_decode] <;> decide

/-- C11: for every response header that passes the list-kind check, the decoder returns
the format code f = byte1 & 7 (below 8) and the length len = byte2 * 256 + byte3, and
reports: 0 elements when len = 0, whatever f; otherwise len / 4 elements when f = 0,
len / 8 elements when f is 3, 4 or 5, and for every other f (1, 2, 6, 7) the byte
length len and no count of elements. -/
theorem grown_count (b0 b1 b2 b3 : Nat) (rest : List Nat) (hk : b1 &&& 0x18 = 0x8) :
    ∃ g, grown_decode (b0 :: b1 :: b2 :: b3 :: rest) = .ok g ∧
      g.dl_format = b1 &&& 0x7 ∧ g.dl_format < 8 ∧
      g.dl_len = b2 * 256 + b3 ∧
      (g.dl_len = 0 → g.report = .elements 0) ∧
      (g.dl_len ≠ 0 → g.dl_format = 0 → g.report = .elements (g.dl_len / 4)) ∧
      (g.dl_len ≠ 0 → g.dl_format = 3 ∨ g.dl_format = 4 ∨ g.dl_format = 5 →
        g.report = .elements (g.dl_len / 8)) ∧
      (g.dl_len ≠ 0 → g.dl_format = 1 ∨ g.dl_format = 2 ∨ g.dl_format = 6 ∨ g.dl_format = 7 →
        g.report = .bytes g.dl_len) := by
  have hlt : b1 &&& 0x7 < 8 := by
    have : b1 &&& 0x7 = b1 % 2 ^ 3 := Nat.and_pow_two_sub_one_eq_mod b1 3
    omega
  have hk2 : ¬ (0x8 ≠ (b1 &&& 0x18)) := by simp [hk]
  have hd : grown_decode (b0 :: b1 :: b2 :: b3 :: rest)
      = .ok { dl_format := b1 &&& 0x7,
              div := if b1 &&& 0x7 = 0 then 4
                else if b1 &&& 0x7 = 3 ∨ b1 &&& 0x7 = 4 ∨ b1 &&& 0x7 = 5 then 8 else 0,
              dl_len := b2 * 2 ^ 8 + b3,
              report := if b2 * 2 ^ 8 + b3 = 0 then .elements 0
                else if (if b1 &&& 0x7 = 0 then 4
                  else if b1 &&& 0x7 = 3 ∨ b1 &&& 0x7 = 4 ∨ b1 &&& 0x7 = 5 then 8 else 0) = 0
                then .bytes (b2 * 2 ^ 8 + b3)
                else .elements ((b2 * 2 ^ 8 + b3) / (if b1 &&& 0x7 = 0 then 4
                  else if b1 &&& 0x7 = 3 ∨ b1 &&& 0x7 = 4 ∨ b1 &&& 0x7 = 5 then 8 else 0)) } := by
    simp only [grown_decode, List.getD_cons_zero, List.getD_cons_succ, hk2, if_false]
  refine ⟨_, hd, rfl, hlt, by norm_num, ?_, ?_, ?_, ?_⟩
  · intro h
    exact if_pos h
  · intro h hf
    simp only at h hf ⊢
    rw [if_neg h]
    simp only [hf]
    rfl
  · intro h hf
    simp only at h hf ⊢
    rw [if_neg h]
    rcases hf with hf | hf | hf <;> simp only [hf] <;> rfl
  · intro h hf
    simp only at h hf ⊢
    rw [if_neg h]
    rcases hf with hf | hf | hf | hf <;> simp only [hf] <;> rfl

/-- C11 at the header 0, 0x0D, 0x01, 0x02: format 5 and 258 bytes, reported as 32
elements. -/
theorem grown_count_witness :
    ∃ g, grown_decode [0, 0x0D, 0x01, 0x02] = .ok g ∧ g.report = .elements 32 := by
  obtain ⟨g, hg, hf, _, hl, _, _, h8, _⟩ := grown_count 0 0x0D 0x01 0x02 [] (by decide)
  have hf5 : g.dl_format = 5 := by rw [hf]; decide
  have hl2 : g.dl_len = 258 := by rw [hl]
  refine ⟨g, hg, ?_⟩
  rw [h8 (by omega) (Or.inr (Or.inr hf5)), hl2]

/-! ### The length stored by build_lba_arr -/

theorem inline_loop_len (n k : Nat) (lcp : List Char) (arr : List Nat) (r : List Nat × Nat)
    (h : inline_loop n k lcp arr = .ok r) : r.2 ≤ k + n ∧ 0 < r.2 ∧ r.1.length = arr.length := by
  induction n generalizing k lcp arr with
  | zero => simp [inline_loop] at h
  | succ n ih =>
    simp only [inline_loop] at h
    split at h
    · split at h
      · simp only [Except.ok.injEq] at h
        subst h
        exact ⟨by simp, by simp, by simp⟩
      · obtain ⟨h1, h2, h3⟩ := ih _ _ _ h
        exact ⟨by omega, h2, by simpa using h3⟩
    · simp at h

theorem fgetsChars_length (n : Nat) (s : List Char) : (fgetsChars n s).1.length ≤ n := by
  induction n generalizing s with
  | zero => simp [fgetsChars]
  | succ n ih =>
    cases s with
    | nil => simp [fgetsChars]
    | cons c s =>
      simp only [fgetsChars]
      split
      · simp
      · have := ih s
        simp only [List.length_cons]
        omega

theorem fgets_length (stdin buf rest : List Char) (h : fgets 512 stdin = some (buf, rest)) :
    buf.length ≤ 511 := by
  unfold fgets at h
  split at h
  · simp at h
  · simp only [Option.some.injEq] at h
    have := fgetsChars_length (512 - 1) stdin
    rw [h] at this
    exact this

theorem strpbrk_shorter (lcp p : List Char) (h : strpbrk lcp sepChars = some p) :
    (p.drop (strspn p sepChars)).length < lcp.length := by
  unfold strpbrk at h
  split at h
  · simp at h
  · rename_i c t hd
    simp only [Option.some.injEq] at h
    subst h
    have hlen : (c :: t).length ≤ lcp.length := by
      rw [← hd]
      exact (List.dropWhile_sublist _).length_le
    have hc : sepChars.contains c = true := by
      have := List.head_dropWhile_not (fun c => !sepChars.contains c) lcp (by rw [hd]; simp)
      simp only [hd, List.head_cons] at this
      simpa using this
    have hs : 1 ≤ strspn (c :: t) sepChars := by
      unfold strspn
      rw [List.takeWhile_cons_of_pos (by simpa using hc)]
      simp
    simp only [List.length_drop]
    simp only [List.length_cons] at hlen ⊢
    omega

theorem line_loop_bound (cap off n k : Nat) (lcp : List Char) (arr : List Nat)
    (r : List Nat × Nat) (hn : lcp.length < n) (hk : off + k ≤ cap)
    (h : line_loop cap off n k lcp arr = .ok r) : r.2 ≤ cap ∧ r.1.length = arr.length := by
  induction n generalizing k lcp arr with
  | zero => omega
  | succ n ih =>
    simp only [line_loop] at h
    split at h
    · split at h
      · simp at h
      · rename_i hlt
        split at h
        · simp only [Except.ok.injEq] at h
          subst h
          exact ⟨by simp; omega, by simp⟩
        · rename_i p hp
          split at h
          · simp only [Except.ok.injEq] at h
            subst h
            exact ⟨by simp; omega, by simp⟩
          · have hs := strpbrk_shorter lcp p hp
            obtain ⟨h1, h2⟩ := ih (k + 1) _ _ (by omega) (by omega) h
            exact ⟨h1, by simpa using h2⟩
    · split at h
      · simp only [Except.ok.injEq] at h
        subst h
        exact ⟨hk, rfl⟩
      · simp at h

theorem chomp_length (buf : List Char) : (chomp buf).length ≤ buf.length := by
  have hc : (cstr buf).length ≤ buf.length := (List.takeWhile_sublist _).length_le
  unfold chomp
  split
  · simp only [List.length_dropLast]
    omega
  · exact hc

theorem line_body_bound (cap off : Nat) (arr : List Nat) (buf : List Char)
    (r : List Nat × Nat) (hb : buf.length < 1024) (hoff : off ≤ cap)
    (h : line_body cap off arr buf = .ok r) : r.2 ≤ cap ∧ r.1.length = arr.length := by
  have hl := chomp_length buf
  simp only [line_body] at h
  split at h
  · simp only [Except.ok.injEq] at h
    subst h
    exact ⟨hoff, rfl⟩
  · split at h
    · simp only [Except.ok.injEq] at h
      subst h
      exact ⟨hoff, rfl⟩
    · split at h
      · simp only [Except.ok.injEq] at h
        subst h
        exact ⟨hoff, rfl⟩
      · split at h
        · simp at h
        · exact line_loop_bound cap off 1024 0 _ arr r
            (by simp only [List.length_drop]; omega) (by omega) h

theorem stream_loop_bound (cap n : Nat) (stdin : List Char) (off : Nat) (arr : List Nat)
    (r : List Nat × Nat) (hoff : off ≤ cap) (h : stream_loop cap n stdin off arr = .ok r) :
    r.2 ≤ cap ∧ r.1.length = arr.length := by
  induction n generalizing stdin off arr with
  | zero =>
    simp only [stream_loop, Except.ok.injEq] at h
    subst h
    exact ⟨hoff, rfl⟩
  | succ n ih =>
    simp only [stream_loop] at h
    split at h
    · simp only [Except.ok.injEq] at h
      subst h
      exact ⟨hoff, rfl⟩
    · rename_i buf rest hf
      have hbuf := fgets_length stdin buf rest hf
      split at h
      · simp at h
      · rename_i arr1 off1 hb
        obtain ⟨h1, h2⟩ := line_body_bound cap off arr buf (arr1, off1) (by omega) hoff hb
        obtain ⟨h3, h4⟩ := ih rest off1 arr1 h1 h
        exact ⟨h3, by rw [h4]; exact h2⟩

theorem build_lba_arr_bound (inp stdin : List Char) (arr : List Nat) (cap : Nat)
    (r : List Nat × Nat) (h : build_lba_arr inp stdin arr cap = .ok r) :
    r.2 ≤ cap ∧ r.1.length = arr.length := by
  unfold build_lba_arr at h
  split at h
  · exact stream_loop_bound cap 512 stdin 0 arr r (Nat.zero_le _) h
  · split at h
    · simp at h
    · obtain ⟨h1, _, h3⟩ := inline_loop_len cap 0 inp arr r h
      exact ⟨by omega, h3⟩

theorem main_address_bound (optarg stdin : List Char) (r : List Nat × Nat)
    (h : main_address optarg stdin = .ok r) :
    r.2 ≤ MAX_NUM_ADDR ∧ r.1.length = MAX_NUM_ADDR := by
  have := build_lba_arr_bound optarg stdin _ _ r h
  simpa using this

/-! ### main is defined -/

/-- What the loop over the options keeps true of the array of addresses. -/
theorem opt_step_bound (o o1 : Options) (c : Opt) (h : opt_step o c = .next o1)
    (hl : o.addr_arr.length = MAX_NUM_ADDR) (hn : o.addr_arr_len ≤ MAX_NUM_ADDR) :
    o1.addr_arr.length = MAX_NUM_ADDR ∧ o1.addr_arr_len ≤ MAX_NUM_ADDR := by
  cases c <;> simp only [opt_step] at h
  case address optarg =>
    split at h
    · simp at h
    · rename_i arr len hm
      obtain ⟨h1, h2⟩ := main_address_bound optarg o.stdin (arr, len) hm
      simp only [Step.next.injEq] at h
      subst h
      exact ⟨h2, h1⟩
  case eight optarg =>
    split at h
    · split at h
      · simp only [Step.next.injEq] at h; subst h; exact ⟨hl, hn⟩
      · simp at h
    · simp at h
  case longlist optarg =>
    split at h
    · split at h
      · simp only [Step.next.injEq] at h; subst h; exact ⟨hl, hn⟩
      · simp at h
    · simp at h
  all_goals first
    | (simp only [Step.next.injEq] at h; subst h; exact ⟨hl, hn⟩)
    | simp at h

theorem opt_loop_bound (opts : List Opt) (o o1 : Options) (h : opt_loop o opts = .next o1)
    (hl : o.addr_arr.length = MAX_NUM_ADDR) (hn : o.addr_arr_len ≤ MAX_NUM_ADDR) :
    o1.addr_arr.length = MAX_NUM_ADDR ∧ o1.addr_arr_len ≤ MAX_NUM_ADDR := by
  induction opts generalizing o with
  | nil =>
    simp only [opt_loop, Step.next.injEq] at h
    subst h
    exact ⟨hl, hn⟩
  | cons c rest ih =>
    simp only [opt_loop] at h
    cases hc : opt_step o c with
    | stop e m => simp [hc] at h
    | next o2 =>
      simp only [hc] at h
      obtain ⟨h1, h2⟩ := opt_step_bound o o2 c hc hl hn
      exact ih o2 h h1 h2

theorem select_eight_error (um : Nat) (eight : Int) (addrs : List Nat) (e : ParamErr)
    (h : select_eight um eight addrs = .error e) : ∃ k, e = .widthMismatch k := by
  have key : ∀ (l : List Nat) (k : Nat), width_loop um eight l k = .error e →
      ∃ j, e = .widthMismatch j := by
    intro l
    induction l with
    | nil => intro k hk; simp [width_loop] at hk
    | cons a rest ih =>
      intro k hk
      simp only [width_loop] at hk
      split at hk
      · split at hk
        · simp at hk
        · split at hk
          · simp only [Except.error.injEq] at hk
            exact ⟨k + 1, hk.symm⟩
          · exact ih _ hk
      · exact ih _ hk
  unfold select_eight at h
  split at h
  · rename_i e1 he
    simp only [Except.error.injEq] at h
    subst h
    exact key addrs 0 he
  · simp at h

theorem addrWidth_le (e : Int) : addrWidth e ≤ 8 := by
  unfold addrWidth
  split <;> omega

theorem main_param_defined (um : Nat) (eight longlist : Int) (addrs param_arr : List Nat)
    (hn : addrs.length ≤ MAX_NUM_ADDR) (hp : param_arr.length = PARAM_ARR_SIZE) :
    (∃ k, main_param um eight longlist addrs param_arr = .error (.widthMismatch k)
      ∧ ∃ e, select_eight um eight addrs = .error e) ∨
    (∃ e q, select_eight um eight addrs = .ok e ∧ q.length = PARAM_ARR_SIZE ∧
      main_param um eight longlist addrs param_arr
        = .ok (e, q, 4 + addrWidth e * addrs.length)) := by
  obtain ⟨p0, p1, p2, p3, rest, hrest⟩ := exists_four param_arr (by rw [hp]; decide)
  subst hrest
  have hr : rest.length = 8192 := by
    simp only [List.length_cons, PARAM_ARR_SIZE, MAX_NUM_ADDR] at hp
    omega
  cases hs : select_eight um eight addrs with
  | error e =>
    obtain ⟨k, hk⟩ := select_eight_error um eight addrs e hs
    subst hk
    left
    exact ⟨k, by simp [main_param, hs], _, rfl⟩
  | ok e =>
    right
    have hw : addrWidth e * addrs.length ≤ rest.length := by
      have h8 := addrWidth_le e
      have : addrWidth e * addrs.length ≤ 8 * MAX_NUM_ADDR := Nat.mul_le_mul h8 hn
      simp only [MAX_NUM_ADDR] at this
      omega
    refine ⟨e, _, rfl, ?_, main_param_ok um eight longlist e addrs rest p0 p1 p2 p3 hs hw⟩
    simp only [List.length_append, headerBytes_length, flatMap_bigEndian_length,
      List.length_drop, PARAM_ARR_SIZE, MAX_NUM_ADDR]
    omega

theorem err_out_events (t : Transport) (fd ret : Int) (events : List Event) (out : List Msg) :
    (err_out t fd ret events out).events = events ++ [.closeDevice fd] := by
  unfold err_out
  split <;> rfl

theorem grown_branch_events (t : Transport) (o : Options) (fd : Int) (events : List Event) :
    (grown_branch t o fd events).events
      = events ++ [.readDefect10 fd 0 1 4 4] ++ [.closeDevice fd] := by
  unfold grown_branch
  simp only []
  split
  · exact err_out_events _ _ _ _ _
  · split
    · exact err_out_events _ _ _ _ _
    · split <;> exact err_out_events _ _ _ _ _

/-- The calls main can make after the loop over the options: none; an open that fails;
an open alone, when --dummy is given with addresses; or an open, one command and the
close of the handle. The result is defined when the array of addresses and param_arr
have the sizes main gives them. -/
theorem run_events (t : Transport) (o : Options) (args : List (List Char))
    (param_arr : List Nat) (hl : o.addr_arr.length = MAX_NUM_ADDR)
    (hn : o.addr_arr_len ≤ MAX_NUM_ADDR) (hp : param_arr.length = PARAM_ARR_SIZE) :
    ∃ r, run t o args param_arr = some r ∧
      ((r.events = [] ∧ r.exit = 1) ∨
       (∃ name, t.open1 < 0 ∧ r.exit = 1 ∧ r.events = [.openDevice name 0 o.verbose t.open1]) ∨
       (∃ name, 0 ≤ t.open1 ∧ o.dummy ≠ 0 ∧ o.got_addr ≠ 0 ∧ r.exit = 0 ∧
          r.events = [.openDevice name 0 o.verbose t.open1]) ∨
       (∃ name e param, 0 ≤ t.open1 ∧ o.dummy = 0 ∧ o.got_addr ≠ 0 ∧
          r.events = [.openDevice name 0 o.verbose t.open1,
                      .reassignBlocks t.open1 e o.longlist param, .closeDevice t.open1]) ∨
       (∃ name, 0 ≤ t.open1 ∧ o.got_addr = 0 ∧
          r.events = [.openDevice name 0 o.verbose t.open1,
                      .readDefect10 t.open1 0 1 4 4, .closeDevice t.open1])) := by
  unfold run
  split
  · exact ⟨_, rfl, Or.inl ⟨rfl, rfl⟩⟩
  · rename_i name _
    split
    · exact ⟨_, rfl, Or.inl ⟨rfl, rfl⟩⟩
    · split
      · exact ⟨_, rfl, Or.inl ⟨rfl, rfl⟩⟩
      · split
        · exact ⟨_, rfl, Or.inl ⟨rfl, rfl⟩⟩
        · split
          · rename_i hg
            rw [if_neg (by omega)]
            have hlen : (o.addr_arr.take o.addr_arr_len).length ≤ MAX_NUM_ADDR := by
              simp only [List.length_take]
              omega
            rcases main_param_defined ULONG_MAX o.eight o.longlist
                (o.addr_arr.take o.addr_arr_len) param_arr hlen hp with
              ⟨k, hk, _⟩ | ⟨e, q, _, _, hq⟩
            · rw [hk]
              exact ⟨_, rfl, Or.inl ⟨rfl, rfl⟩⟩
            · rw [hq]
              simp only []
              split
              · rename_i ho
                exact ⟨_, rfl, Or.inr (Or.inl ⟨name, ho, rfl, rfl⟩)⟩
              · rename_i ho
                split
                · rename_i hd
                  exact ⟨_, rfl, Or.inr (Or.inr (Or.inl ⟨name, by omega, hd, hg, rfl, rfl⟩))⟩
                · rename_i hd
                  have hd0 : o.dummy = 0 := by
                    by_contra hc
                    exact hd hc
                  split
                  · exact ⟨_, rfl, Or.inr (Or.inr (Or.inr (Or.inl
                      ⟨name, e, _, by omega, hd0, hg, by rw [err_out_events]; rfl⟩)))⟩
                  · split
                    · exact ⟨_, rfl, Or.inr (Or.inr (Or.inr (Or.inl
                        ⟨name, e, _, by omega, hd0, hg, by rw [err_out_events]; rfl⟩)))⟩
                    · exact ⟨_, rfl, Or.inr (Or.inr (Or.inr (Or.inl
                        ⟨name, e, _, by omega, hd0, hg, by rw [err_out_events]; rfl⟩)))⟩
          · rename_i hg
            have hg0 : o.got_addr = 0 := by
              by_contra hc
              exact hg hc
            simp only []
            split
            · rename_i ho
              exact ⟨_, rfl, Or.inr (Or.inl ⟨name, ho, rfl, rfl⟩)⟩
            · rename_i ho
              exact ⟨_, rfl, Or.inr (Or.inr (Or.inr (Or.inr
                ⟨name, by omega, hg0, by rw [grown_branch_events]; rfl⟩)))⟩

theorem init_bound (stdin : List Char) :
    (Options.init stdin).addr_arr.length = MAX_NUM_ADDR ∧
    (Options.init stdin).addr_arr_len ≤ MAX_NUM_ADDR := by
  simp [Options.init]

/-- For a param_arr of the size main gives it, main returns: with no call when the loop
over the options ends it, and otherwise as the part after the loop does. -/
theorem main_cases (opts : List Opt) (args : List (List Char)) (stdin : List Char)
    (param_arr : List Nat) (t : Transport) (hp : param_arr.length = PARAM_ARR_SIZE) :
    (∃ e m, opt_loop (Options.init stdin) opts = .stop e m ∧
      main opts args stdin param_arr t = some { exit := e, events := [], out := m }) ∨
    (∃ o r, opt_loop (Options.init stdin) opts = .next o ∧
      o.addr_arr.length = MAX_NUM_ADDR ∧ o.addr_arr_len ≤ MAX_NUM_ADDR ∧
      run t o args param_arr = some r ∧ main opts args stdin param_arr t = some r) := by
  cases h : opt_loop (Options.init stdin) opts with
  | stop e m =>
    left
    exact ⟨e, m, rfl, by simp [main, h]⟩
  | next o =>
    right
    obtain ⟨h1, h2⟩ := opt_loop_bound opts _ o h (init_bound stdin).1 (init_bound stdin).2
    obtain ⟨r, hr, _⟩ := run_events t o args param_arr h1 h2 hp
    exact ⟨o, r, rfl, h1, h2, hr, by simp [main, h, hr]⟩

/-- With --dummy and addresses for which a width is chosen, on a device that opens, main
returns 0 right after the open of the device. -/
theorem run_dummy (t : Transport) (o : Options) (arg : List Char) (param_arr : List Nat)
    (e : Int) (hl : o.addr_arr.length = MAX_NUM_ADDR) (hn : o.addr_arr_len ≤ MAX_NUM_ADDR)
    (hp : param_arr.length = PARAM_ARR_SIZE) (hname : arg.take 255 ≠ [])
    (hg : o.grown = 0) (ha : o.got_addr ≠ 0) (h1 : 1 ≤ o.addr_arr_len) (hd : o.dummy ≠ 0)
    (ho : 0 ≤ t.open1)
    (he : select_eight ULONG_MAX o.eight (o.addr_arr.take o.addr_arr_len) = .ok e) :
    run t o [arg] param_arr
      = some { exit := 0, events := [.openDevice (arg.take 255) 0 o.verbose t.open1],
               out := [.dummyNotExecuted] } := by
  have hlen : (o.addr_arr.take o.addr_arr_len).length ≤ MAX_NUM_ADDR := by
    simp only [List.length_take]
    omega
  rcases main_param_defined ULONG_MAX o.eight o.longlist (o.addr_arr.take o.addr_arr_len)
      param_arr hlen hp with ⟨k, _, e1, he1⟩ | ⟨e1, q, _, _, hq⟩
  · rw [he] at he1
    simp at he1
  · simp only [run, device_name, hname, if_false, hg, ha, ne_eq, not_true_eq_false,
      not_false_eq_true, false_and, true_and, if_true, hq, not_lt.mpr ho, hd,
      show ¬ (o.addr_arr.length < o.addr_arr_len) by omega,
      false_or, show ¬ (o.addr_arr_len < 1) by omega]

theorem opt_loop_append (o : Options) (x y : List Opt) :
    opt_loop o (x ++ y) = match opt_loop o x with
      | .stop e m => .stop e m
      | .next o1 => opt_loop o1 y := by
  induction x generalizing o with
  | nil => rfl
  | cons c x ih =>
    simp only [List.cons_append, opt_loop]
    cases opt_step o c with
    | stop e m => rfl
    | next o1 => exact ih o1

/-- When the width check fails, main returns 1 without a call of the transport. -/
theorem run_width_error (t : Transport) (o : Options) (args : List (List Char))
    (param_arr : List Nat) (e : ParamErr) (hl : o.addr_arr_len ≤ o.addr_arr.length)
    (ha : o.got_addr ≠ 0)
    (he : select_eight ULONG_MAX o.eight (o.addr_arr.take o.addr_arr_len) = .error e) :
    ∃ r, run t o args param_arr = some r ∧ r.exit = 1 ∧ r.events = [] := by
  obtain ⟨k, hk⟩ := select_eight_error _ _ _ _ he
  subst hk
  have hm : main_param ULONG_MAX o.eight o.longlist (o.addr_arr.take o.addr_arr_len) param_arr
      = .error (.widthMismatch k) := by
    simp [main_param, he]
  unfold run
  split
  · exact ⟨_, rfl, rfl, rfl⟩
  · split
    · exact ⟨_, rfl, rfl, rfl⟩
    · split
      · exact ⟨_, rfl, rfl, rfl⟩
      · split
        · exact ⟨_, rfl, rfl, rfl⟩
        · split
          · omega
          · rw [hm]
            exact ⟨_, rfl, rfl, rfl⟩

/-! ### The reader on hexadecimal input -/

theorem hex_facts : ∀ c ∈ hexChars,
    (hexDigit c).isSome = true ∧ isspace c = false ∧ c ≠ '-' ∧ c ≠ '+' ∧ c ≠ 'x' ∧ c ≠ 'X'
      ∧ c ≠ 'h' ∧ c ≠ 'H' ∧ c ≠ ',' ∧ c ≠ '#' ∧ c ≠ '\n' ∧ c ≠ Char.ofNat 0
      ∧ listChars.contains c = true ∧ lineChars.contains c = true
      ∧ sepChars.contains c = false ∧ blankChars.contains c = false := by
  decide

theorem scanDigits_hex (t rest : List Char) (cnt acc : Nat)
    (ht : ∀ c ∈ t, c ∈ hexChars) (hr : ∀ c, rest.head? = some c → hexDigit c = none) :
    scanDigits hexDigit 16 (t ++ rest) cnt acc
      = (cnt + t.length, t.foldl (fun a c => 16 * a + (hexDigit c).getD 0) acc) := by
  induction t generalizing cnt acc with
  | nil =>
    cases rest with
    | nil => simp [scanDigits]
    | cons c r =>
      have := hr c rfl
      simp [scanDigits, this]
  | cons c t ih =>
    have hc := (hex_facts c (ht c (List.mem_cons_self _ _))).1
    obtain ⟨d, hd⟩ := Option.isSome_iff_exists.mp hc
    show scanDigits hexDigit 16 (c :: (t ++ rest)) cnt acc = _
    simp only [scanDigits, hd]
    rw [ih _ _ (fun x hx => ht x (List.mem_cons_of_mem _ hx))]
    simp only [List.foldl_cons, hd, Option.getD_some, List.length_cons]
    congr 1
    omega

theorem scanHexItem_plain (s : List Char) (h : hasHexPrefix s = false) :
    scanHexItem s = scanDigits hexDigit 16 s 0 0 := by
  unfold scanHexItem
  split
  · rename_i x s'
    simp only [hasHexPrefix, Bool.or_eq_false_iff, decide_eq_false_iff_not] at h
    rw [if_neg (by rintro (h1 | h1); exact h.1 h1; exact h.2 h1)]
  · rfl

/-- The value stored by sscanf with %llx for hexadecimal digits: their value, or
2^64 - 1 when it does not fit. -/
theorem sscanf_llx_hex (t rest : List Char) (hne : t ≠ []) (ht : ∀ c ∈ t, c ∈ hexChars)
    (hr : ∀ c, rest.head? = some c → hexDigit c = none)
    (hp : hasHexPrefix (t ++ rest) = false) :
    sscanf_llx (t ++ rest) = some (if 2 ^ 64 ≤ hexValue t then 2 ^ 64 - 1 else hexValue t) := by
  cases t with
  | nil => exact absurd rfl hne
  | cons b0 t' =>
    have hb0 := hex_facts b0 (ht b0 (List.mem_cons_self _ _))
    have hscan := scanDigits_hex (b0 :: t') rest 0 0 ht hr
    unfold sscanf_llx
    rw [List.cons_append, List.dropWhile_cons, hb0.2.1]
    simp only [Bool.false_eq_true, if_false]
    rw [scanSign_plain _ _ hb0.2.2.1 hb0.2.2.2.1]
    simp only
    rw [scanHexItem_plain _ (by rw [← List.cons_append]; exact hp), ← List.cons_append, hscan]
    simp only [zero_add, List.length_cons, Nat.add_one_ne_zero, if_false, Bool.false_eq_true]
    unfold hexValue
    split <;> rfl

theorem endsInH_iff (buf : List Char) :
    endsInH buf = true ↔ (buf.getLast? = some 'h' ∨ buf.getLast? = some 'H') := by
  simp [endsInH]

theorem hasHexPrefix_iff (b0 : Char) (rest : List Char) :
    hasHexPrefix (b0 :: rest) = true
      ↔ (b0 = '0' ∧ (rest.head? = some 'x' ∨ rest.head? = some 'X')) := by
  cases rest with
  | nil => simp [hasHexPrefix]
  | cons x s =>
    by_cases h0 : b0 = '0'
    · subst h0
      simp [hasHexPrefix]
    · have : hasHexPrefix (b0 :: x :: s) = false := by
        unfold hasHexPrefix
        split
        · rename_i heq
          simp only [List.cons.injEq] at heq
          exact absurd heq.1 h0
        · rfl
      simp [this, h0]

/-- The function get_llnum on a buffer that begins with 0x or 0X and then holds
hexadecimal digits: the value of the digits, cut to 2^64 - 1, as a long long. -/
theorem get_llnum_prefixed (x : Char) (t rest : List Char) (hx : x = 'x' ∨ x = 'X')
    (hne : t ≠ []) (ht : ∀ c ∈ t, c ∈ hexChars)
    (hr : ∀ c, rest.head? = some c → hexDigit c = none)
    (hp : hasHexPrefix (t ++ rest) = false) :
    get_llnum ('0' :: x :: (t ++ rest))
      = toLongLong (if 2 ^ 64 ≤ hexValue t then 2 ^ 64 - 1 else hexValue t) := by
  unfold get_llnum
  have hc : ('0' : Char) = '0' ∧ ((x :: (t ++ rest)).head? = some 'x'
      ∨ (x :: (t ++ rest)).head? = some 'X') := by
    refine ⟨rfl, ?_⟩
    rcases hx with h | h <;> simp [h]
  simp only [hc, and_self, if_true, List.drop_succ_cons, List.drop_zero,
    sscanf_llx_hex t rest hne ht hr hp]

/-- The function get_llnum on a buffer that does not begin with 0x or 0X and ends in h or
H, and begins with hexadecimal digits: the value of the digits, cut to 2^64 - 1, as a
long long. -/
theorem get_llnum_suffixed (t rest : List Char) (hne : t ≠ []) (ht : ∀ c ∈ t, c ∈ hexChars)
    (hr : ∀ c, rest.head? = some c → hexDigit c = none)
    (hp : hasHexPrefix (t ++ rest) = false) (hh : endsInH (t ++ rest) = true) :
    get_llnum (t ++ rest)
      = toLongLong (if 2 ^ 64 ≤ hexValue t then 2 ^ 64 - 1 else hexValue t) := by
  have hs := sscanf_llx_hex t rest hne ht hr hp
  cases t with
  | nil => exact absurd rfl hne
  | cons b0 t' =>
    have hp1 : ¬ (b0 = '0' ∧ ((t' ++ rest).head? = some 'x' ∨ (t' ++ rest).head? = some 'X')) := by
      rw [← hasHexPrefix_iff, ← List.cons_append, hp]
      simp
    have hh1 := (endsInH_iff _).mp hh
    rw [List.cons_append] at hs hh1 ⊢
    unfold get_llnum
    simp only [hp1, if_false, hh1, if_true, hs]

/-- The function get_llnum on a buffer that does not begin with 0x or 0X, does not end in
h or H, and begins with a decimal number below 2^63 followed by a character that is
not a decimal digit: the value of the number. -/
theorem get_llnum_leading (d rest : List Char) (hd : isNumber d = true)
    (hr : ∀ c, rest.head? = some c → decDigit c = none)
    (hp : hasHexPrefix (d ++ rest) = false) (hh : endsInH (d ++ rest) = false) :
    get_llnum (d ++ rest) = (decValue d : Int) := by
  obtain ⟨hne, hdig, hval⟩ := isNumber_iff d hd
  cases d with
  | nil => exact absurd rfl hne
  | cons b0 t' =>
    have hb0 := digit_facts b0 (hdig b0 (List.mem_cons_self _ _))
    have hp1 : ¬ (b0 = '0' ∧ ((t' ++ rest).head? = some 'x' ∨ (t' ++ rest).head? = some 'X')) := by
      rw [← hasHexPrefix_iff, ← List.cons_append, hp]
      simp
    have hh1 : ¬ ((b0 :: (t' ++ rest)).getLast? = some 'h'
        ∨ (b0 :: (t' ++ rest)).getLast? = some 'H') := by
      rw [← endsInH_iff, ← List.cons_append, hh]
      simp
    have hscan := scanDigits_append (b0 :: t') rest 0 0 hdig hr
    have hlld : sscanf_lld (b0 :: (t' ++ rest)) = some (decValue (b0 :: t') : Int) := by
      unfold sscanf_lld
      rw [List.dropWhile_cons, hb0.2.1]
      simp only [Bool.false_eq_true, if_false]
      rw [scanSign_plain _ _ hb0.2.2.2.2.2.2.2.2.2.2.2.2.1 hb0.2.2.2.2.2.2.2.2.2.2.2.2.2]
      simp only
      rw [← List.cons_append, hscan]
      simp only [zero_add, List.length_cons, Nat.add_one_ne_zero, if_false, Bool.false_eq_true]
      unfold decValue at hval ⊢
      rw [if_pos hval]
    show get_llnum (b0 :: (t' ++ rest)) = _
    unfold get_llnum
    simp only [hp1, hh1, if_false, hlld]

theorem toLongLong_small (v : Nat) (h : v < 2 ^ 63) : toLongLong v = (v : Int) := by
  unfold toLongLong
  rw [Nat.mod_eq_of_lt (by omega), if_pos h]

theorem toLongLong_ne (v : Nat) (h : v < 2 ^ 64) : toLongLong v = -1 ↔ v = 2 ^ 64 - 1 := by
  unfold toLongLong
  rw [Nat.mod_eq_of_lt h]
  split <;> omega

theorem toULongLong_toLongLong (v : Nat) (h : v < 2 ^ 64) : toULongLong (toLongLong v) = v := by
  unfold toULongLong toLongLong
  rw [Nat.mod_eq_of_lt h]
  split <;> omega

/-! ### A list or an input line that holds one token -/

theorem trail_facts : ∀ c ∈ trailChars,
    decDigit c = none ∧ c ≠ ',' ∧ c ≠ '#' ∧ c ≠ '\n' ∧ c ≠ Char.ofNat 0 ∧ c ≠ '-'
      ∧ listChars.contains c = true ∧ lineChars.contains c = true
      ∧ sepChars.contains c = false ∧ blankChars.contains c = false := by
  decide

/-- What holds of every character of a token made of hexadecimal digits and letters. -/
theorem token_facts (c : Char) (h : c ∈ hexChars ∨ c ∈ trailChars) :
    c ≠ ',' ∧ c ≠ '#' ∧ c ≠ '\n' ∧ c ≠ Char.ofNat 0 ∧ c ≠ '-'
      ∧ listChars.contains c = true ∧ lineChars.contains c = true
      ∧ sepChars.contains c = false ∧ blankChars.contains c = false := by
  rcases h with h | h
  · have := hex_facts c h
    exact ⟨this.2.2.2.2.2.2.2.2.1, this.2.2.2.2.2.2.2.2.2.1, this.2.2.2.2.2.2.2.2.2.2.1,
      this.2.2.2.2.2.2.2.2.2.2.2.1, this.2.2.1, this.2.2.2.2.2.2.2.2.2.2.2.2.1,
      this.2.2.2.2.2.2.2.2.2.2.2.2.2.1, this.2.2.2.2.2.2.2.2.2.2.2.2.2.2.1,
      this.2.2.2.2.2.2.2.2.2.2.2.2.2.2.2⟩
  · exact (trail_facts c h).2

theorem hex_unprefixed (hs rest : List Char) (hne : hs ≠ []) (hhex : ∀ c ∈ hs, c ∈ hexChars)
    (hr : rest.head? ≠ some 'x' ∧ rest.head? ≠ some 'X') :
    hasHexPrefix (hs ++ rest) = false := by
  cases hs with
  | nil => exact absurd rfl hne
  | cons c t =>
    rw [List.cons_append]
    by_contra hc
    have hc1 : hasHexPrefix (c :: (t ++ rest)) = true := by simpa using hc
    obtain ⟨_, h2⟩ := (hasHexPrefix_iff _ _).mp hc1
    cases t with
    | nil =>
      simp only [List.nil_append] at h2
      rcases h2 with h | h
      · exact hr.1 h
      · exact hr.2 h
    | cons c2 t2 =>
      have := hex_facts c2 (hhex c2 (by simp))
      simp only [List.cons_append, List.head?_cons, Option.some.injEq] at h2
      rcases h2 with h | h
      · exact this.2.2.2.2.1 h
      · exact this.2.2.2.2.2.1 h

/-- The function build_lba_arr on a command line list that is one token. -/
theorem inline_token (tok stdin : List Char) (arr : List Nat) (cap : Nat)
    (htok : ∀ c ∈ tok, c ∈ hexChars ∨ c ∈ trailChars) :
    build_lba_arr tok stdin arr cap
      = if cap = 0 then .error .lengthExceeded
        else if get_llnum tok ≠ -1 then .ok (arr.set 0 (toULongLong (get_llnum tok)), 1)
        else .error .numberError := by
  have hhead : tok.head? ≠ some '-' := by
    intro h
    exact (token_facts '-' (htok _ (List.mem_of_mem_head? h))).2.2.2.2.1 rfl
  have hspn : strspn tok listChars = tok.length :=
    strspn_all tok listChars (fun c hc => (token_facts c (htok c hc)).2.2.2.2.2.1)
  have hchr : strchr tok ',' = none := by
    have := strchr_append tok [] (fun c hc => (token_facts c (htok c hc)).1) (by simp)
    simpa using this
  unfold build_lba_arr
  rw [if_neg hhead, if_neg (by rw [hspn]; simp)]
  cases cap with
  | zero => simp [inline_loop]
  | succ n =>
    rw [inline_loop, hchr]
    simp

/-- The body of the loop over the input lines on a line that is one token. -/
theorem line_body_token (cap off : Nat) (arr : List Nat) (buf tok : List Char) (hne : tok ≠ [])
    (htok : ∀ c ∈ tok, c ∈ hexChars ∨ c ∈ trailChars) (hb : chomp buf = tok) :
    line_body cap off arr buf
      = if get_llnum tok ≠ -1 then
          if off ≥ cap then .error .lengthExceeded
          else .ok (arr.set off (toULongLong (get_llnum tok)), off + 1)
        else .error .numberError := by
  have hm : strspn tok blankChars = 0 := by
    cases tok with
    | nil => exact absurd rfl hne
    | cons c t =>
      have := (token_facts c (htok c (List.mem_cons_self _ _))).2.2.2.2.2.2.2.2
      unfold strspn
      rw [List.takeWhile_cons_of_neg (by simpa using this)]
      rfl
  have hlen : 0 < tok.length := List.length_pos.mpr hne
  have hhead : tok.head? ≠ some '#' := by
    intro h
    exact (token_facts '#' (htok _ (List.mem_of_mem_head? h))).2.1 rfl
  have hspn : strspn tok lineChars = tok.length :=
    strspn_all tok lineChars (fun c hc => (token_facts c (htok c hc)).2.2.2.2.2.2.1)
  have hbrk : strpbrk tok sepChars = none := by
    have := strpbrk_append tok [] (fun c hc => (token_facts c (htok c hc)).2.2.2.2.2.2.2.1)
      (by simp)
    simpa using this
  simp only [line_body, hb, hne, if_false, hm, List.drop_zero, hhead, hspn, lt_self_iff_false,
    false_and, show ¬ (0 = tok.length) by omega]
  rw [line_loop, hbrk]
  simp [hhead]

/-- The function build_lba_arr on an input whose first line is one token. -/
theorem stream_token (tok rest : List Char) (arr : List Nat) (cap : Nat) (hne : tok ≠ [])
    (htok : ∀ c ∈ tok, c ∈ hexChars ∨ c ∈ trailChars) (hlen : tok.length ≤ 510) :
    build_lba_arr "-".toList (tok ++ '\n' :: rest) arr cap
      = if get_llnum tok ≠ -1 then
          if cap = 0 then .error .lengthExceeded
          else stream_loop cap 511 rest 1 (arr.set 0 (toULongLong (get_llnum tok)))
        else .error .numberError := by
  have hf := fgets_line tok rest (fun c hc => (token_facts c (htok c hc)).2.2.1) hlen
  have hb := chomp_newline tok (fun c hc => (token_facts c (htok c hc)).2.2.2.1)
  have hl := line_body_token cap 0 arr (tok ++ ['\n']) tok hne htok hb
  unfold build_lba_arr
  rw [if_pos (by decide), stream_loop, hf]
  simp only [hl]
  by_cases hg : get_llnum tok ≠ -1
  · rw [if_pos hg, if_pos hg]
    by_cases hc : cap = 0
    · subst hc
      simp
    · rw [if_neg (by omega), if_neg hc]
  · rw [if_neg hg, if_neg hg]

theorem decDigit_of_hexDigit (c : Char) (h : hexDigit c = none) : decDigit c = none := by
  unfold hexDigit at h
  unfold decDigit
  split
  · rename_i hc
    rw [if_pos hc] at h
    simp at h
  · rfl

theorem digit_hex : ∀ c ∈ digitChars, c ∈ hexChars := by
  decide

set_option maxRecDepth 100000 in
/-- C24: get_llnum decides between decimal and hexadecimal from the whole buffer. For
every buffer that does not begin with 0x or 0X and begins with hexadecimal digits
(value below 2^63) followed by the end or by a character that is not a hexadecimal
digit: if the last character of the buffer is h or H, the value returned is the
hexadecimal value of these digits; and when the digits are decimal digits, the value
returned is their hexadecimal value if the last character of the buffer is h or H
and their decimal value otherwise, wherever that last character stands. So
get_llnum gives 23 for 17,20h and 17 for 17,20, and the input line 100 # oh gives
the list [256] while the line 100 # o gives [100]. -/
theorem hex_by_last_character :
    (∀ (t rest : List Char), t ≠ [] → (∀ c ∈ t, c ∈ hexChars) → hexValue t < 2 ^ 63 →
      (∀ c, rest.head? = some c → hexDigit c = none) → hasHexPrefix (t ++ rest) = false →
      endsInH (t ++ rest) = true → get_llnum (t ++ rest) = (hexValue t : Int)) ∧
    (∀ (d rest : List Char), isNumber d = true → hexValue d < 2 ^ 63 →
      (∀ c, rest.head? = some c → hexDigit c = none) → hasHexPrefix (d ++ rest) = false →
      get_llnum (d ++ rest)
        = if endsInH (d ++ rest) = true then (hexValue d : Int) else (decValue d : Int)) ∧
    get_llnum "17,20h".toList = 23 ∧ get_llnum "17,20".toList = 17 ∧
    (build_lba_arr "-".toList "100 # oh\n".toList (List.replicate 1024 0) 1024).map lbaList
      = .ok [256] ∧
    (build_lba_arr "-".toList "100 # o\n".toList (List.replicate 1024 0) 1024).map lbaList
      = .ok [100] := by
  have h1 : ∀ (t rest : List Char), t ≠ [] → (∀ c ∈ t, c ∈ hexChars) → hexValue t < 2 ^ 63 →
      (∀ c, rest.head? = some c → hexDigit c = none) → hasHexPrefix (t ++ rest) = false →
      endsInH (t ++ rest) = true → get_llnum (t ++ rest) = (hexValue t : Int) := by
    intro t rest hne ht hv hr hp hh
    rw [get_llnum_suffixed t rest hne ht hr hp hh, if_neg (by omega), toLongLong_small _ hv]
  refine ⟨h1, ?_, by decide, by decide, by decide, by decide⟩
  intro d rest hd hv hr hp
  obtain ⟨hne, hdig, _⟩ := isNumber_iff d hd
  by_cases hh : endsInH (d ++ rest) = true
  · rw [if_pos hh]
    exact h1 d rest hne (fun c hc => digit_hex c (hdig c hc)) hv hr hp hh
  · rw [if_neg hh]
    exact get_llnum_leading d rest hd (fun c hc => decDigit_of_hexDigit c (hr c hc)) hp
      (by simpa using hh)

/-- C24 at the buffers 17,20h and 17,20: the digits 17 are read as 0x17 = 23 in the first
and as 17 in the second. -/
theorem hex_by_last_character_witness :
    get_llnum ("17".toList ++ ",20h".toList) = 23 ∧
    get_llnum ("17".toList ++ ",20".toList) = 17 :=
  ⟨hex_by_last_character.1 "17".toList ",20h".toList (by decide) (by decide) (by decide)
      (by decide) (by decide) (by decide),
   hex_by_last_character.2.1 "17".toList ",20".toList (by decide) (by decide) (by decide)
      (by decide)⟩

theorem get_llnum_token_prefixed (x : Char) (hs : List Char) (hx : x = 'x' ∨ x = 'X')
    (hne : hs ≠ []) (hhex : ∀ c ∈ hs, c ∈ hexChars) (hv : hexValue hs < 2 ^ 64) :
    get_llnum ('0' :: x :: hs) = toLongLong (hexValue hs) := by
  have h := get_llnum_prefixed x hs [] hx hne hhex (by simp)
    (hex_unprefixed hs [] hne hhex (by simp))
  rw [List.append_nil, if_neg (by omega)] at h
  exact h

theorem get_llnum_token_suffixed (s : Char) (hs : List Char) (hsuf : s = 'h' ∨ s = 'H')
    (hne : hs ≠ []) (hhex : ∀ c ∈ hs, c ∈ hexChars) (hv : hexValue hs < 2 ^ 64) :
    get_llnum (hs ++ [s]) = toLongLong (hexValue hs) := by
  have hr : ∀ c, [s].head? = some c → hexDigit c = none := by
    intro c hc
    simp only [List.head?_cons, Option.some.injEq] at hc
    subst hc
    rcases hsuf with h | h <;> subst h <;> decide
  have hp : hasHexPrefix (hs ++ [s]) = false :=
    hex_unprefixed hs [s] hne hhex (by rcases hsuf with h | h <;> subst h <;> decide)
  have hh : endsInH (hs ++ [s]) = true := by
    rcases hsuf with h | h <;> subst h <;> simp [endsInH]
  have h := get_llnum_suffixed hs [s] hne hhex hr hp hh
  rw [if_neg (by omega)] at h
  exact h

theorem token_prefixed_chars (x : Char) (hs : List Char) (hx : x = 'x' ∨ x = 'X')
    (hhex : ∀ c ∈ hs, c ∈ hexChars) : ∀ c ∈ '0' :: x :: hs, c ∈ hexChars ∨ c ∈ trailChars := by
  intro c hc
  rcases List.mem_cons.mp hc with rfl | hc
  · exact Or.inl (by decide)
  · rcases List.mem_cons.mp hc with rfl | hc
    · exact Or.inr (by rcases hx with h | h <;> subst h <;> decide)
    · exact Or.inl (hhex c hc)

theorem token_suffixed_chars (s : Char) (hs : List Char) (hsuf : s = 'h' ∨ s = 'H')
    (hhex : ∀ c ∈ hs, c ∈ hexChars) : ∀ c ∈ hs ++ [s], c ∈ hexChars ∨ c ∈ trailChars := by
  intro c hc
  rcases List.mem_append.mp hc with hc | hc
  · exact Or.inl (hhex c hc)
  · simp only [List.mem_singleton] at hc
    subst hc
    exact Or.inr (by rcases hsuf with h | h <;> subst h <;> decide)

/-- C25: the address 2^64 - 1 cannot be given. For all hexadecimal digits whose value is
2^64 - 1, written after 0x or 0X or before h or H, build_lba_arr fails on the command
line list made of this token and on every input whose first line is this token (of
at most 510 characters, so that the line fits the buffer of fgets), because get_llnum
returns -1 for it. For all hexadecimal digits whose value is below 2^64 - 1, written
after 0x or 0X, the command line list made of this token, and the input made of this
line, are accepted and give exactly this value (the capacity and the array holding
at least one number). -/
theorem all_ones_refused (hs : List Char) (x s : Char) (hne : hs ≠ [])
    (hhex : ∀ c ∈ hs, c ∈ hexChars) (hx : x = 'x' ∨ x = 'X') (hsuf : s = 'h' ∨ s = 'H') :
    (hexValue hs = 2 ^ 64 - 1 →
      get_llnum ('0' :: x :: hs) = -1 ∧ get_llnum (hs ++ [s]) = -1 ∧
      (∀ (stdin : List Char) (arr : List Nat) (cap : Nat),
        (∃ e, build_lba_arr ('0' :: x :: hs) stdin arr cap = .error e) ∧
        (∃ e, build_lba_arr (hs ++ [s]) stdin arr cap = .error e)) ∧
      (∀ (rest : List Char) (arr : List Nat) (cap : Nat),
        (hs.length + 2 ≤ 510 →
          build_lba_arr "-".toList (('0' :: x :: hs) ++ '\n' :: rest) arr cap
            = .error .numberError) ∧
        (hs.length + 1 ≤ 510 →
          build_lba_arr "-".toList ((hs ++ [s]) ++ '\n' :: rest) arr cap
            = .error .numberError))) ∧
    (hexValue hs < 2 ^ 64 - 1 →
      ∀ (stdin : List Char) (arr : List Nat) (cap : Nat), 0 < cap → 0 < arr.length →
        (build_lba_arr ('0' :: x :: hs) stdin arr cap).map lbaList = .ok [hexValue hs] ∧
        (hs.length + 2 ≤ 510 →
          (build_lba_arr "-".toList (('0' :: x :: hs) ++ ['\n']) arr cap).map lbaList
            = .ok [hexValue hs])) := by
  have hcp := token_prefixed_chars x hs hx hhex
  have hcs := token_suffixed_chars s hs hsuf hhex
  constructor
  · intro hv
    have hgp : get_llnum ('0' :: x :: hs) = -1 := by
      rw [get_llnum_token_prefixed x hs hx hne hhex (by omega)]
      exact (toLongLong_ne _ (by omega)).mpr hv
    have hgs : get_llnum (hs ++ [s]) = -1 := by
      rw [get_llnum_token_suffixed s hs hsuf hne hhex (by omega)]
      exact (toLongLong_ne _ (by omega)).mpr hv
    refine ⟨hgp, hgs, ?_, ?_⟩
    · intro stdin arr cap
      constructor
      · rw [inline_token _ stdin arr cap hcp, hgp]
        by_cases hc : cap = 0
        · exact ⟨_, by rw [if_pos hc]⟩
        · exact ⟨_, by rw [if_neg hc, if_neg (by simp)]⟩
      · rw [inline_token _ stdin arr cap hcs, hgs]
        by_cases hc : cap = 0
        · exact ⟨_, by rw [if_pos hc]⟩
        · exact ⟨_, by rw [if_neg hc, if_neg (by simp)]⟩
    · intro rest arr cap
      constructor
      · intro hl
        rw [stream_token _ rest arr cap (by simp) hcp (by simpa using hl), hgp,
          if_neg (by simp)]
      · intro hl
        rw [stream_token _ rest arr cap (by simp) hcs (by simpa using hl), hgs,
          if_neg (by simp)]
  · intro hv stdin arr cap hcap harr
    have hg : get_llnum ('0' :: x :: hs) = toLongLong (hexValue hs) :=
      get_llnum_token_prefixed x hs hx hne hhex (by omega)
    have hn1 : toLongLong (hexValue hs) ≠ -1 := by
      intro h
      have := (toLongLong_ne _ (by omega)).mp h
      omega
    have hu := toULongLong_toLongLong (hexValue hs) (by omega)
    have hlist : lbaList (arr.set 0 (hexValue hs), 1) = [hexValue hs] := by
      cases arr with
      | nil => simp at harr
      | cons a t => simp [lbaList]
    constructor
    · rw [inline_token _ stdin arr cap hcp, hg, if_neg (by omega), if_pos hn1, hu]
      simp only [Except.map, hlist]
    · intro hl
      rw [stream_token _ [] arr cap (by simp) hcp (by simpa using hl), hg, if_pos hn1,
        if_neg (by omega), hu]
      simp only [stream_loop, fgets, Except.map, hlist]

/-- C25 at the tokens 0xffffffffffffffff and ffffffffffffffffh, which are refused, and at
the token 0xfffffffffffffffe, which is accepted. -/
theorem all_ones_refused_witness :
    (∃ e, build_lba_arr "0xffffffffffffffff".toList [] (List.replicate 1024 0) 1024
      = .error e) ∧
    (∃ e, build_lba_arr "ffffffffffffffffh".toList [] (List.replicate 1024 0) 1024
      = .error e) ∧
    build_lba_arr "-".toList "0xffffffffffffffff\n".toList (List.replicate 1024 0) 1024
      = .error .numberError ∧
    (build_lba_arr "0xfffffffffffffffe".toList [] (List.replicate 1024 0) 1024).map lbaList
      = .ok [2 ^ 64 - 2] :=
  ⟨(((all_ones_refused "ffffffffffffffff".toList 'x' 'h' (by decide) (by decide)
        (Or.inl rfl) (Or.inl rfl)).1 (by decide)).2.2.1 [] _ 1024).1,
   (((all_ones_refused "ffffffffffffffff".toList 'x' 'h' (by decide) (by decide)
        (Or.inl rfl) (Or.inl rfl)).1 (by decide)).2.2.1 [] _ 1024).2,
   (((all_ones_refused "ffffffffffffffff".toList 'x' 'h' (by decide) (by decide)
        (Or.inl rfl) (Or.inl rfl)).1 (by decide)).2.2.2 [] _ 1024).1 (by decide),
   ((all_ones_refused "fffffffffffffffe".toList 'x' 'h' (by decide) (by decide)
        (Or.inl rfl) (Or.inl rfl)).2 (by decide) [] (List.replicate 1024 0) 1024 (by decide)
        (by rw [List.length_replicate]; decide)).1⟩

/-! ### Tokens with letters after their digits -/

theorem isLeadToken_iff (p : List Char × List Char) (h : isLeadToken p = true) :
    isNumber p.1 = true ∧ (∀ c ∈ p.2, c ∈ trailChars) ∧ hasHexPrefix (p.1 ++ p.2) = false := by
  simp only [isLeadToken, Bool.and_eq_true, List.all_eq_true, Bool.not_eq_true'] at h
  exact ⟨h.1.1, fun c hc => (contains_iff _ _).mp (h.1.2 c hc), h.2⟩

theorem hasHexPrefix_append (a b : List Char) (ha : a ≠ [])
    (hb : b.head? ≠ some 'x' ∧ b.head? ≠ some 'X') :
    hasHexPrefix (a ++ b) = hasHexPrefix a := by
  cases a with
  | nil => exact absurd rfl ha
  | cons c t =>
    cases t with
    | nil =>
      have h1 : hasHexPrefix [c] = false := by
        unfold hasHexPrefix
        split
        · rename_i heq
          simp at heq
        · rfl
      rw [h1]
      by_contra hc
      have hc1 : hasHexPrefix (c :: b) = true := by simpa using hc
      obtain ⟨_, h2⟩ := (hasHexPrefix_iff _ _).mp hc1
      rcases h2 with h | h
      · exact hb.1 h
      · exact hb.2 h
    | cons c2 t2 =>
      by_cases h : hasHexPrefix (c :: c2 :: t2) = true
      · rw [h]
        have := (hasHexPrefix_iff _ _).mp h
        exact (hasHexPrefix_iff _ _).mpr (by simpa using this)
      · have hf : hasHexPrefix (c :: c2 :: t2) = false := by simpa using h
        rw [hf]
        by_contra hc
        have hc1 : hasHexPrefix (c :: (c2 :: t2 ++ b)) = true := by simpa using hc
        have := (hasHexPrefix_iff _ _).mp hc1
        exact h ((hasHexPrefix_iff _ _).mpr (by simpa using this))

theorem endsInH_append (a b : List Char) (hb : b ≠ []) : endsInH (a ++ b) = endsInH b := by
  unfold endsInH
  rw [List.getLast?_append_of_ne_nil _ hb]

theorem commaList_ne_nil (t : List Char) (ts : List (List Char)) (ht : t ≠ []) :
    commaList (t :: ts) ≠ [] := by
  cases ts with
  | nil => exact ht
  | cons t2 ts => simp [commaList]

theorem get_llnum_lead_token (p : List Char × List Char) (rest : List Char)
    (hp : isLeadToken p = true) (hr : rest = [] ∨ rest.head? = some ',')
    (hh : endsInH (p.1 ++ p.2 ++ rest) = false) :
    get_llnum (p.1 ++ p.2 ++ rest) = (decValue p.1 : Int) := by
  obtain ⟨hd, htr, hpre⟩ := isLeadToken_iff p hp
  obtain ⟨hne, _, _⟩ := isNumber_iff p.1 hd
  have hrx : rest.head? ≠ some 'x' ∧ rest.head? ≠ some 'X' := by
    rcases hr with h | h <;> simp [h]
  rw [List.append_assoc] at hh ⊢
  refine get_llnum_leading p.1 (p.2 ++ rest) hd ?_ ?_ hh
  · intro c hc
    cases h2 : p.2 with
    | nil =>
      rw [h2, List.nil_append] at hc
      rcases hr with h | h
      · rw [h] at hc
        simp at hc
      · rw [h] at hc
        simp only [Option.some.injEq] at hc
        subst hc
        decide
    | cons c2 t2 =>
      rw [h2] at hc
      simp only [List.cons_append, List.head?_cons, Option.some.injEq] at hc
      subst hc
      exact (trail_facts c2 (htr c2 (by rw [h2]; simp))).1
  · rw [← List.append_assoc, hasHexPrefix_append _ rest (by simp [hne]) hrx]
    exact hpre

theorem lead_token_chars (p : List Char × List Char) (hp : isLeadToken p = true) :
    ∀ c ∈ p.1 ++ p.2, c ≠ ',' ∧ c ≠ '-' ∧ listChars.contains c = true := by
  obtain ⟨hd, htr, _⟩ := isLeadToken_iff p hp
  obtain ⟨_, hdig, _⟩ := isNumber_iff p.1 hd
  intro c hc
  rcases List.mem_append.mp hc with h | h
  · have := digit_facts c (hdig c h)
    refine ⟨?_, this.2.2.2.2.2.2.2.2.2.2.2.2.1, listChars_facts.1 c (hdig c h)⟩
    intro hcc
    subst hcc
    exact absurd this.2.2.1 (by decide)
  · have := trail_facts c (htr c h)
    exact ⟨this.2.1, this.2.2.2.2.2.1, this.2.2.2.2.2.2.1⟩

theorem inline_loop_lead (ps : List (List Char × List Char)) :
    ∀ (p : List Char × List Char) (n k : Nat) (arr : List Nat), isLeadToken p = true →
      (∀ q ∈ ps, isLeadToken q = true) →
      endsInH (commaList ((p :: ps).map (fun q => q.1 ++ q.2))) = false →
      inline_loop n k (commaList ((p :: ps).map (fun q => q.1 ++ q.2))) arr
        = if ps.length < n then
            .ok (storeAll arr k ((p :: ps).map (fun q => decValue q.1)), k + ps.length + 1)
          else .error .lengthExceeded := by
  induction ps with
  | nil =>
    intro p n k arr hp _ hh
    obtain ⟨hd, _, _⟩ := isLeadToken_iff p hp
    obtain ⟨_, _, hval⟩ := isNumber_iff p.1 hd
    cases n with
    | zero => simp [inline_loop]
    | succ n =>
      simp only [List.map_cons, List.map_nil, commaList] at hh ⊢
      have hg := get_llnum_lead_token p [] hp (Or.inl rfl) (by simpa using hh)
      have hc := strchr_append (p.1 ++ p.2) [] (fun c hc => (lead_token_chars p hp c hc).1)
        (by simp)
      rw [List.append_nil] at hg hc
      have hne1 : (decValue p.1 : Int) ≠ -1 := by omega
      rw [inline_loop, hg, hc, toULongLong_decValue _ hval]
      simp [hne1, storeAll]
  | cons p2 ps ih =>
    intro p n k arr hp hps hh
    obtain ⟨hd, _, _⟩ := isLeadToken_iff p hp
    obtain ⟨_, _, hval⟩ := isNumber_iff p.1 hd
    obtain ⟨hd2, _, _⟩ := isLeadToken_iff p2 (hps p2 (List.mem_cons_self _ _))
    obtain ⟨hne2, _, _⟩ := isNumber_iff p2.1 hd2
    have hrest : commaList ((p2 :: ps).map (fun q => q.1 ++ q.2)) ≠ [] :=
      commaList_ne_nil _ _ (by simp [hne2])
    have hshape : commaList ((p :: p2 :: ps).map (fun q => q.1 ++ q.2))
        = p.1 ++ p.2 ++ ',' :: commaList ((p2 :: ps).map (fun q => q.1 ++ q.2)) := rfl
    have hh2 : endsInH (commaList ((p2 :: ps).map (fun q => q.1 ++ q.2))) = false := by
      rw [hshape, endsInH_append _ _ (by simp),
        show ',' :: commaList ((p2 :: ps).map (fun q => q.1 ++ q.2))
          = [','] ++ commaList ((p2 :: ps).map (fun q => q.1 ++ q.2)) from rfl,
        endsInH_append _ _ hrest] at hh
      exact hh
    cases n with
    | zero => simp [inline_loop]
    | succ n =>
      have hg := get_llnum_lead_token p
        (',' :: commaList ((p2 :: ps).map (fun q => q.1 ++ q.2))) hp (Or.inr rfl)
        (by rw [← hshape]; exact hh)
      have hc := strchr_append (p.1 ++ p.2)
        (',' :: commaList ((p2 :: ps).map (fun q => q.1 ++ q.2)))
        (fun c hc => (lead_token_chars p hp c hc).1)
        (by intro c hc; simp at hc; exact hc.symm)
      have hne1 : (decValue p.1 : Int) ≠ -1 := by omega
      rw [hshape, inline_loop, hg, hc, toULongLong_decValue _ hval]
      simp only [ne_eq, hne1, not_false_eq_true, if_true, reduceCtorEq, if_false,
        List.drop_succ_cons, List.drop_zero]
      rw [ih p2 n (k + 1) _ (hps p2 (List.mem_cons_self _ _))
        (fun x hx => hps x (List.mem_cons_of_mem _ hx)) hh2]
      simp only [List.length_cons, List.map_cons, storeAll]
      by_cases h : ps.length < n
      · rw [if_pos h, if_pos (show ps.length + 1 < n + 1 by omega)]
        congr 2
        omega
      · rw [if_neg h, if_neg (show ¬ ps.length + 1 < n + 1 by omega)]

theorem commaList_lead_chars (ps : List (List Char × List Char))
    (h : ∀ q ∈ ps, isLeadToken q = true) :
    ∀ c ∈ commaList (ps.map (fun q => q.1 ++ q.2)), c ≠ '-' ∧ listChars.contains c = true := by
  induction ps with
  | nil => intro c hc; simp [commaList] at hc
  | cons p ps ih =>
    intro c hc
    cases ps with
    | nil =>
      simp only [List.map_cons, List.map_nil, commaList] at hc
      exact (lead_token_chars p (h p (List.mem_cons_self _ _)) c hc).2
    | cons p2 ps =>
      have hshape : commaList ((p :: p2 :: ps).map (fun q => q.1 ++ q.2))
          = p.1 ++ p.2 ++ ',' :: commaList ((p2 :: ps).map (fun q => q.1 ++ q.2)) := rfl
      rw [hshape] at hc
      rcases List.mem_append.mp hc with hc | hc
      · exact (lead_token_chars p (h p (List.mem_cons_self _ _)) c hc).2
      · rcases List.mem_cons.mp hc with rfl | hc
        · exact ⟨by decide, by decide⟩
        · exact ih (fun q hq => h q (List.mem_cons_of_mem _ hq)) c hc

/-- C26, as stated, fails for a token that begins with 0x or 0X: the token 0xab is the
digit 0 followed by the letters x, a, b, and it is read as the hexadecimal number ab
(171), not as 0; the token 0x is refused. -/
theorem hex_prefix_not_ignored :
    (build_lba_arr "0xab".toList [] (List.replicate 1024 0) 1024).map lbaList = .ok [171] ∧
    build_lba_arr "0x".toList [] (List.replicate 1024 0) 1024 = .error .numberError ∧
    endsInH "0xab".toList = false ∧ endsInH "0x".toList = false := by
  decide

/-- C26, amended: in a command line list whose last character is not h or H, whose
tokens are each made of a decimal number below 2^63 followed by letters among a-f,
A-F, x, X, h, H (or by nothing), no token beginning with 0x or 0X, and which holds no
more tokens than the capacity, every token is accepted and its value is the decimal
value of its digits alone: the letters are ignored. -/
theorem trailing_letters_ignored (p : List Char × List Char)
    (ps : List (List Char × List Char)) (stdin : List Char) (arr : List Nat) (cap : Nat)
    (hp : isLeadToken p = true) (hps : ∀ q ∈ ps, isLeadToken q = true)
    (hh : endsInH (commaList ((p :: ps).map (fun q => q.1 ++ q.2))) = false)
    (hcap : ps.length < cap) :
    build_lba_arr (commaList ((p :: ps).map (fun q => q.1 ++ q.2))) stdin arr cap
      = .ok (storeAll arr 0 ((p :: ps).map (fun q => decValue q.1)), ps.length + 1) := by
  have hall : ∀ q ∈ p :: ps, isLeadToken q = true := by
    intro q hq
    rcases List.mem_cons.mp hq with rfl | hq
    · exact hp
    · exact hps q hq
  have hchars := commaList_lead_chars (p :: ps) hall
  have hhead : (commaList ((p :: ps).map (fun q => q.1 ++ q.2))).head? ≠ some '-' := by
    intro h
    exact (hchars '-' (List.mem_of_mem_head? h)).1 rfl
  have hspn := strspn_all _ listChars (fun c hc => (hchars c hc).2)
  unfold build_lba_arr
  rw [if_neg hhead, if_neg (by rw [hspn]; simp), inline_loop_lead ps p cap 0 arr hp hps hh,
    if_pos hcap]
  simp

/-- C26, amended, at the lists 12ab and 10x,7h,3: the values are 12, and 10, 7 and 3. -/
theorem trailing_letters_ignored_witness :
    build_lba_arr "12ab".toList [] [0, 0, 0] 3 = .ok ([12, 0, 0], 1) ∧
    build_lba_arr "10x,7h,3".toList [] [0, 0, 0] 3 = .ok ([10, 7, 3], 3) :=
  ⟨trailing_letters_ignored ("12".toList, "ab".toList) [] [] [0, 0, 0] 3 (by decide)
      (by decide) (by decide) (by decide),
   trailing_letters_ignored ("10".toList, "x".toList)
      [("7".toList, "h".toList), ("3".toList, [])] [] [0, 0, 0] 3 (by decide)
      (by decide) (by decide) (by decide)⟩

/-- C27: for every list of at most 1024 addresses (and the lists that --address accepts
hold no more) and either width, the parameter block is built without a write past
the end of param_arr: all writes are at indices below the final param_len, which is
4 + n * w and at most 4 + 1024 * 8, the size of the array. The length n * w of the
addresses is at most 8192, which is below 2^16, so with longlist = 0 the two bytes
written at indices 2 and 3 hold this length exactly. -/
theorem encoding_in_bounds (eight longlist e : Int) (addrs param_arr : List Nat)
    (hn : addrs.length ≤ MAX_NUM_ADDR) (hp : param_arr.length = PARAM_ARR_SIZE)
    (he : select_eight ULONG_MAX eight addrs = .ok e) :
    (∀ (optarg stdin : List Char) (r : List Nat × Nat),
      main_address optarg stdin = .ok r → r.2 ≤ MAX_NUM_ADDR) ∧
    (addrWidth e = 4 ∨ addrWidth e = 8) ∧
    addrWidth e * addrs.length ≤ 8192 ∧ 8192 < 2 ^ 16 ∧
    4 + addrWidth e * addrs.length ≤ PARAM_ARR_SIZE ∧
    (∃ q k, encode_loop e addrs 4 param_arr = some (q, k) ∧
      k = 4 + addrWidth e * addrs.length ∧ q.length = PARAM_ARR_SIZE) ∧
    ∃ q, main_param ULONG_MAX eight longlist addrs param_arr
        = .ok (e, q, 4 + addrWidth e * addrs.length) ∧
      q.length = PARAM_ARR_SIZE ∧
      q.getD 2 0 < 256 ∧ q.getD 3 0 < 256 ∧
      q.getD 2 0 * 256 + q.getD 3 0 = addrWidth e * addrs.length := by
  have hw : addrWidth e = 4 ∨ addrWidth e = 8 := by
    unfold addrWidth
    split
    · right; rfl
    · left; rfl
  obtain ⟨p0, p1, p2, p3, rest, rfl⟩ := exists_four param_arr (by rw [hp]; decide)
  have hr : rest.length = 8192 := by
    simp only [List.length_cons, PARAM_ARR_SIZE, MAX_NUM_ADDR] at hp
    omega
  have hle : addrWidth e * addrs.length ≤ 8192 := by
    have : addrWidth e * addrs.length ≤ 8 * MAX_NUM_ADDR :=
      Nat.mul_le_mul (addrWidth_le e) hn
    simp only [MAX_NUM_ADDR] at this
    omega
  have henc := encode_loop_append e addrs [p0, p1, p2, p3] rest (by omega)
  have hmain := main_param_ok ULONG_MAX eight longlist e addrs rest p0 p1 p2 p3 he (by omega)
  refine ⟨fun optarg stdin r h => (main_address_bound optarg stdin r h).1, hw, hle, by decide,
    by simp only [PARAM_ARR_SIZE, MAX_NUM_ADDR]; omega, ⟨_, _, henc, rfl, ?_⟩, _, hmain, ?_, ?_⟩
  · simp only [List.length_append, List.length_cons, List.length_nil,
      flatMap_bigEndian_length, List.length_drop, PARAM_ARR_SIZE, MAX_NUM_ADDR]
    omega
  · simp only [List.length_append, headerBytes_length, flatMap_bigEndian_length,
      List.length_drop, PARAM_ARR_SIZE, MAX_NUM_ADDR]
    omega
  · have hget : ∀ (tail : List Nat) (i : Nat), i < 4 →
        (headerBytes longlist p0 p1 (addrWidth e * addrs.length) ++ tail).getD i 0
          = (headerBytes longlist p0 p1 (addrWidth e * addrs.length)).getD i 0 := by
      intro tail i hi
      rw [List.getD_append _ _ _ _ (by rw [headerBytes_length]; exact hi)]
    rw [List.append_assoc, hget _ 2 (by omega), hget _ 3 (by omega)]
    have h2 : (headerBytes longlist p0 p1 (addrWidth e * addrs.length)).getD 2 0
        = addrWidth e * addrs.length / 2 ^ 8 % 256 := by
      unfold headerBytes
      split <;> rfl
    have h3 : (headerBytes longlist p0 p1 (addrWidth e * addrs.length)).getD 3 0
        = addrWidth e * addrs.length % 256 := by
      unfold headerBytes
      split <;> rfl
    rw [h2, h3]
    refine ⟨Nat.mod_lt _ (by decide), Nat.mod_lt _ (by decide), ?_⟩
    omega

/-- C27 at 1024 addresses of eight bytes: the block has 8196 bytes, the size of the
array, and bytes 2 and 3 hold the length 8192 of the addresses. -/
theorem encoding_in_bounds_witness :
    ∃ q, main_param ULONG_MAX 1 0 (List.replicate 1024 7) (List.replicate PARAM_ARR_SIZE 0)
        = .ok (1, q, 4 + addrWidth 1 * (List.replicate 1024 7).length) ∧
      q.length = PARAM_ARR_SIZE ∧
      q.getD 2 0 < 256 ∧ q.getD 3 0 < 256 ∧
      q.getD 2 0 * 256 + q.getD 3 0 = addrWidth 1 * (List.replicate 1024 7).length :=
  (encoding_in_bounds 1 0 1 (List.replicate 1024 7) (List.replicate PARAM_ARR_SIZE 0)
    (by rw [List.length_replicate]; decide) (List.length_replicate _ _)
    (by
      have key : ∀ (l : List Nat) (k : Nat), width_loop ULONG_MAX 1 l k = .ok 1 := by
        intro l
        induction l with
        | nil => intro k; rfl
        | cons a l ih =>
          intro k
          simp only [width_loop]
          split
          · rw [if_neg (by decide), if_neg (by decide)]
            exact ih _
          · exact ih _
      simp [select_eight, key])).2.2.2.2.2.2

/-! ### Lines and lists of tokens -/

end SgReassign

/-! ## Theorems about sg_readcap -/

namespace SgReadcap

open SgReassign (beValue)

theorem or_byte (a b : Nat) (ha : a < 2 ^ 56) (hb : b < 256) :
    (a <<< 8) % 2 ^ 64 ||| b = a * 256 + b := by
  rw [Nat.shiftLeft_eq, Nat.mod_eq_of_lt (by omega)]
  have := Nat.mul_add_lt_is_or (i := 8) (b := b) (by omega) a
  rw [Nat.mul_comm a (2 ^ 8), ← this]

theorem or4 (b0 b1 b2 b3 : Nat) (h0 : b0 < 256) (h1 : b1 < 256) (h2 : b2 < 256)
    (h3 : b3 < 256) :
    (b0 <<< 24 ||| b1 <<< 16 ||| b2 <<< 8 ||| b3) % 2 ^ 32
      = b0 * 2 ^ 24 + b1 * 2 ^ 16 + b2 * 2 ^ 8 + b3 := by
  simp only [Nat.shiftLeft_eq]
  have e1 : b0 * 2 ^ 24 ||| b1 * 2 ^ 16 = b0 * 2 ^ 24 + b1 * 2 ^ 16 := by
    have := Nat.mul_add_lt_is_or (i := 24) (b := b1 * 2 ^ 16) (by omega) b0
    rw [Nat.mul_comm b0 (2 ^ 24), ← this]
  have e2 : b0 * 2 ^ 24 + b1 * 2 ^ 16 ||| b2 * 2 ^ 8
      = b0 * 2 ^ 24 + b1 * 2 ^ 16 + b2 * 2 ^ 8 := by
    have := Nat.mul_add_lt_is_or (i := 16) (b := b2 * 2 ^ 8) (by omega) (b0 * 2 ^ 8 + b1)
    have e : 2 ^ 16 * (b0 * 2 ^ 8 + b1) = b0 * 2 ^ 24 + b1 * 2 ^ 16 := by omega
    rw [e] at this
    exact this.symm
  have e3 : b0 * 2 ^ 24 + b1 * 2 ^ 16 + b2 * 2 ^ 8 ||| b3
      = b0 * 2 ^ 24 + b1 * 2 ^ 16 + b2 * 2 ^ 8 + b3 := by
    have := Nat.mul_add_lt_is_or (i := 8) (b := b3) (by omega) (b0 * 2 ^ 16 + b1 * 2 ^ 8 + b2)
    have e : 2 ^ 8 * (b0 * 2 ^ 16 + b1 * 2 ^ 8 + b2)
        = b0 * 2 ^ 24 + b1 * 2 ^ 16 + b2 * 2 ^ 8 := by omega
    rw [e] at this
    exact this.symm
  rw [e1, e2, e3]
  omega

theorem get32_bytes (pre post : List Nat) (b0 b1 b2 b3 : Nat) (h0 : b0 < 256) (h1 : b1 < 256)
    (h2 : b2 < 256) (h3 : b3 < 256) :
    get32 (pre ++ b0 :: b1 :: b2 :: b3 :: post) pre.length = beValue [b0, b1, b2, b3] := by
  have g : ∀ (j : Nat) (l : List Nat), (pre ++ l).getD (pre.length + j) 0 = l.getD j 0 := by
    intro j l
    simp [List.getD_eq_getElem?_getD, List.getElem?_append_right]
  have g0 := g 0 (b0 :: b1 :: b2 :: b3 :: post)
  have g1 := g 1 (b0 :: b1 :: b2 :: b3 :: post)
  have g2 := g 2 (b0 :: b1 :: b2 :: b3 :: post)
  have g3 := g 3 (b0 :: b1 :: b2 :: b3 :: post)
  simp only [Nat.add_zero] at g0
  unfold get32
  rw [g0, g1, g2, g3]
  simp only [List.getD_cons_zero, List.getD_cons_succ]
  rw [or4 b0 b1 b2 b3 h0 h1 h2 h3]
  simp [beValue]
  omega

theorem get64_bytes (post : List Nat) (b0 b1 b2 b3 b4 b5 b6 b7 : Nat) (h0 : b0 < 256)
    (h1 : b1 < 256) (h2 : b2 < 256) (h3 : b3 < 256) (h4 : b4 < 256) (h5 : b5 < 256)
    (h6 : b6 < 256) (h7 : b7 < 256) :
    get64 (b0 :: b1 :: b2 :: b3 :: b4 :: b5 :: b6 :: b7 :: post)
      = beValue [b0, b1, b2, b3, b4, b5, b6, b7] := by
  have hr : List.range 8 = [0, 1, 2, 3, 4, 5, 6, 7] := by decide
  unfold get64
  rw [hr]
  simp only [List.foldl_cons, List.foldl_nil, List.getD_cons_zero, List.getD_cons_succ]
  rw [or_byte 0 b0 (by omega) h0, or_byte _ b1 (by omega) h1, or_byte _ b2 (by omega) h2,
    or_byte _ b3 (by omega) h3, or_byte _ b4 (by omega) h4, or_byte _ b5 (by omega) h5,
    or_byte _ b6 (by omega) h6, or_byte _ b7 (by omega) h7]
  simp [beValue]

theorem beValue_lt4 (b0 b1 b2 b3 : Nat) (h0 : b0 < 256) (h1 : b1 < 256) (h2 : b2 < 256)
    (h3 : b3 < 256) : beValue [b0, b1, b2, b3] < 2 ^ 32 := by
  simp [beValue]
  omega

theorem beValue_lt8 (b0 b1 b2 b3 b4 b5 b6 b7 : Nat) (h0 : b0 < 256) (h1 : b1 < 256)
    (h2 : b2 < 256) (h3 : b3 < 256) (h4 : b4 < 256) (h5 : b5 < 256) (h6 : b6 < 256)
    (h7 : b7 < 256) : beValue [b0, b1, b2, b3, b4, b5, b6, b7] < 2 ^ 64 := by
  simp [beValue]
  omega

theorem dash_loop_preserves (P : Options → Prop)
    (h16 : ∀ o, P o → P { o with do16 := 1 }) (hb : ∀ o, P o → P { o with brief := 1 })
    (hp : ∀ o, P o → P { o with pmi := 1 })
    (hv : ∀ o, P o → P { o with verbose := o.verbose + 1 }) :
    ∀ (n : Nat) (cp : List Char) (o : Options), cp.length ≤ n → P o →
      ∀ cp1 j o1, dash_loop cp o = .next cp1 j o1 → P o1 := by
  intro n
  induction n with
  | zero =>
    intro cp o hlen hP cp1 j o1 hd
    have : cp = [] := List.length_eq_zero.mp (by omega)
    subst this
    simp only [dash_loop, Dash.next.injEq] at hd
    obtain ⟨_, _, rfl⟩ := hd
    exact hP
  | succ n ih =>
    intro cp o hlen hP cp1 j o1 hd
    cases cp with
    | nil =>
      simp only [dash_loop, Dash.next.injEq] at hd
      obtain ⟨_, _, rfl⟩ := hd
      exact hP
    | cons c cp' =>
      simp only [List.length_cons] at hlen
      unfold dash_loop at hd
      split_ifs at hd
      · split at hd
        · exact ih _ _ (by simp only [List.length_cons] at hlen; omega) (h16 o hP) _ _ _ hd
        · simp only [Dash.next.injEq] at hd
          obtain ⟨_, _, rfl⟩ := hd
          exact hP
      · exact ih _ _ (by omega) (hb o hP) _ _ _ hd
      · split at hd
        · exact ih _ _ (by simp only [List.length_cons] at hlen; omega) (hp o hP) _ _ _ hd
        · simp only [Dash.next.injEq] at hd
          obtain ⟨_, _, rfl⟩ := hd
          exact hP
      · exact ih _ _ (by omega) (hv o hP) _ _ _ hd
      · simp only [Dash.next.injEq] at hd
        obtain ⟨_, _, rfl⟩ := hd
        exact hP

theorem arg_step_consistent (o o1 : Options) (arg : List Char) (h : o.consistent)
    (hs : arg_step o arg = .next o1) : o1.consistent := by
  unfold arg_step at hs
  split at hs
  · simp only [Step.next.injEq] at hs
    subst hs
    exact h
  · split_ifs at hs
    · split at hs
      · simp at hs
      · rename_i cp jmp o2 hd
        have h2 : o2.consistent :=
          dash_loop_preserves Options.consistent
            (fun o ho => ⟨ho.1, fun _ => by simp, Or.inr rfl⟩)
            (fun o ho => ho) (fun o ho => ho) (fun o ho => ho) _ _ o (le_refl _) h _ _ _ hd
        split_ifs at hs
        · simp only [Step.next.injEq] at hs
          subst hs
          exact h2
        · split at hs
          · simp at hs
          · rename_i u hu
            simp only [Step.next.injEq] at hs
            subst hs
            refine ⟨rfl, ?_, ?_⟩
            · intro hgt
              simp only [gt_iff_lt] at hgt
              simp [hgt]
            · simp only
              split
              · exact Or.inr rfl
              · exact h2.2.2
        · simp only [Step.next.injEq] at hs
          subst hs
          exact h2
    · split at hs
      · simp only [Step.next.injEq] at hs
        subst hs
        exact h
      · simp at hs

theorem parse_args_consistent (argv : List (List Char)) (o o1 : Options) (h : o.consistent)
    (hp : parse_args o argv = .next o1) : o1.consistent := by
  induction argv generalizing o with
  | nil =>
    simp only [parse_args, Step.next.injEq] at hp
    subst hp
    exact h
  | cons a rest ih =>
    rw [parse_args] at hp
    split at hp
    · simp at hp
    · rename_i o2 hs
      exact ih o2 (arg_step_consistent _ _ _ h hs) hp

theorem init_consistent : Options.init.consistent := by
  simp [Options.consistent, Options.init]

theorem main_of_parse (argv : List (List Char)) (t : Transport) (o : Options)
    (hp : parse_args Options.init argv = .next o) : main argv t = run t o := by
  simp [main, hp]

theorem get32_sentinel (resp : List Nat) (h : ∀ i < 4, resp.getD i 0 = 0xFF) :
    get32 resp 0 = 0xffffffff := by
  unfold get32
  rw [h 0 (by omega), h 1 (by omega), h 2 (by omega), h 3 (by omega)]
  decide

/-- C12, at the failing input -lba=100000000 (hexadecimal, 2^32) without -pmi: the
invocation is not rejected; the device is opened and a READ CAPACITY (16) with pmi = 0
and the starting address 2^32 is issued. -/
theorem lba_check_truncated :
    (main ["-lba=100000000".toList, "/dev/sda".toList]
      { invalid_op := 9, illegal_req := 5, open1 := 3, open2 := 4,
        readcap10 := (0, List.replicate 8 0), readcap16 := (0, List.replicate 32 0) }).events
      = [.openDevice "/dev/sda".toList 0 0 3, .readcap16 3 0 (2 ^ 32), .closeDevice 3] ∧
    (main ["-lba=100000000".toList, "/dev/sda".toList]
      { invalid_op := 9, illegal_req := 5, open1 := 3, open2 := 4,
        readcap10 := (0, List.replicate 8 0), readcap16 := (0, List.replicate 32 0) }).exit
      = 0 := by
  decide

/-- C13: whenever the 10-byte READ CAPACITY is issued and succeeds with bytes 0..3 of its
response all 0xFF, main prints only the note that the capacity is too large, then
issues a READ CAPACITY (16) on the same handle with the same pmi and the same starting
address, and closes the handle; the exit status and the lines that follow the note
are those of the block of the 16-byte command, which reads the 16-byte response only. -/
theorem sentinel_fallback (argv : List (List Char)) (t : Transport) (o : Options)
    (name : List Char) (hp : parse_args Options.init argv = .next o)
    (hn : o.file_name = some name) (hchk : ¬ (o.pmi = 0 ∧ o.lba > 0)) (h16 : o.do16 = 0)
    (hopen : 0 ≤ t.open1) (h10 : t.readcap10.1 = 0)
    (hff : ∀ i < 4, t.readcap10.2.getD i 0 = 0xFF) :
    o.llba = o.lba ∧
    (main argv t).events
      = [.openDevice name 1 o.verbose t.open1, .readcap10 t.open1 o.pmi o.lba,
         .readcap16 t.open1 o.pmi o.lba, .closeDevice t.open1] ∧
    (main argv t).exit = (if t.readcap16.1 = 0 then 0 else 1) ∧
    (main argv t).out = .tooLarge :: (phase16 t o t.open1 [] []).out := by
  have hc := parse_args_consistent argv _ o init_consistent hp
  have hl : o.llba = o.lba := by
    obtain ⟨h1, h2, _⟩ := hc
    have : ¬ o.llba > 0xfffffffe := fun h => h2 h h16
    omega
  refine ⟨hl, ?_⟩
  rw [main_of_parse argv t o hp]
  unfold run
  simp only [hn, hchk, if_false, not_lt.mpr hopen, h16, if_true, h10,
    get32_sentinel _ hff, ne_eq, not_true_eq_false, phase16, hl]
  by_cases h : t.readcap16.1 = 0
  · simp [h, good]
  · simp [h, failed]

/-- C13 at the arguments -pmi -lba=10 and a device whose 10-byte response is all 0xFF. -/
theorem sentinel_fallback_witness :
    (main ["-pmi".toList, "-lba=10".toList, "/dev/sda".toList]
      { invalid_op := 9, illegal_req := 5, open1 := 3, open2 := 4,
        readcap10 := (0, List.replicate 8 0xFF),
        readcap16 := (0, List.replicate 32 0) }).events
      = [.openDevice "/dev/sda".toList 1 0 3, .readcap10 3 1 0x10, .readcap16 3 1 0x10,
         .closeDevice 3] :=
  (sentinel_fallback ["-pmi".toList, "-lba=10".toList, "/dev/sda".toList]
      { invalid_op := 9, illegal_req := 5, open1 := 3, open2 := 4,
        readcap10 := (0, List.replicate 8 0xFF), readcap16 := (0, List.replicate 32 0) }
      { lba := 0x10, llba := 0x10, brief := 0, pmi := 1, do16 := 0, verbose := 0,
        file_name := some "/dev/sda".toList }
      "/dev/sda".toList (by decide) rfl (by decide) rfl (by decide) rfl (by decide)).2.1

/-- C14: when the 10-byte READ CAPACITY is tried first and the device opens, a status of
SG_LIB_CAT_INVALID_OP makes main close the handle and open the device again for
reading and writing, after which the 16-byte command is issued on the new handle (or
main ends with status 1 if the device does not open again); any other failure, a
status of SG_LIB_CAT_ILLEGAL_REQ among them, ends main with status 1 after the close
of the handle, without a 16-byte command. A 16-byte command is issued exactly when the
status was SG_LIB_CAT_INVALID_OP and the device opened again, or the command
succeeded with the last block address 0xffffffff. -/
theorem fallback_rule (argv : List (List Char)) (t : Transport) (o : Options)
    (name : List Char) (hp : parse_args Options.init argv = .next o)
    (hn : o.file_name = some name) (hchk : ¬ (o.pmi = 0 ∧ o.lba > 0)) (h16 : o.do16 = 0)
    (hopen : 0 ≤ t.open1) (hinv : t.invalid_op ≠ 0) (hill : t.illegal_req ≠ 0)
    (hdist : t.illegal_req ≠ t.invalid_op) :
    (t.readcap10.1 = t.invalid_op →
      (0 ≤ t.open2 →
        (main argv t).events
          = [.openDevice name 1 o.verbose t.open1, .readcap10 t.open1 o.pmi o.lba,
             .closeDevice t.open1, .openDevice name 0 o.verbose t.open2,
             .readcap16 t.open2 o.pmi o.llba, .closeDevice t.open2]) ∧
      (t.open2 < 0 →
        (main argv t).events
          = [.openDevice name 1 o.verbose t.open1, .readcap10 t.open1 o.pmi o.lba,
             .closeDevice t.open1, .openDevice name 0 o.verbose t.open2]
        ∧ (main argv t).exit = 1)) ∧
    (t.readcap10.1 ≠ 0 → t.readcap10.1 ≠ t.invalid_op →
      (main argv t).events
        = [.openDevice name 1 o.verbose t.open1, .readcap10 t.open1 o.pmi o.lba,
           .closeDevice t.open1]
      ∧ (main argv t).exit = 1) ∧
    (t.readcap10.1 = t.illegal_req →
      (main argv t).events
        = [.openDevice name 1 o.verbose t.open1, .readcap10 t.open1 o.pmi o.lba,
           .closeDevice t.open1]
      ∧ (main argv t).exit = 1) ∧
    ((∃ fd pmi llba, Event.readcap16 fd pmi llba ∈ (main argv t).events) ↔
      (t.readcap10.1 = t.invalid_op ∧ 0 ≤ t.open2)
        ∨ (t.readcap10.1 = 0 ∧ get32 t.readcap10.2 0 = 0xffffffff)) := by
  rw [main_of_parse argv t o hp]
  have hrun : run t o =
      if t.readcap10.1 = 0 then
        if get32 t.readcap10.2 0 ≠ 0xffffffff then
          good t.open1 [.openDevice name 1 o.verbose t.open1, .readcap10 t.open1 o.pmi o.lba]
            (report10 o t.readcap10.2)
        else phase16 t o t.open1
          [.openDevice name 1 o.verbose t.open1, .readcap10 t.open1 o.pmi o.lba] [.tooLarge]
      else if t.invalid_op = t.readcap10.1 then
        if t.open2 < 0 then
          { exit := 1,
            events := [.openDevice name 1 o.verbose t.open1, .readcap10 t.open1 o.pmi o.lba,
              .closeDevice t.open1, .openDevice name 0 o.verbose t.open2],
            out := [.reopenError] }
        else
          phase16 t o t.open2
            [.openDevice name 1 o.verbose t.open1, .readcap10 t.open1 o.pmi o.lba,
              .closeDevice t.open1, .openDevice name 0 o.verbose t.open2]
            (if o.verbose ≠ 0 then [.trying16] else [])
      else
        { exit := 1,
          events := [.openDevice name 1 o.verbose t.open1, .readcap10 t.open1 o.pmi o.lba,
            .closeDevice t.open1],
          out := (if t.illegal_req = t.readcap10.1 then [Msg.badField10]
                  else if o.verbose = 0 then [.failed10 t.readcap10.1] else [])
                 ++ (if o.brief ≠ 0 then [.brief 0 0] else []) } := by
    unfold run
    simp only [hn, hchk, if_false, not_lt.mpr hopen, h16, if_true, ne_eq, not_true_eq_false,
      List.cons_append, List.nil_append, failed]
    split_ifs <;> simp
  have hph : ∀ fd ev out, (phase16 t o fd ev out).events
      = ev ++ [.readcap16 fd o.pmi o.llba, .closeDevice fd] := by
    intro fd ev out
    unfold phase16 good failed
    split <;> simp
  rw [hrun]
  refine ⟨?_, ?_, ?_, ?_⟩
  · intro h
    have h0 : t.readcap10.1 ≠ 0 := by rw [h]; exact hinv
    rw [if_neg h0, if_pos h.symm]
    constructor
    · intro h2
      rw [if_neg (not_lt.mpr h2), hph]
      rfl
    · intro h2
      rw [if_pos h2]
      exact ⟨rfl, rfl⟩
  · intro h0 h1
    rw [if_neg h0, if_neg (fun h => h1 h.symm)]
    exact ⟨rfl, rfl⟩
  · intro h
    have h0 : t.readcap10.1 ≠ 0 := by rw [h]; exact hill
    have h1 : ¬ t.invalid_op = t.readcap10.1 := by rw [h]; exact fun e => hdist e.symm
    rw [if_neg h0, if_neg h1]
    exact ⟨rfl, rfl⟩
  · by_cases h0 : t.readcap10.1 = 0
    · rw [if_pos h0]
      by_cases hs : get32 t.readcap10.2 0 = 0xffffffff
      · rw [if_neg (not_not.mpr hs), hph]
        constructor
        · intro _
          exact Or.inr ⟨h0, hs⟩
        · intro _
          exact ⟨t.open1, o.pmi, o.llba, by simp⟩
      · rw [if_pos hs]
        constructor
        · rintro ⟨fd, p, l, hm⟩
          simp [good] at hm
        · rintro (⟨h, _⟩ | ⟨_, h⟩)
          · exact absurd (h ▸ h0) hinv
          · exact absurd h hs
    · rw [if_neg h0]
      by_cases h1 : t.invalid_op = t.readcap10.1
      · rw [if_pos h1]
        by_cases h2 : t.open2 < 0
        · rw [if_pos h2]
          constructor
          · rintro ⟨fd, p, l, hm⟩
            simp at hm
          · rintro (⟨_, h⟩ | ⟨h, _⟩)
            · omega
            · exact absurd h h0
        · rw [if_neg h2, hph]
          constructor
          · intro _
            exact Or.inl ⟨h1.symm, not_lt.mp h2⟩
          · intro _
            exact ⟨t.open2, o.pmi, o.llba, by simp⟩
      · rw [if_neg h1]
        constructor
        · rintro ⟨fd, p, l, hm⟩
          simp at hm
        · rintro (⟨h, _⟩ | ⟨h, _⟩)
          · exact absurd h.symm h1
          · exact absurd h h0

/-- C14 at a device that answers the 10-byte command with SG_LIB_CAT_INVALID_OP. -/
theorem fallback_rule_witness :
    (main ["/dev/sda".toList]
      { invalid_op := 9, illegal_req := 5, open1 := 3, open2 := 4,
        readcap10 := (9, List.replicate 8 0), readcap16 := (0, List.replicate 32 0) }).events
      = [.openDevice "/dev/sda".toList 1 0 3, .readcap10 3 0 0, .closeDevice 3,
         .openDevice "/dev/sda".toList 0 0 4, .readcap16 4 0 0, .closeDevice 4] :=
  ((fallback_rule ["/dev/sda".toList]
      { invalid_op := 9, illegal_req := 5, open1 := 3, open2 := 4,
        readcap10 := (9, List.replicate 8 0), readcap16 := (0, List.replicate 32 0) }
      { lba := 0, llba := 0, brief := 0, pmi := 0, do16 := 0, verbose := 0,
        file_name := some "/dev/sda".toList }
      "/dev/sda".toList (by decide) rfl (by decide) rfl (by decide) (by decide) (by decide)
      (by decide)).1 rfl).1 (by decide)

theorem protection_bits (b : Nat) :
    (if b &&& 0x1 ≠ 0 then 1 else 0) = b % 2 ∧ (b >>> 1 &&& 0x7) = b / 2 % 8 := by
  constructor
  · rw [Nat.and_one_is_mod]
    split <;> omega
  · rw [Nat.shiftRight_eq_div_pow]
    exact Nat.and_pow_two_sub_one_eq_mod _ 3

theorem report16_bytes (o : Options) (c0 c1 c2 c3 c4 c5 c6 c7 c8 c9 c10 c11 c12 : Nat)
    (rest : List Nat)
    (hc : ∀ b ∈ [c0, c1, c2, c3, c4, c5, c6, c7, c8, c9, c10, c11], b < 256) :
    get64 (c0 :: c1 :: c2 :: c3 :: c4 :: c5 :: c6 :: c7 :: c8 :: c9 :: c10 :: c11 :: c12 :: rest)
      = beValue [c0, c1, c2, c3, c4, c5, c6, c7] ∧
    get32 (c0 :: c1 :: c2 :: c3 :: c4 :: c5 :: c6 :: c7 :: c8 :: c9 :: c10 :: c11 :: c12 :: rest) 8
      = beValue [c8, c9, c10, c11] ∧
    (o.brief = 0 → o.pmi = 0 →
      report16 o
          (c0 :: c1 :: c2 :: c3 :: c4 :: c5 :: c6 :: c7 :: c8 :: c9 :: c10 :: c11 :: c12 :: rest)
        = [.results, .protection (c12 % 2) (c12 / 2 % 8),
           .lastBlock (beValue [c0, c1, c2, c3, c4, c5, c6, c7])
             ((beValue [c0, c1, c2, c3, c4, c5, c6, c7] + 1) % 2 ^ 64),
           .blockSize (beValue [c8, c9, c10, c11]),
           .deviceSize ((beValue [c0, c1, c2, c3, c4, c5, c6, c7] + 1) % 2 ^ 64
             * beValue [c8, c9, c10, c11] % 2 ^ 64)]) := by
  have h64 := get64_bytes (c8 :: c9 :: c10 :: c11 :: c12 :: rest) c0 c1 c2 c3 c4 c5 c6 c7
    (hc _ (by simp)) (hc _ (by simp)) (hc _ (by simp)) (hc _ (by simp)) (hc _ (by simp))
    (hc _ (by simp)) (hc _ (by simp)) (hc _ (by simp))
  have h32 := get32_bytes [c0, c1, c2, c3, c4, c5, c6, c7] (c12 :: rest) c8 c9 c10 c11
    (hc _ (by simp)) (hc _ (by simp)) (hc _ (by simp)) (hc _ (by simp))
  simp only [List.cons_append, List.nil_append, List.length_cons, List.length_nil,
    Nat.zero_add, Nat.reduceAdd] at h32
  refine ⟨h64, h32, ?_⟩
  intro hb hp
  have hp12 := protection_bits c12
  unfold report16
  simp only [h64, h32, hb, hp, ne_eq, not_true_eq_false, if_false, if_true, List.cons_append,
    List.nil_append, List.getD_cons_succ, List.getD_cons_zero, hp12.1, hp12.2]

/-- C15: response decoding is the big-endian reading. For every 8-byte response of
READ CAPACITY (10), the last block address is the big-endian value of bytes 0..3 and
the block size that of bytes 4..7, both below 2^32, and these are the values printed.
For every 32-byte response of READ CAPACITY (16), the last block address is the
big-endian value of bytes 0..7, the block size that of bytes 8..11, protection enabled
is bit 0 of byte 12 and the protection type is bits 1..3 of byte 12, at most 7, and
these are the values printed; the bytes after byte 12 play no part. -/
theorem response_decoding (o : Options) (b0 b1 b2 b3 b4 b5 b6 b7 : Nat)
    (c0 c1 c2 c3 c4 c5 c6 c7 c8 c9 c10 c11 c12 : Nat) (rest : List Nat)
    (hb : ∀ b ∈ [b0, b1, b2, b3, b4, b5, b6, b7], b < 256)
    (hc : ∀ b ∈ [c0, c1, c2, c3, c4, c5, c6, c7, c8, c9, c10, c11], b < 256)
    (hbrief : o.brief = 0) (hpmi : o.pmi = 0) :
    get32 [b0, b1, b2, b3, b4, b5, b6, b7] 0 = beValue [b0, b1, b2, b3] ∧
    get32 [b0, b1, b2, b3, b4, b5, b6, b7] 4 = beValue [b4, b5, b6, b7] ∧
    beValue [b0, b1, b2, b3] < 2 ^ 32 ∧ beValue [b4, b5, b6, b7] < 2 ^ 32 ∧
    report10 o [b0, b1, b2, b3, b4, b5, b6, b7]
      = [.results,
         .lastBlock (beValue [b0, b1, b2, b3]) ((beValue [b0, b1, b2, b3] + 1) % 2 ^ 32),
         .blockSize (beValue [b4, b5, b6, b7]),
         .deviceSize ((beValue [b0, b1, b2, b3] + 1) % 2 ^ 32 * beValue [b4, b5, b6, b7]
           % 2 ^ 64)] ∧
    get64 (c0 :: c1 :: c2 :: c3 :: c4 :: c5 :: c6 :: c7 :: c8 :: c9 :: c10 :: c11 :: c12 :: rest)
      = beValue [c0, c1, c2, c3, c4, c5, c6, c7] ∧
    get32 (c0 :: c1 :: c2 :: c3 :: c4 :: c5 :: c6 :: c7 :: c8 :: c9 :: c10 :: c11 :: c12 :: rest) 8
      = beValue [c8, c9, c10, c11] ∧
    beValue [c0, c1, c2, c3, c4, c5, c6, c7] < 2 ^ 64 ∧ c12 / 2 % 8 ≤ 7 ∧
    report16 o
        (c0 :: c1 :: c2 :: c3 :: c4 :: c5 :: c6 :: c7 :: c8 :: c9 :: c10 :: c11 :: c12 :: rest)
      = [.results, .protection (c12 % 2) (c12 / 2 % 8),
         .lastBlock (beValue [c0, c1, c2, c3, c4, c5, c6, c7])
           ((beValue [c0, c1, c2, c3, c4, c5, c6, c7] + 1) % 2 ^ 64),
         .blockSize (beValue [c8, c9, c10, c11]),
         .deviceSize ((beValue [c0, c1, c2, c3, c4, c5, c6, c7] + 1) % 2 ^ 64
           * beValue [c8, c9, c10, c11] % 2 ^ 64)] := by
  have g0 := get32_bytes [] [b4, b5, b6, b7] b0 b1 b2 b3 (hb _ (by simp)) (hb _ (by simp))
    (hb _ (by simp)) (hb _ (by simp))
  have g4 := get32_bytes [b0, b1, b2, b3] [] b4 b5 b6 b7 (hb _ (by simp)) (hb _ (by simp))
    (hb _ (by simp)) (hb _ (by simp))
  simp only [List.cons_append, List.nil_append, List.length_cons, List.length_nil,
    Nat.zero_add, Nat.reduceAdd] at g0 g4
  obtain ⟨h64, h32, hrep⟩ := report16_bytes o c0 c1 c2 c3 c4 c5 c6 c7 c8 c9 c10 c11 c12 rest hc
  refine ⟨g0, g4, beValue_lt4 _ _ _ _ (hb _ (by simp)) (hb _ (by simp)) (hb _ (by simp))
      (hb _ (by simp)),
    beValue_lt4 _ _ _ _ (hb _ (by simp)) (hb _ (by simp)) (hb _ (by simp)) (hb _ (by simp)),
    ?_, h64, h32,
    beValue_lt8 _ _ _ _ _ _ _ _ (hc _ (by simp)) (hc _ (by simp)) (hc _ (by simp))
      (hc _ (by simp)) (hc _ (by simp)) (hc _ (by simp)) (hc _ (by simp)) (hc _ (by simp)),
    by omega, hrep hbrief hpmi⟩
  unfold report10
  simp only [g0, g4, hbrief, hpmi, ne_eq, not_true_eq_false, if_false, if_true,
    List.cons_append, List.nil_append]

/-- C15 at the 10-byte response 0, 0, 0xff, 0xff, 0, 0, 2, 0. -/
theorem response_decoding_witness :
    get32 [0, 0, 0xff, 0xff, 0, 0, 2, 0] 0 = beValue [0, 0, 0xff, 0xff] ∧
    get32 [0, 0, 0xff, 0xff, 0, 0, 2, 0] 4 = beValue [0, 0, 2, 0] :=
  ⟨(response_decoding Options.init 0 0 0xff 0xff 0 0 2 0 0 0 0 0 0 0 0 0 0 0 2 0 3 []
      (by decide) (by decide) rfl rfl).1,
   (response_decoding Options.init 0 0 0xff 0xff 0 0 2 0 0 0 0 0 0 0 0 0 0 0 2 0 3 []
      (by decide) (by decide) rfl rfl).2.1⟩

/-- C16, as stated, fails: for the 16-byte response whose last block address is 2^64 - 1
and whose block size is 512, the number of blocks printed is 0 and the device size
printed is 0, not 2^64 and 2^73. -/
theorem size16_wraps :
    report16 Options.init (List.replicate 8 0xff ++ [0, 0, 2, 0] ++ List.replicate 20 0)
      = [.results, .protection 0 0, .lastBlock (2 ^ 64 - 1) 0, .blockSize 512,
         .deviceSize 0] := by
  decide

/-- C16, amended: for every successful READ CAPACITY (16) response decoded without PMI
(and without the brief option), the number of blocks printed is the last block
address plus 1 modulo 2^64 and the device size printed is that number times the block
size modulo 2^64; they are the exact integers last + 1 and (last + 1) * block size
whenever the last block address is not 2^64 - 1 and the product is below 2^64. -/
theorem size16 (o : Options) (c0 c1 c2 c3 c4 c5 c6 c7 c8 c9 c10 c11 c12 : Nat)
    (rest : List Nat)
    (hc : ∀ b ∈ [c0, c1, c2, c3, c4, c5, c6, c7, c8, c9, c10, c11], b < 256)
    (hbrief : o.brief = 0) (hpmi : o.pmi = 0) :
    report16 o
        (c0 :: c1 :: c2 :: c3 :: c4 :: c5 :: c6 :: c7 :: c8 :: c9 :: c10 :: c11 :: c12 :: rest)
      = [.results, .protection (c12 % 2) (c12 / 2 % 8),
         .lastBlock (beValue [c0, c1, c2, c3, c4, c5, c6, c7])
           ((beValue [c0, c1, c2, c3, c4, c5, c6, c7] + 1) % 2 ^ 64),
         .blockSize (beValue [c8, c9, c10, c11]),
         .deviceSize ((beValue [c0, c1, c2, c3, c4, c5, c6, c7] + 1) % 2 ^ 64
           * beValue [c8, c9, c10, c11] % 2 ^ 64)] ∧
    (beValue [c0, c1, c2, c3, c4, c5, c6, c7] ≠ 2 ^ 64 - 1 →
      (beValue [c0, c1, c2, c3, c4, c5, c6, c7] + 1) * beValue [c8, c9, c10, c11] < 2 ^ 64 →
      (beValue [c0, c1, c2, c3, c4, c5, c6, c7] + 1) % 2 ^ 64
        = beValue [c0, c1, c2, c3, c4, c5, c6, c7] + 1 ∧
      (beValue [c0, c1, c2, c3, c4, c5, c6, c7] + 1) % 2 ^ 64 * beValue [c8, c9, c10, c11]
        % 2 ^ 64
        = (beValue [c0, c1, c2, c3, c4, c5, c6, c7] + 1) * beValue [c8, c9, c10, c11]) := by
  obtain ⟨_, _, hrep⟩ := report16_bytes o c0 c1 c2 c3 c4 c5 c6 c7 c8 c9 c10 c11 c12 rest hc
  refine ⟨hrep hbrief hpmi, ?_⟩
  intro hne hlt
  have h8 := beValue_lt8 c0 c1 c2 c3 c4 c5 c6 c7 (hc _ (by simp)) (hc _ (by simp))
    (hc _ (by simp)) (hc _ (by simp)) (hc _ (by simp)) (hc _ (by simp)) (hc _ (by simp))
    (hc _ (by simp))
  have h1 : (beValue [c0, c1, c2, c3, c4, c5, c6, c7] + 1) % 2 ^ 64
      = beValue [c0, c1, c2, c3, c4, c5, c6, c7] + 1 := Nat.mod_eq_of_lt (by omega)
  rw [h1]
  exact ⟨rfl, Nat.mod_eq_of_lt hlt⟩

/-- C16, amended, at a response with last block address 0xffff and block size 512. -/
theorem size16_witness :
    report16 Options.init ([0, 0, 0, 0, 0, 0, 0xff, 0xff, 0, 0, 2, 0, 0] ++ [])
      = [.results, .protection 0 0, .lastBlock 65535 65536, .blockSize 512,
         .deviceSize 33554432] :=
  (size16 Options.init 0 0 0 0 0 0 0xff 0xff 0 0 2 0 0 [] (by decide) rfl rfl).1

theorem get32_lt (resp_buff : List Nat) (i : Nat) : get32 resp_buff i < 2 ^ 32 := by
  unfold get32
  exact Nat.mod_lt _ (by decide)

/-- C28: in the 10-byte variant the sizes are computed without overflow. For every
response whose last block address is not 0xffffffff, and every block size (both are
unsigned 32-bit values), the number of blocks last + 1 is below 2^32, so the
unsigned int addition does not wrap, and the product (last + 1) * block_size is below
2^64, so total_sz, an unsigned long long, is the exact product; these exact values
are the ones printed. -/
theorem size10_exact (o : Options) (resp_buff : List Nat)
    (hs : get32 resp_buff 0 ≠ 0xffffffff) :
    get32 resp_buff 0 + 1 < 2 ^ 32 ∧ get32 resp_buff 4 < 2 ^ 32 ∧
    (get32 resp_buff 0 + 1) % 2 ^ 32 = get32 resp_buff 0 + 1 ∧
    (get32 resp_buff 0 + 1) * get32 resp_buff 4 < 2 ^ 64 ∧
    (get32 resp_buff 0 + 1) % 2 ^ 32 * get32 resp_buff 4 % 2 ^ 64
      = (get32 resp_buff 0 + 1) * get32 resp_buff 4 ∧
    (o.brief = 0 → o.pmi = 0 →
      report10 o resp_buff
        = [.results, .lastBlock (get32 resp_buff 0) (get32 resp_buff 0 + 1),
           .blockSize (get32 resp_buff 4),
           .deviceSize ((get32 resp_buff 0 + 1) * get32 resp_buff 4)]) ∧
    (o.brief ≠ 0 →
      report10 o resp_buff = [.brief (get32 resp_buff 0 + 1) (get32 resp_buff 4)]) := by
  have h0 := get32_lt resp_buff 0
  have h4 := get32_lt resp_buff 4
  have h1 : get32 resp_buff 0 + 1 < 2 ^ 32 := by omega
  have hm : (get32 resp_buff 0 + 1) % 2 ^ 32 = get32 resp_buff 0 + 1 := Nat.mod_eq_of_lt h1
  have hp : (get32 resp_buff 0 + 1) * get32 resp_buff 4 < 2 ^ 64 := by
    calc (get32 resp_buff 0 + 1) * get32 resp_buff 4
        < 2 ^ 32 * 2 ^ 32 := Nat.mul_lt_mul'' h1 h4
      _ = 2 ^ 64 := by norm_num
  have hpm : (get32 resp_buff 0 + 1) % 2 ^ 32 * get32 resp_buff 4 % 2 ^ 64
      = (get32 resp_buff 0 + 1) * get32 resp_buff 4 := by
    rw [hm, Nat.mod_eq_of_lt hp]
  refine ⟨h1, h4, hm, hp, hpm, ?_, ?_⟩
  · intro hb hq
    unfold report10
    simp only [hb, hq, ne_eq, not_true_eq_false, if_false, if_true, hm, Nat.mod_eq_of_lt hp,
      List.cons_append, List.nil_append]
  · intro hb
    unfold report10
    simp only [hb, ne_eq, not_false_eq_true, if_true, hm]

/-- C28 at the response 0xff, 0xff, 0xff, 0xfe, 0xff, 0xff, 0xff, 0xff: the largest last
block address that is reported and the largest block size. -/
theorem size10_exact_witness :
    report10 Options.init [0xff, 0xff, 0xff, 0xfe, 0xff, 0xff, 0xff, 0xff]
      = [.results, .lastBlock (2 ^ 32 - 2) (2 ^ 32 - 1), .blockSize (2 ^ 32 - 1),
         .deviceSize ((2 ^ 32 - 1) * (2 ^ 32 - 1))] :=
  (size10_exact Options.init [0xff, 0xff, 0xff, 0xfe, 0xff, 0xff, 0xff, 0xff]
    (by decide)).2.2.2.2.2.1 rfl rfl

end SgReadcap

/-! ## Theorems about sg_start -/

namespace SgStart

theorem arg_step_flag (o : Options) (f : Flag) : arg_step o f.arg = flagStep o f := by
  cases f with
  | formatLayer s =>
    show arg_step o ('-' :: '-' :: 'f' :: 'l' :: '=' :: s) = _
    simp [arg_step, dash_loop, flagStep, List.isPrefixOf]
  | immediate s =>
    show arg_step o ('-' :: '-' :: 'i' :: 'm' :: 'm' :: '=' :: s) = _
    simp [arg_step, dash_loop, flagStep, List.isPrefixOf]
  | powerCondition s =>
    show arg_step o ('-' :: '-' :: 'p' :: 'c' :: '=' :: s) = _
    simp [arg_step, dash_loop, flagStep, List.isPrefixOf]
  | _ => rfl

theorem arg_step_device (o : Options) (name : List Char) (h : isDeviceName name = true) :
    arg_step o name = match o.file_name with
      | none => .next { o with file_name := some name }
      | some _ => .stop 1 [.tooManyArgs name, .usage] := by
  simp only [isDeviceName, Bool.and_eq_true, decide_eq_true_eq] at h
  obtain ⟨⟨⟨h1, h2⟩, h3⟩, h4⟩ := h
  cases name with
  | nil => exact absurd rfl h1
  | cons c rest =>
    have hc : c ≠ '-' := by
      intro hc
      subst hc
      simp at h2
    unfold arg_step
    simp only [hc, if_false, h3, h4]

theorem parse_args_flags (o : Options) (fs : List Flag) (rest : List (List Char)) :
    parse_args o (fs.map Flag.arg ++ rest) = match flagsFrom o fs with
      | .stop e m => .stop e m
      | .next o1 => parse_args o1 rest := by
  induction fs generalizing o with
  | nil => rfl
  | cons f fs ih =>
    simp only [List.map_cons, List.cons_append, parse_args, arg_step_flag, flagsFrom]
    cases flagStep o f with
    | stop e m => rfl
    | next o1 => exact ih o1

theorem toInt_nonneg (u : Nat) (h : u < 2 ^ 31) : 0 ≤ toInt u := by
  unfold toInt
  split <;> omega

theorem flagStep_next (o o1 : Options) (f : Flag) (h : flagStep o f = .next o1) :
    o1.file_name = o.file_name ∧
    (o.startstop = 0 → o1.startstop = 0) ∧ (o.startstop = 1 → o1.startstop = 1) ∧
    (f = .eject ∨ f = .stop ∨ f = .zero → o1.startstop = 0) ∧
    (f = .load ∨ f = .start ∨ f = .one → o1.startstop = 1) ∧
    (f = .eject → o1.loej = 1) ∧
    (f.isAction = false → o1.startstop = o.startstop) ∧
    (f.isFormatLayer = false → o1.fl_num = o.fl_num) ∧
    (f.isFormatLayer = true → f.layerBelow = true → 0 ≤ o1.fl_num) := by
  cases f with
  | formatLayer s =>
    simp only [flagStep] at h
    cases hs : sscanf_x s with
    | none => simp [hs] at h
    | some u =>
      simp only [hs, Step.next.injEq] at h
      subst h
      simp only [Flag.isFormatLayer, Flag.layerBelow, hs, decide_eq_true_eq, Flag.isAction]
      refine ⟨trivial, fun h => h, fun h => h, by simp, by simp, by simp, fun _ => trivial,
        by simp, fun _ hu => toInt_nonneg u hu⟩
  | immediate s =>
    simp only [flagStep] at h
    cases hs : sscanf_x s with
    | none => simp [hs] at h
    | some u =>
      simp only [hs] at h
      split at h
      · simp at h
      · simp only [Step.next.injEq] at h
        subst h
        simp [Flag.isFormatLayer, Flag.isAction]
  | powerCondition s =>
    simp only [flagStep] at h
    cases hs : sscanf_x s with
    | none => simp [hs] at h
    | some u =>
      simp only [hs] at h
      split at h
      · simp at h
      · simp only [Step.next.injEq] at h
        subst h
        simp [Flag.isFormatLayer, Flag.isAction]
  | loadEjectBit =>
    simp only [flagStep, Step.next.injEq] at h
    subst h
    simp [Flag.isFormatLayer, Flag.isAction]
  | eject =>
    simp only [flagStep, ambiguous] at h
    split at h
    · simp at h
    · rename_i hne
      simp only [Step.next.injEq] at h
      subst h
      simp [Flag.isFormatLayer, Flag.isAction, hne]
  | stop =>
    simp only [flagStep, ambiguous] at h
    split at h
    · simp at h
    · rename_i hne
      simp only [Step.next.injEq] at h
      subst h
      simp [Flag.isFormatLayer, Flag.isAction, hne]
  | zero =>
    simp only [flagStep, ambiguous] at h
    split at h
    · simp at h
    · rename_i hne
      simp only [Step.next.injEq] at h
      subst h
      simp [Flag.isFormatLayer, Flag.isAction]
      omega
  | load =>
    simp only [flagStep, ambiguous] at h
    split at h
    · simp at h
    · rename_i hne
      simp only [Step.next.injEq] at h
      subst h
      simp [Flag.isFormatLayer, Flag.isAction, hne]
  | start =>
    simp only [flagStep, ambiguous] at h
    split at h
    · simp at h
    · rename_i hne
      simp only [Step.next.injEq] at h
      subst h
      simp [Flag.isFormatLayer, Flag.isAction, hne]
  | one =>
    simp only [flagStep, ambiguous] at h
    split at h
    · simp at h
    · rename_i hne
      simp only [Step.next.injEq] at h
      subst h
      simp [Flag.isFormatLayer, Flag.isAction]
      omega

theorem flagStep_stop (o : Options) (f : Flag) (hwf : f.wf = true) (e : Int) (m : List Msg)
    (h : flagStep o f = .stop e m) : Step.stop e m = ambiguous ∧ f.isAction = true := by
  cases f with
  | formatLayer s =>
    simp only [Flag.wf] at hwf
    simp only [flagStep] at h
    cases hs : sscanf_x s with
    | none => simp [hs] at hwf
    | some u => simp [hs] at h
  | immediate s =>
    simp only [Flag.wf] at hwf
    simp only [flagStep] at h
    cases hs : sscanf_x s with
    | none => simp [hs] at hwf
    | some u =>
      simp only [hs, decide_eq_true_eq] at hwf h
      rw [if_neg (by omega)] at h
      simp at h
  | powerCondition s =>
    simp only [Flag.wf] at hwf
    simp only [flagStep] at h
    cases hs : sscanf_x s with
    | none => simp [hs] at hwf
    | some u =>
      simp only [hs, decide_eq_true_eq] at hwf h
      rw [if_neg (by omega)] at h
      simp at h
  | loadEjectBit => simp [flagStep] at h
  | eject | stop | zero | load | start | one =>
    simp only [flagStep] at h
    split at h
    · exact ⟨h.symm, rfl⟩
    · simp at h

theorem flagsFrom_stop (fs : List Flag) (o : Options) (hwf : ∀ f ∈ fs, f.wf = true)
    (e : Int) (m : List Msg) (h : flagsFrom o fs = .stop e m) : Step.stop e m = ambiguous := by
  induction fs generalizing o with
  | nil => simp [flagsFrom] at h
  | cons f fs ih =>
    simp only [flagsFrom] at h
    cases hf : flagStep o f with
    | stop e1 m1 =>
      rw [hf] at h
      simp only [Step.stop.injEq] at h
      obtain ⟨rfl, rfl⟩ := h
      exact (flagStep_stop o f (hwf f (List.mem_cons_self _ _)) _ _ hf).1
    | next o1 =>
      rw [hf] at h
      exact ih o1 (fun g hg => hwf g (List.mem_cons_of_mem _ hg)) h

theorem flagsFrom_next (fs : List Flag) (o o1 : Options) (h : flagsFrom o fs = .next o1) :
    o1.file_name = o.file_name ∧
    (o.startstop = 0 → o1.startstop = 0) ∧ (o.startstop = 1 → o1.startstop = 1) ∧
    (.eject ∈ fs ∨ .stop ∈ fs ∨ .zero ∈ fs → o1.startstop = 0) ∧
    (.load ∈ fs ∨ .start ∈ fs ∨ .one ∈ fs → o1.startstop = 1) ∧
    ((∀ f ∈ fs, f.isAction = false) → o1.startstop = o.startstop) ∧
    ((∀ f ∈ fs, f.isFormatLayer = false) → o1.fl_num = o.fl_num) ∧
    ((∀ f ∈ fs, f.layerBelow = true) → (0 ≤ o.fl_num ∨ ∃ f ∈ fs, f.isFormatLayer = true) →
      0 ≤ o1.fl_num) := by
  induction fs generalizing o with
  | nil =>
    simp only [flagsFrom, Step.next.injEq] at h
    subst h
    simp
  | cons f fs ih =>
    simp only [flagsFrom] at h
    cases hf : flagStep o f with
    | stop e1 m1 =>
      rw [hf] at h
      simp at h
    | next o2 =>
      rw [hf] at h
      obtain ⟨a1, a2, a3, a4, a5, _, a7, a8, a9⟩ := flagStep_next o o2 f hf
      obtain ⟨b1, b2, b3, b4, b5, b7, b8, b9⟩ := ih o2 h
      refine ⟨b1.trans a1, fun h0 => b2 (a2 h0), fun h0 => b3 (a3 h0), ?_, ?_, ?_, ?_, ?_⟩
      · intro hm
        by_cases hf0 : f = .eject ∨ f = .stop ∨ f = .zero
        · exact b2 (a4 hf0)
        · apply b4
          simp only [List.mem_cons] at hm
          rcases hm with (h1 | h1) | (h1 | h1) | (h1 | h1)
          · exact absurd (Or.inl h1.symm) hf0
          · exact Or.inl h1
          · exact absurd (Or.inr (Or.inl h1.symm)) hf0
          · exact Or.inr (Or.inl h1)
          · exact absurd (Or.inr (Or.inr h1.symm)) hf0
          · exact Or.inr (Or.inr h1)
      · intro hm
        by_cases hf0 : f = .load ∨ f = .start ∨ f = .one
        · exact b3 (a5 hf0)
        · apply b5
          simp only [List.mem_cons] at hm
          rcases hm with (h1 | h1) | (h1 | h1) | (h1 | h1)
          · exact absurd (Or.inl h1.symm) hf0
          · exact Or.inl h1
          · exact absurd (Or.inr (Or.inl h1.symm)) hf0
          · exact Or.inr (Or.inl h1)
          · exact absurd (Or.inr (Or.inr h1.symm)) hf0
          · exact Or.inr (Or.inr h1)
      · intro hm
        rw [b7 (fun g hg => hm g (List.mem_cons_of_mem _ hg)), a7 (hm f (List.mem_cons_self _ _))]
      · intro hm
        rw [b8 (fun g hg => hm g (List.mem_cons_of_mem _ hg)), a8 (hm f (List.mem_cons_self _ _))]
      · intro hb hex
        apply b9 (fun g hg => hb g (List.mem_cons_of_mem _ hg))
        cases hfl : f.isFormatLayer with
        | true => exact Or.inl (a9 hfl (hb f (List.mem_cons_self _ _)))
        | false =>
          rcases hex with h0 | ⟨g, hg, hgl⟩
          · exact Or.inl (by rw [a8 hfl]; exact h0)
          · rcases List.mem_cons.mp hg with rfl | hg
            · rw [hfl] at hgl
              cases hgl
            · exact Or.inr ⟨g, hg, hgl⟩

theorem flagsFrom_plain (fs : List Flag) (o : Options) (hwf : ∀ f ∈ fs, f.wf = true)
    (hna : ∀ f ∈ fs, f.isAction = false) : ∃ o1, flagsFrom o fs = .next o1 := by
  induction fs generalizing o with
  | nil => exact ⟨o, rfl⟩
  | cons f fs ih =>
    simp only [flagsFrom]
    cases hf : flagStep o f with
    | stop e1 m1 =>
      have := (flagStep_stop o f (hwf f (List.mem_cons_self _ _)) _ _ hf).2
      rw [hna f (List.mem_cons_self _ _)] at this
      cases this
    | next o2 =>
      exact ih o2 (fun g hg => hwf g (List.mem_cons_of_mem _ hg))
        (fun g hg => hna g (List.mem_cons_of_mem _ hg))

theorem parse_args_append (o : Options) (x y : List (List Char)) :
    parse_args o (x ++ y) = match parse_args o x with
      | .stop e m => .stop e m
      | .next o1 => parse_args o1 y := by
  induction x generalizing o with
  | nil => rfl
  | cons a x ih =>
    simp only [List.cons_append, parse_args]
    cases arg_step o a with
    | stop e m => rfl
    | next o1 => exact ih o1

/-- The loop over the arguments for flags, a device name and more flags: the flags
before, the name, and the flags after. -/
theorem parse_args_line (pre post : List Flag) (dev : List Char)
    (hdev : isDeviceName dev = true) :
    parse_args Options.init (pre.map Flag.arg ++ dev :: post.map Flag.arg)
      = match flagsFrom Options.init pre with
        | .stop e m => .stop e m
        | .next o1 => flagsFrom { o1 with file_name := some dev } post := by
  rw [parse_args_flags]
  cases h : flagsFrom Options.init pre with
  | stop e m => rfl
  | next o1 =>
    have hfn : o1.file_name = none := (flagsFrom_next pre _ o1 h).1
    simp only [parse_args, arg_step_device _ _ hdev, hfn]
    have := parse_args_flags { o1 with file_name := some dev } post []
    simp only [List.append_nil] at this
    rw [this]
    cases flagsFrom { o1 with file_name := some dev } post <;> rfl

theorem line_next (pre post : List Flag) (dev : List Char) (o : Options)
    (hdev : isDeviceName dev = true)
    (hp : parse_args Options.init (pre.map Flag.arg ++ dev :: post.map Flag.arg) = .next o) :
    o.file_name = some dev ∧
    (.eject ∈ pre ++ post ∨ .stop ∈ pre ++ post ∨ .zero ∈ pre ++ post → o.startstop = 0) ∧
    ((∀ f ∈ pre ++ post, f.isAction = false) → o.startstop = -1) ∧
    ((∀ f ∈ pre ++ post, f.isFormatLayer = false) → o.fl_num = -1) ∧
    ((∀ f ∈ pre ++ post, f.layerBelow = true) → (∃ f ∈ pre ++ post, f.isFormatLayer = true) →
      0 ≤ o.fl_num) := by
  rw [parse_args_line pre post dev hdev] at hp
  cases hpre : flagsFrom Options.init pre with
  | stop e m => simp [hpre] at hp
  | next o1 =>
    simp only [hpre] at hp
    obtain ⟨_, _, _, a4, _, a6, a7, a8⟩ := flagsFrom_next pre _ o1 hpre
    obtain ⟨b1, b2, _, b4, _, b6, b7, b8⟩ := flagsFrom_next post _ o hp
    refine ⟨b1, ?_, ?_, ?_, ?_⟩
    · intro h0
      simp only [List.mem_append] at h0
      by_cases hq : .eject ∈ pre ∨ .stop ∈ pre ∨ .zero ∈ pre
      · exact b2 (a4 hq)
      · apply b4
        rcases h0 with (h | h) | (h | h) | (h | h)
        · exact absurd (Or.inl h) hq
        · exact Or.inl h
        · exact absurd (Or.inr (Or.inl h)) hq
        · exact Or.inr (Or.inl h)
        · exact absurd (Or.inr (Or.inr h)) hq
        · exact Or.inr (Or.inr h)
    · intro hna
      rw [b6 (fun f hf => hna f (List.mem_append_right _ hf))]
      exact a6 (fun f hf => hna f (List.mem_append_left _ hf))
    · intro hnf
      rw [b7 (fun f hf => hnf f (List.mem_append_right _ hf))]
      exact a7 (fun f hf => hnf f (List.mem_append_left _ hf))
    · intro hb hex
      apply b8 (fun f hf => hb f (List.mem_append_right _ hf))
      obtain ⟨f, hf, hfl⟩ := hex
      rcases List.mem_append.mp hf with hf | hf
      · exact Or.inl (a8 (fun g hg => hb g (List.mem_append_left _ hg)) (Or.inr ⟨f, hf, hfl⟩))
      · exact Or.inr ⟨f, hf, hfl⟩

theorem flagStep_layer_comm (o : Options) (s : List Char) (u : Nat) (g : Flag)
    (hs : sscanf_x s = some u) (hg : g.isFormatLayer = false) :
    (match flagStep o (.formatLayer s) with
      | .stop e m => Step.stop e m
      | .next o1 => flagStep o1 g)
    = (match flagStep o g with
      | .stop e m => Step.stop e m
      | .next o1 => flagStep o1 (.formatLayer s)) := by
  cases g with
  | formatLayer s2 => simp [Flag.isFormatLayer] at hg
  | immediate s2 =>
    simp only [flagStep, hs]
    cases sscanf_x s2 with
    | none => rfl
    | some v =>
      simp only
      split <;> simp [hs]
  | powerCondition s2 =>
    simp only [flagStep, hs]
    cases sscanf_x s2 with
    | none => rfl
    | some v =>
      simp only
      split <;> simp [hs]
  | loadEjectBit => simp [flagStep, hs]
  | eject | stop | zero | load | start | one =>
    simp only [flagStep, hs]
    split <;> simp [hs, ambiguous]

theorem device_layer_comm (o : Options) (s : List Char) (u : Nat) (d : List Char)
    (hs : sscanf_x s = some u) (hd : isDeviceName d = true) :
    (match arg_step o (Flag.formatLayer s).arg with
      | .stop e m => Step.stop e m
      | .next o1 => arg_step o1 d)
    = (match arg_step o d with
      | .stop e m => Step.stop e m
      | .next o1 => arg_step o1 (Flag.formatLayer s).arg) := by
  simp only [arg_step_flag, arg_step_device _ _ hd, flagStep, hs]
  cases o.file_name <;> simp [hs]

theorem parse_args_swap (o : Options) (a b : List Char) (rest : List (List Char))
    (h : ∀ o : Options, (match arg_step o a with
        | .stop e m => Step.stop e m
        | .next o1 => arg_step o1 b)
      = (match arg_step o b with
        | .stop e m => Step.stop e m
        | .next o1 => arg_step o1 a)) (x : List (List Char)) :
    parse_args o (x ++ a :: b :: rest) = parse_args o (x ++ b :: a :: rest) := by
  rw [parse_args_append, parse_args_append]
  cases parse_args o x with
  | stop e m => rfl
  | next o1 =>
    simp only [parse_args]
    have := h o1
    cases ha : arg_step o1 a with
    | stop e m =>
      rw [ha] at this
      cases hb : arg_step o1 b with
      | stop e2 m2 =>
        rw [hb] at this
        simp only at this ⊢
        exact this
      | next o2 =>
        rw [hb] at this
        simp only at this ⊢
        rw [← this]
    | next o2 =>
      rw [ha] at this
      cases hb : arg_step o1 b with
      | stop e2 m2 =>
        rw [hb] at this
        simp only at this ⊢
        rw [this]
      | next o3 =>
        rw [hb] at this
        simp only at this ⊢
        rw [this]

theorem main_congr (argv1 argv2 : List (List Char)) (t : Transport)
    (h : parse_args Options.init argv1 = parse_args Options.init argv2) :
    main argv1 t = main argv2 t := by
  simp only [main, resolved, h]

theorem flagStep_pc_nonneg (o o1 : Options) (f : Flag) (h : flagStep o f = .next o1)
    (h0 : 0 ≤ o.power_conds) : 0 ≤ o1.power_conds := by
  cases f <;> simp only [flagStep, ambiguous] at h
  case formatLayer s =>
    split at h
    · simp at h
    · simp only [Step.next.injEq] at h; subst h; exact h0
  case immediate s =>
    split at h
    · simp at h
    · split at h
      · simp at h
      · simp only [Step.next.injEq] at h; subst h; exact h0
  case powerCondition s =>
    split at h
    · simp at h
    · split at h
      · simp at h
      · simp only [Step.next.injEq] at h; subst h; exact Int.ofNat_nonneg _
  case loadEjectBit => simp only [Step.next.injEq] at h; subst h; exact h0
  all_goals
    split at h
    · simp at h
    · simp only [Step.next.injEq] at h; subst h; exact h0

theorem flagsFrom_pc_nonneg (fs : List Flag) (o o1 : Options) (h : flagsFrom o fs = .next o1)
    (h0 : 0 ≤ o.power_conds) : 0 ≤ o1.power_conds := by
  induction fs generalizing o with
  | nil =>
    simp only [flagsFrom, Step.next.injEq] at h
    subst h
    exact h0
  | cons f fs ih =>
    simp only [flagsFrom] at h
    cases hf : flagStep o f with
    | stop e m => simp [hf] at h
    | next o2 =>
      simp only [hf] at h
      exact ih o2 h (flagStep_pc_nonneg o o2 f hf h0)

theorem line_pc_nonneg (pre post : List Flag) (dev : List Char) (o : Options)
    (hdev : isDeviceName dev = true)
    (hp : parse_args Options.init (pre.map Flag.arg ++ dev :: post.map Flag.arg) = .next o) :
    0 ≤ o.power_conds := by
  rw [parse_args_line pre post dev hdev] at hp
  cases hpre : flagsFrom Options.init pre with
  | stop e m => simp [hpre] at hp
  | next o1 =>
    simp only [hpre] at hp
    exact flagsFrom_pc_nonneg post _ o hp
      (flagsFrom_pc_nonneg pre _ o1 hpre (by decide))

theorem main_of_stop (argv : List (List Char)) (t : Transport) (e : Int) (m : List Msg)
    (h : parse_args Options.init argv = .stop e m) :
    main argv t = { exit := e, events := [], out := m } := by
  simp [main, resolved, h]

theorem line_ambiguous (pre post : List Flag) (dev : List Char)
    (hwf : ∀ f ∈ pre ++ post, f.wf = true) (hdev : isDeviceName dev = true)
    (h0 : .eject ∈ pre ++ post ∨ .stop ∈ pre ++ post ∨ .zero ∈ pre ++ post)
    (h1 : .load ∈ pre ++ post ∨ .start ∈ pre ++ post ∨ .one ∈ pre ++ post) :
    parse_args Options.init (pre.map Flag.arg ++ dev :: post.map Flag.arg) = ambiguous := by
  rw [parse_args_line pre post dev hdev]
  cases hpre : flagsFrom Options.init pre with
  | stop e m =>
    exact flagsFrom_stop pre _ (fun f hf => hwf f (List.mem_append_left _ hf)) e m hpre
  | next o1 =>
    simp only
    cases hpost : flagsFrom { o1 with file_name := some dev } post with
    | stop e m =>
      exact flagsFrom_stop post _ (fun f hf => hwf f (List.mem_append_right _ hf)) e m hpost
    | next o2 =>
      exfalso
      obtain ⟨_, _, _, a4, a5, _⟩ := flagsFrom_next pre _ o1 hpre
      obtain ⟨_, b2, b3, b4, b5, _⟩ := flagsFrom_next post _ o2 hpost
      have z : o2.startstop = 0 := by
        simp only [List.mem_append] at h0
        by_cases hp : .eject ∈ pre ∨ .stop ∈ pre ∨ .zero ∈ pre
        · exact b2 (a4 hp)
        · apply b4
          rcases h0 with (h | h) | (h | h) | (h | h)
          · exact absurd (Or.inl h) hp
          · exact Or.inl h
          · exact absurd (Or.inr (Or.inl h)) hp
          · exact Or.inr (Or.inl h)
          · exact absurd (Or.inr (Or.inr h)) hp
          · exact Or.inr (Or.inr h)
      have u : o2.startstop = 1 := by
        simp only [List.mem_append] at h1
        by_cases hp : .load ∈ pre ∨ .start ∈ pre ∨ .one ∈ pre
        · exact b3 (a5 hp)
        · apply b5
          rcases h1 with (h | h) | (h | h) | (h | h)
          · exact absurd (Or.inl h) hp
          · exact Or.inl h
          · exact absurd (Or.inr (Or.inl h)) hp
          · exact Or.inr (Or.inl h)
          · exact absurd (Or.inr (Or.inr h)) hp
          · exact Or.inr (Or.inr h)
      omega

/-- C17: the argument --eject sets loej and, when the action is not Start, sets the action
to Stop, and it is refused as ambiguous when the action is Start; --load does the same
with Start and Stop exchanged. Hence the flag Eject alone, with a device name,
resolves to the action Stop with loej set, and every sequence of well-formed flags
that holds both Eject and Start, with a device name anywhere among them, is refused as
ambiguous, with exit status 1 and no call of the transport, in whichever order the
two come. -/
theorem eject_load_rule (pre post : List Flag) (dev : List Char) (t : Transport)
    (hwf : ∀ f ∈ pre ++ post, f.wf = true) (hdev : isDeviceName dev = true) :
    (∀ o : Options, arg_step o "--eject".toList
      = if o.startstop = 1 then .stop 1 [.ambiguous, .usage]
        else .next { o with loej := 1, startstop := 0 }) ∧
    (∀ o : Options, arg_step o "--load".toList
      = if o.startstop = 0 then .stop 1 [.ambiguous, .usage]
        else .next { o with loej := 1, startstop := 1 }) ∧
    resolved ["--eject".toList, dev]
      = .ok { startstop := 0, file_name := some dev, immed := 0, loej := 1, fl_num := -1,
              power_conds := 0, verbose := 0 } ∧
    (Flag.eject ∈ pre ++ post → Flag.start ∈ pre ++ post →
      parse_args Options.init (pre.map Flag.arg ++ dev :: post.map Flag.arg)
        = .stop 1 [.ambiguous, .usage] ∧
      main (pre.map Flag.arg ++ dev :: post.map Flag.arg) t
        = { exit := 1, events := [], out := [.ambiguous, .usage] }) := by
  refine ⟨fun o => rfl, fun o => rfl, ?_, ?_⟩
  · have h := parse_args_line [.eject] [] dev hdev
    simp only [List.map_cons, List.map_nil, List.cons_append, List.nil_append] at h
    have hr : resolved ["--eject".toList, dev] = match parse_args Options.init
        [Flag.eject.arg, dev] with
      | .stop e m => .error (e, m)
      | .next o => match resolve o with
        | .error m => .error (1, m)
        | .ok o1 => .ok o1 := rfl
    rw [hr, h]
    rfl
  · intro he hs
    have h := line_ambiguous pre post dev hwf hdev (Or.inl he) (Or.inr (Or.inl hs))
    exact ⟨h, main_of_stop _ t _ _ h⟩

/-- C17 at the arguments --eject --start and --start --eject with a device name. -/
theorem eject_load_rule_witness :
    main ["--eject".toList, "--start".toList, "/dev/sg0".toList]
        { invalid_op := 9, illegal_req := 5, open1 := 3, start_stop := 0 }
      = { exit := 1, events := [], out := [.ambiguous, .usage] } ∧
    main ["--start".toList, "/dev/sg0".toList, "--eject".toList]
        { invalid_op := 9, illegal_req := 5, open1 := 3, start_stop := 0 }
      = { exit := 1, events := [], out := [.ambiguous, .usage] } :=
  ⟨((eject_load_rule [.eject, .start] [] "/dev/sg0".toList
      { invalid_op := 9, illegal_req := 5, open1 := 3, start_stop := 0 }
      (by decide) (by decide)).2.2.2 (by decide) (by decide)).2,
   ((eject_load_rule [.start] [.eject] "/dev/sg0".toList
      { invalid_op := 9, illegal_req := 5, open1 := 3, start_stop := 0 }
      (by decide) (by decide)).2.2.2 (by decide) (by decide)).2⟩

/-- C18, at the failing input --stop 0: with --stop given twice the unit is stopped, but
when the second --stop is written 0 the arguments are refused as ambiguous; the same
holds for --start and 1. -/
theorem zero_one_not_stop_start :
    main ["--stop".toList, "--stop".toList, "/dev/sg0".toList]
        { invalid_op := 9, illegal_req := 5, open1 := 3, start_stop := 0 }
      = { exit := 0,
          events := [.openDevice "/dev/sg0".toList 0 0 3, .startStopUnit 3 0 0 0 0 0 0,
            .closeDevice 3],
          out := [] } ∧
    main ["--stop".toList, "0".toList, "/dev/sg0".toList]
        { invalid_op := 9, illegal_req := 5, open1 := 3, start_stop := 0 }
      = { exit := 1, events := [], out := [.ambiguous, .usage] } ∧
    main ["--start".toList, "--start".toList, "/dev/sg0".toList]
        { invalid_op := 9, illegal_req := 5, open1 := 3, start_stop := 0 }
      = { exit := 0,
          events := [.openDevice "/dev/sg0".toList 0 0 3, .startStopUnit 3 0 0 0 0 0 1,
            .closeDevice 3],
          out := [] } ∧
    main ["--start".toList, "1".toList, "/dev/sg0".toList]
        { invalid_op := 9, illegal_req := 5, open1 := 3, start_stop := 0 }
      = { exit := 1, events := [], out := [.ambiguous, .usage] } := by
  decide

theorem main_of_next (argv : List (List Char)) (t : Transport) (o : Options)
    (h : parse_args Options.init argv = .next o) :
    main argv t = match resolve o with
      | .error m => { exit := 1, events := [], out := m }
      | .ok o1 => run t o1 := by
  simp only [main, resolved, h]
  cases resolve o <;> rfl

/-! ### The format layer in effect is the last one given -/

theorem lastLayer_append (a b : List Flag) :
    lastLayer (a ++ b) = match lastLayer b with
      | some s => some s
      | none => lastLayer a := by
  induction a with
  | nil =>
    simp only [List.nil_append, lastLayer]
    cases lastLayer b <;> rfl
  | cons f a ih =>
    have hc : ∀ l : List Flag, lastLayer (f :: l) = match lastLayer l with
        | some s => some s
        | none => match f with
          | .formatLayer s => some s
          | _ => none := by
      intro l
      cases f <;> rfl
    show lastLayer (f :: (a ++ b)) = _
    rw [hc, hc, ih]
    cases lastLayer b with
    | some s => rfl
    | none => rfl

/-- After the loop over a list of flags, fl_num is the number of the last format layer
flag, as an int, or what it was before when there is no such flag. -/
theorem flagsFrom_layer (fs : List Flag) (o o1 : Options) (h : flagsFrom o fs = .next o1) :
    match lastLayer fs with
    | none => o1.fl_num = o.fl_num
    | some s => ∃ u, sscanf_x s = some u ∧ o1.fl_num = toInt u := by
  induction fs generalizing o with
  | nil =>
    simp only [flagsFrom, Step.next.injEq] at h
    subst h
    rfl
  | cons f fs ih =>
    simp only [flagsFrom] at h
    cases hstep : flagStep o f with
    | stop e m => simp [hstep] at h
    | next o2 =>
      simp only [hstep] at h
      have h2 := ih o2 h
      simp only [lastLayer]
      cases hl : lastLayer fs with
      | some s =>
        simp only [hl] at h2 ⊢
        exact h2
      | none =>
        simp only [hl] at h2 ⊢
        cases f with
        | formatLayer s =>
          simp only [flagStep] at hstep
          cases hs : sscanf_x s with
          | none => simp [hs] at hstep
          | some u =>
            simp only [hs, Step.next.injEq] at hstep
            subst hstep
            exact ⟨u, hs, h2⟩
        | _ =>
          simp only
          rw [h2]
          exact (flagStep_next o o2 _ hstep).2.2.2.2.2.2.2.1 rfl

/-- After the loop over flags and a device name, fl_num is the number of the last format
layer flag, as an int, or -1 when there is no such flag. -/
theorem line_layer (pre post : List Flag) (dev : List Char) (o : Options)
    (hdev : isDeviceName dev = true)
    (hp : parse_args Options.init (pre.map Flag.arg ++ dev :: post.map Flag.arg) = .next o) :
    match lastLayer (pre ++ post) with
    | none => o.fl_num = -1
    | some s => ∃ u, sscanf_x s = some u ∧ o.fl_num = toInt u := by
  rw [parse_args_line pre post dev hdev] at hp
  cases hpre : flagsFrom Options.init pre with
  | stop e m => simp [hpre] at hp
  | next o1 =>
    simp only [hpre] at hp
    have h1 := flagsFrom_layer pre _ o1 hpre
    have h2 := flagsFrom_layer post _ o hp
    rw [lastLayer_append]
    cases hl : lastLayer post with
    | some s =>
      simp only [hl] at h2 ⊢
      exact h2
    | none =>
      simp only [hl] at h2 ⊢
      cases hl1 : lastLayer pre with
      | some s =>
        simp only [hl1] at h1 ⊢
        obtain ⟨u, hu, hfl⟩ := h1
        exact ⟨u, hu, by rw [h2]; exact hfl⟩
      | none =>
        simp only [hl1] at h1 ⊢
        rw [h2]
        exact h1

theorem toInt_small (u : Nat) (h : u < 2 ^ 31) : toInt u = (u : Int) := by
  unfold toInt
  rw [Nat.mod_eq_of_lt (by omega), if_pos h]

/-- C19, as stated, fails: the arguments --fl=2 --fl=80000000 --stop hold the format
layer 2 and --stop, yet they are accepted and the unit is stopped, because the later
--fl replaces the earlier one and its number, 2^31, is stored as a negative int. -/
theorem later_layer_replaces :
    (∀ f ∈ [Flag.formatLayer "2".toList, Flag.formatLayer "80000000".toList, Flag.stop],
      f.wf = true) ∧
    sscanf_x "2".toList = some 2 ∧ sscanf_x "80000000".toList = some (2 ^ 31) ∧
    main ["--fl=2".toList, "--fl=80000000".toList, "--stop".toList, "/dev/sg0".toList]
        { invalid_op := 9, illegal_req := 5, open1 := 3, start_stop := 0 }
      = { exit := 0,
          events := [.openDevice "/dev/sg0".toList 0 0 3, .startStopUnit 3 0 0 0 0 0 0,
                     .closeDevice 3],
          out := [] } := by
  decide

/-- C19, amended: for every sequence of flags, with a device name anywhere among them,
whose last format layer flag has a number n below 2^31 (a later --fl replaces an
earlier one), if the loop over the arguments ends without error, then fl_num is n,
the action collected is Stop as soon as --stop, 0 or --eject is among the flags, and
main ends with exit status 1 and no call of the transport, on the line about --stop
when the action is Stop and else on the line about --pc when the power condition is
not zero. The check comes after the loop: moving a well-formed format layer flag
across a neighbouring argument that is a flag of another kind or the device name does
not change what main does. -/
theorem format_layer_incompatible (pre post : List Flag) (dev s : List Char) (u : Nat)
    (t : Transport) (o : Options) (hdev : isDeviceName dev = true)
    (hlast : lastLayer (pre ++ post) = some s) (hs : sscanf_x s = some u) (hu : u < 2 ^ 31)
    (hp : parse_args Options.init (pre.map Flag.arg ++ dev :: post.map Flag.arg) = .next o) :
    o.fl_num = (u : Int) ∧
    (.stop ∈ pre ++ post ∨ .zero ∈ pre ++ post ∨ .eject ∈ pre ++ post → o.startstop = 0) ∧
    (o.startstop = 0 →
      main (pre.map Flag.arg ++ dev :: post.map Flag.arg) t
        = { exit := 1, events := [], out := [.flWithStop, .usage] }) ∧
    (o.startstop ≠ 0 → o.power_conds ≠ 0 →
      main (pre.map Flag.arg ++ dev :: post.map Flag.arg) t
        = { exit := 1, events := [], out := [.flWithPc, .usage] }) ∧
    (∀ (x rest : List (List Char)) (s : List Char) (g : Flag),
      (Flag.formatLayer s).wf = true → g.isFormatLayer = false →
      main (x ++ (Flag.formatLayer s).arg :: g.arg :: rest) t
        = main (x ++ g.arg :: (Flag.formatLayer s).arg :: rest) t) ∧
    (∀ (x rest : List (List Char)) (s d : List Char),
      (Flag.formatLayer s).wf = true → isDeviceName d = true →
      main (x ++ (Flag.formatLayer s).arg :: d :: rest) t
        = main (x ++ d :: (Flag.formatLayer s).arg :: rest) t) := by
  obtain ⟨hname, hstop, _, _, _⟩ := line_next pre post dev o hdev hp
  have hfl : o.fl_num = (u : Int) := by
    have h := line_layer pre post dev o hdev hp
    simp only [hlast] at h
    obtain ⟨u1, hu1, h1⟩ := h
    rw [hs] at hu1
    simp only [Option.some.injEq] at hu1
    subst hu1
    rw [h1, toInt_small u hu]
  have hnn : 0 ≤ o.fl_num := by
    rw [hfl]
    exact Int.ofNat_nonneg _
  refine ⟨hfl, ?_, ?_, ?_, ?_, ?_⟩
  · rintro (h | h | h)
    · exact hstop (Or.inr (Or.inl h))
    · exact hstop (Or.inr (Or.inr h))
    · exact hstop (Or.inl h)
  · intro hs
    rw [main_of_next _ t o hp]
    simp [resolve, hname, hnn, hs]
  · intro hs hpc
    have hpos : 0 < o.power_conds :=
      lt_of_le_of_ne (line_pc_nonneg pre post dev o hdev hp) (Ne.symm hpc)
    rw [main_of_next _ t o hp]
    simp [resolve, hname, hnn, hs, hpos]
  · intro x rest s g hw hg
    simp only [Flag.wf, Option.isSome_iff_exists] at hw
    obtain ⟨u, hu⟩ := hw
    apply main_congr
    apply parse_args_swap
    intro o1
    simp only [arg_step_flag]
    exact flagStep_layer_comm o1 s u g hu hg
  · intro x rest s d hw hd
    simp only [Flag.wf, Option.isSome_iff_exists] at hw
    obtain ⟨u, hu⟩ := hw
    apply main_congr
    apply parse_args_swap
    intro o1
    exact device_layer_comm o1 s u d hu hd

/-- C19, amended, at the arguments --fl=2 --stop and --fl=80000000 --fl=2 --stop with a
device name: both are refused. -/
theorem format_layer_incompatible_witness :
    main ["--fl=2".toList, "--stop".toList, "/dev/sg0".toList]
        { invalid_op := 9, illegal_req := 5, open1 := 3, start_stop := 0 }
      = { exit := 1, events := [], out := [.flWithStop, .usage] } ∧
    main ["--fl=80000000".toList, "--fl=2".toList, "/dev/sg0".toList, "--stop".toList]
        { invalid_op := 9, illegal_req := 5, open1 := 3, start_stop := 0 }
      = { exit := 1, events := [], out := [.flWithStop, .usage] } :=
  ⟨(format_layer_incompatible [.formatLayer "2".toList, .stop] [] "/dev/sg0".toList
      "2".toList 2 { invalid_op := 9, illegal_req := 5, open1 := 3, start_stop := 0 }
      ⟨0, some "/dev/sg0".toList, 0, 0, 2, 0, 0⟩
      (by decide) (by decide) (by decide) (by decide) (by decide)).2.2.1 rfl,
   (format_layer_incompatible [.formatLayer "80000000".toList, .formatLayer "2".toList]
      [.stop] "/dev/sg0".toList
      "2".toList 2 { invalid_op := 9, illegal_req := 5, open1 := 3, start_stop := 0 }
      ⟨0, some "/dev/sg0".toList, 0, 0, 2, 0, 0⟩
      (by decide) (by decide) (by decide) (by decide) (by decide)).2.2.1 rfl⟩

/-- C20, as stated, fails: the flags --fl=2 and --loej set no action and are accepted, yet
the action is left unset, not set to Stop, and the command is issued with start = 1. -/
theorem default_skipped_with_layer :
    resolved ["--fl=2".toList, "--loej".toList, "/dev/sg0".toList]
      = .ok { startstop := -1, file_name := some "/dev/sg0".toList, immed := 0, loej := 1,
              fl_num := 2, power_conds := 0, verbose := 0 } ∧
    (main ["--fl=2".toList, "--loej".toList, "/dev/sg0".toList]
        { invalid_op := 9, illegal_req := 5, open1 := 3, start_stop := 0 }).events
      = [.openDevice "/dev/sg0".toList 0 0 3, .startStopUnit 3 0 2 0 1 1 1, .closeDevice 3] := by
  decide

/-- C20, amended: for every sequence of well-formed flags that sets no action, with a
device name anywhere among them, the loop over the arguments ends without error and
with the action unset. When no format layer is in effect (fl_num is negative, as it
is when there is no format layer flag), the arguments are accepted and the action
becomes Stop if loej is set, otherwise Start if the power condition is zero, otherwise
it stays unset; when a format layer is in effect and the arguments are accepted, the
action stays unset. The empty sequence gives the action Start with power condition 0
and loej not set. -/
theorem default_action (pre post : List Flag) (dev : List Char)
    (hwf : ∀ f ∈ pre ++ post, f.wf = true) (hdev : isDeviceName dev = true)
    (hna : ∀ f ∈ pre ++ post, f.isAction = false) :
    (∃ o, parse_args Options.init (pre.map Flag.arg ++ dev :: post.map Flag.arg) = .next o ∧
      o.startstop = -1 ∧
      ((∀ f ∈ pre ++ post, f.isFormatLayer = false) → o.fl_num = -1) ∧
      (o.fl_num < 0 →
        resolved (pre.map Flag.arg ++ dev :: post.map Flag.arg)
          = .ok { o with startstop :=
                    if o.loej ≠ 0 then 0 else if o.power_conds = 0 then 1 else -1 }) ∧
      (0 ≤ o.fl_num → ∀ o1,
        resolved (pre.map Flag.arg ++ dev :: post.map Flag.arg) = .ok o1 →
        o1.startstop = -1)) ∧
    resolved [dev]
      = .ok { startstop := 1, file_name := some dev, immed := 0, loej := 0, fl_num := -1,
              power_conds := 0, verbose := 0 } := by
  constructor
  · have hex : ∃ o, parse_args Options.init (pre.map Flag.arg ++ dev :: post.map Flag.arg)
        = .next o := by
      rw [parse_args_line pre post dev hdev]
      obtain ⟨o1, h1⟩ := flagsFrom_plain pre Options.init
        (fun f hf => hwf f (List.mem_append_left _ hf))
        (fun f hf => hna f (List.mem_append_left _ hf))
      rw [h1]
      exact flagsFrom_plain post _ (fun f hf => hwf f (List.mem_append_right _ hf))
        (fun f hf => hna f (List.mem_append_right _ hf))
    obtain ⟨o, hp⟩ := hex
    obtain ⟨hname, _, hss, hnf, _⟩ := line_next pre post dev o hdev hp
    have hs := hss hna
    refine ⟨o, hp, hs, hnf, ?_, ?_⟩
    · intro hneg
      simp only [resolved, hp, resolve, hname, not_le.mpr hneg, if_false, hs]
      by_cases hl : o.loej = 0
      · by_cases hpc : o.power_conds = 0
        · simp [hl, hpc]
        · simp [hl, hpc]
      · simp [hl]
    · intro hpos o1 hr
      simp only [resolved, hp, resolve, hname, hpos, if_true, hs] at hr
      split at hr
      · simp at hr
      · rename_i o2 hres
        simp only [Except.ok.injEq] at hr
        subst hr
        split at hres
        · simp at hres
        · split at hres
          · simp at hres
          · simp only [Except.ok.injEq] at hres
            rw [← hres]
            exact hs
  · have h := parse_args_line [] [] dev hdev
    simp only [List.map_nil, List.nil_append] at h
    simp only [resolved, h, flagsFrom]
    rfl

/-- C20, amended, at the arguments --loej and --pc=3 with a device name: the action
becomes Stop. -/
theorem default_action_witness :
    resolved ["--loej".toList, "/dev/sg0".toList, "--pc=3".toList]
      = .ok { startstop := 0, file_name := some "/dev/sg0".toList, immed := 0, loej := 1,
              fl_num := -1, power_conds := 3, verbose := 0 } := by
  obtain ⟨o, hp, _, _, hr, _⟩ := (default_action [.loadEjectBit]
    [.powerCondition "3".toList] "/dev/sg0".toList (by decide) (by decide) (by decide)).1
  have ho : o = ⟨-1, some "/dev/sg0".toList, 0, 1, -1, 3, 0⟩ := by
    have hd : parse_args Options.init
        ([Flag.loadEjectBit].map Flag.arg ++ "/dev/sg0".toList
          :: [Flag.powerCondition "3".toList].map Flag.arg)
        = .next ⟨-1, some "/dev/sg0".toList, 0, 1, -1, 3, 0⟩ := by decide
    rw [hd] at hp
    exact (Step.next.inj hp).symm
  subst ho
  exact hr (by decide)

/-! ### A format layer number of 2^31 or more -/

theorem sscanf_x_lt (s : List Char) (u : Nat) (h : sscanf_x s = some u) : u < 2 ^ 32 := by
  unfold sscanf_x at h
  simp only at h
  split at h
  · simp at h
  · split at h
    · simp only [Option.some.injEq] at h
      subst h
      decide
    · split at h
      · simp only [Option.some.injEq] at h
        subst h
        exact Nat.mod_lt _ (by decide)
      · simp only [Option.some.injEq] at h
        subst h
        exact Nat.mod_lt _ (by decide)

theorem toInt_neg (u : Nat) (h1 : 2 ^ 31 ≤ u) (h2 : u < 2 ^ 32) : toInt u < 0 := by
  unfold toInt
  rw [Nat.mod_eq_of_lt h2]
  split <;> omega

/-- The body of the loop for a flag that is not a format layer flag does not look at
fl_num and leaves it as it is. -/
theorem flagStep_fl_num (o : Options) (n : Int) (f : Flag) (hf : f.isFormatLayer = false) :
    flagStep { o with fl_num := n } f
      = match flagStep o f with
        | .stop e m => .stop e m
        | .next o1 => .next { o1 with fl_num := n } := by
  cases f with
  | formatLayer s => simp [Flag.isFormatLayer] at hf
  | immediate s =>
    simp only [flagStep]
    cases sscanf_x s with
    | none => rfl
    | some u =>
      simp only
      split <;> rfl
  | powerCondition s =>
    simp only [flagStep]
    cases sscanf_x s with
    | none => rfl
    | some u =>
      simp only
      split <;> rfl
  | loadEjectBit => rfl
  | _ =>
    simp only [flagStep]
    split <;> rfl

theorem flagsFrom_fl_num (fs : List Flag) (o : Options) (n : Int)
    (hf : ∀ f ∈ fs, f.isFormatLayer = false) :
    flagsFrom { o with fl_num := n } fs
      = match flagsFrom o fs with
        | .stop e m => .stop e m
        | .next o1 => .next { o1 with fl_num := n } := by
  induction fs generalizing o with
  | nil => rfl
  | cons f fs ih =>
    simp only [flagsFrom]
    rw [flagStep_fl_num o n f (hf f (List.mem_cons_self _ _))]
    cases flagStep o f with
    | stop e m => rfl
    | next o1 => exact ih o1 (fun g hg => hf g (List.mem_cons_of_mem _ hg))

theorem dropLayer_plain (fs : List Flag) : ∀ f ∈ dropLayer fs, f.isFormatLayer = false := by
  intro f hf
  simp only [dropLayer, List.mem_filter, Bool.not_eq_true'] at hf
  exact hf.2

/-- The loop over flags whose format layer numbers are all 2^31 or more, started with a
negative fl_num: it ends as the loop over the flags without the format layer flags
does, but for the value of fl_num, which stays negative. -/
theorem flagsFrom_dropLayer (fs : List Flag) (o : Options)
    (hh : ∀ f ∈ fs, f.layerHigh = true) (hneg : o.fl_num < 0) :
    match flagsFrom o fs with
    | .stop e m => flagsFrom o (dropLayer fs) = .stop e m
    | .next o1 =>
      o1.fl_num < 0 ∧ flagsFrom o (dropLayer fs) = .next { o1 with fl_num := o.fl_num } := by
  induction fs generalizing o with
  | nil => exact ⟨hneg, rfl⟩
  | cons f fs ih =>
    have hrest : ∀ g ∈ fs, g.layerHigh = true := fun g hg => hh g (List.mem_cons_of_mem _ hg)
    by_cases hf : f.isFormatLayer = true
    · cases f with
      | formatLayer s =>
        have hhigh := hh (.formatLayer s) (List.mem_cons_self _ _)
        simp only [Flag.layerHigh] at hhigh
        cases hs : sscanf_x s with
        | none => simp [hs] at hhigh
        | some u =>
          simp only [hs, decide_eq_true_eq] at hhigh
          have hlt := sscanf_x_lt s u hs
          have hn := toInt_neg u hhigh hlt
          have hd : dropLayer (Flag.formatLayer s :: fs) = dropLayer fs := by
            simp [dropLayer, Flag.isFormatLayer]
          rw [hd]
          simp only [flagsFrom, flagStep, hs]
          have h1 := ih { o with fl_num := toInt u } hrest hn
          have h2 := flagsFrom_fl_num (dropLayer fs) o (toInt u) (dropLayer_plain fs)
          cases hr : flagsFrom { o with fl_num := toInt u } fs with
          | stop e m =>
            simp only [hr] at h1 ⊢
            rw [h2] at h1
            cases hq : flagsFrom o (dropLayer fs) with
            | stop e1 m1 =>
              simp only [hq] at h1
              exact h1
            | next o2 => simp [hq] at h1
          | next o1 =>
            simp only [hr] at h1 ⊢
            obtain ⟨h3, h4⟩ := h1
            rw [h2] at h4
            refine ⟨h3, ?_⟩
            cases hq : flagsFrom o (dropLayer fs) with
            | stop e1 m1 => simp [hq] at h4
            | next o2 =>
              simp only [hq, Step.next.injEq] at h4
              have h5 : o2.startstop = o1.startstop ∧ o2.file_name = o1.file_name ∧
                  o2.immed = o1.immed ∧ o2.loej = o1.loej ∧
                  o2.power_conds = o1.power_conds ∧ o2.verbose = o1.verbose := by
                have := congrArg Options.startstop h4
                have := congrArg Options.file_name h4
                have := congrArg Options.immed h4
                have := congrArg Options.loej h4
                have := congrArg Options.power_conds h4
                have := congrArg Options.verbose h4
                simp_all
              have h6 : o2.fl_num = o.fl_num := by
                have h7 := flagsFrom_next (dropLayer fs) o o2 hq
                exact h7.2.2.2.2.2.2.1 (dropLayer_plain fs)
              cases o2
              cases o1
              simp_all
      | _ => simp [Flag.isFormatLayer] at hf
    · have hf0 : f.isFormatLayer = false := by simpa using hf
      have hd : dropLayer (f :: fs) = f :: dropLayer fs := by
        simp [dropLayer, hf0]
      rw [hd]
      simp only [flagsFrom]
      cases hstep : flagStep o f with
      | stop e m => rfl
      | next o1 =>
        simp only
        have hfl : o1.fl_num = o.fl_num := (flagStep_next o o1 f hstep).2.2.2.2.2.2.2.1 hf0
        have h1 := ih o1 hrest (by omega)
        rw [hfl] at h1
        exact h1

theorem line_dropLayer (pre post : List Flag) (dev : List Char)
    (hdev : isDeviceName dev = true) (hh : ∀ f ∈ pre ++ post, f.layerHigh = true) :
    match parse_args Options.init (pre.map Flag.arg ++ dev :: post.map Flag.arg) with
    | .stop e m =>
      parse_args Options.init
        ((dropLayer pre).map Flag.arg ++ dev :: (dropLayer post).map Flag.arg) = .stop e m
    | .next o =>
      o.fl_num < 0 ∧
      parse_args Options.init
        ((dropLayer pre).map Flag.arg ++ dev :: (dropLayer post).map Flag.arg)
          = .next { o with fl_num := -1 } := by
  rw [parse_args_line pre post dev hdev, parse_args_line (dropLayer pre) (dropLayer post) dev hdev]
  have h1 := flagsFrom_dropLayer pre Options.init
    (fun f hf => hh f (List.mem_append_left _ hf)) (by decide)
  cases hpre : flagsFrom Options.init pre with
  | stop e m =>
    simp only [hpre] at h1 ⊢
    rw [h1]
  | next o1 =>
    simp only [hpre] at h1 ⊢
    obtain ⟨hneg, hd⟩ := h1
    rw [hd]
    simp only
    have h2 := flagsFrom_dropLayer post { o1 with file_name := some dev }
      (fun f hf => hh f (List.mem_append_right _ hf)) hneg
    have h3 := flagsFrom_fl_num (dropLayer post) { o1 with file_name := some dev } (-1)
      (dropLayer_plain post)
    have hinit : Options.init.fl_num = -1 := rfl
    rw [hinit]
    have hsame : ({ ({ o1 with fl_num := -1 } : Options) with file_name := some dev } : Options)
        = { ({ o1 with file_name := some dev } : Options) with fl_num := -1 } := rfl
    rw [hsame, h3]
    cases hpost : flagsFrom { o1 with file_name := some dev } post with
    | stop e m =>
      simp only [hpost] at h2 ⊢
      rw [h2]
    | next o2 =>
      simp only [hpost] at h2 ⊢
      obtain ⟨hneg2, hd2⟩ := h2
      rw [hd2]
      exact ⟨hneg2, rfl⟩

/-- The checks, the defaults and the rest of main look at fl_num only to see whether
it is negative. -/
theorem tail_fl_num (t : Transport) (o : Options) (n : Int) (h1 : o.fl_num < 0) (h2 : n < 0) :
    (match resolve { o with fl_num := n } with
      | .error m => ({ exit := 1, events := [], out := m } : Outcome)
      | .ok o1 => run t o1)
    = (match resolve o with
      | .error m => { exit := 1, events := [], out := m }
      | .ok o1 => run t o1) := by
  cases hf : o.file_name with
  | none => simp [resolve, hf]
  | some name =>
    simp only [resolve, hf, ge_iff_le, not_le.mpr h1, not_le.mpr h2, if_false]
    simp only [run, command, hf, ge_iff_le, not_le.mpr h1, not_le.mpr h2, if_false]

/-! ### The power condition is never negative -/

theorem dash_loop_pc (cp : List Char) (o : Options) (cp1 : List Char) (j : Bool)
    (o1 : Options) (h : dash_loop cp o = .next cp1 j o1) : o1.power_conds = o.power_conds := by
  induction cp generalizing o with
  | nil =>
    simp only [dash_loop, Dash.next.injEq] at h
    rw [← h.2.2]
  | cons c cp ih =>
    simp only [dash_loop] at h
    split at h
    · exact ih { o with verbose := o.verbose + 1 } h
    · split at h
      · simp at h
      · split at h
        · simp at h
        · split at h
          · simp only [Dash.next.injEq] at h
            rw [← h.2.2]
          · simp only [Dash.next.injEq] at h
            rw [← h.2.2]

theorem arg_step_pc_nonneg (o o1 : Options) (arg : List Char) (h : arg_step o arg = .next o1)
    (h0 : 0 ≤ o.power_conds) : 0 ≤ o1.power_conds := by
  cases arg with
  | nil =>
    simp only [arg_step, Step.next.injEq] at h
    subst h
    exact h0
  | cons c rest =>
    by_cases hc : c = '-'
    · simp only [arg_step, hc, if_true] at h
      cases hd : dash_loop rest o with
      | stop e m => simp [hd] at h
      | next cp j o2 =>
        have hpc := dash_loop_pc _ _ _ _ _ hd
        simp only [hd, ambiguous] at h
        by_cases h1 : cp = []
        · rw [if_pos h1] at h
          simp only [Step.next.injEq] at h
          subst h
          omega
        rw [if_neg h1] at h
        by_cases h2 : "eject".toList.isPrefixOf cp = true
        · rw [if_pos h2] at h
          split at h
          · simp at h
          · simp only [Step.next.injEq] at h
            subst h
            simp only
            omega
        rw [if_neg h2] at h
        by_cases h3 : "fl=".toList.isPrefixOf cp = true
        · rw [if_pos h3] at h
          split at h
          · simp at h
          · simp only [Step.next.injEq] at h
            subst h
            simp only
            omega
        rw [if_neg h3] at h
        by_cases h4 : "imm=".toList.isPrefixOf cp = true
        · rw [if_pos h4] at h
          split at h
          · simp at h
          · split at h
            · simp at h
            · simp only [Step.next.injEq] at h
              subst h
              simp only
              omega
        rw [if_neg h4] at h
        by_cases h5 : "load".toList.isPrefixOf cp = true
        · rw [if_pos h5] at h
          split at h
          · simp at h
          · simp only [Step.next.injEq] at h
            subst h
            simp only
            omega
        rw [if_neg h5] at h
        by_cases h6 : "loej".toList.isPrefixOf cp = true
        · rw [if_pos h6] at h
          simp only [Step.next.injEq] at h
          subst h
          simp only
          omega
        rw [if_neg h6] at h
        by_cases h7 : "pc=".toList.isPrefixOf cp = true
        · rw [if_pos h7] at h
          split at h
          · simp at h
          · split at h
            · simp at h
            · simp only [Step.next.injEq] at h
              subst h
              exact Int.ofNat_nonneg _
        rw [if_neg h7] at h
        by_cases h8 : "start".toList.isPrefixOf cp = true
        · rw [if_pos h8] at h
          split at h
          · simp at h
          · simp only [Step.next.injEq] at h
            subst h
            simp only
            omega
        rw [if_neg h8] at h
        by_cases h9 : "stop".toList.isPrefixOf cp = true
        · rw [if_pos h9] at h
          split at h
          · simp at h
          · simp only [Step.next.injEq] at h
            subst h
            simp only
            omega
        rw [if_neg h9] at h
        split at h
        · simp at h
        · simp only [Step.next.injEq] at h
          subst h
          omega
    · simp only [arg_step, hc, if_false, ambiguous] at h
      split at h
      · split at h
        · simp at h
        · simp only [Step.next.injEq] at h
          subst h
          exact h0
      · split at h
        · split at h
          · simp at h
          · simp only [Step.next.injEq] at h
            subst h
            exact h0
        · split at h
          · simp only [Step.next.injEq] at h
            subst h
            exact h0
          · simp at h

theorem parse_args_pc_nonneg (argv : List (List Char)) (o o1 : Options)
    (h : parse_args o argv = .next o1) (h0 : 0 ≤ o.power_conds) : 0 ≤ o1.power_conds := by
  induction argv generalizing o with
  | nil =>
    simp only [parse_args, Step.next.injEq] at h
    subst h
    exact h0
  | cons a rest ih =>
    simp only [parse_args] at h
    cases hs : arg_step o a with
    | stop e m => simp [hs] at h
    | next o2 =>
      simp only [hs] at h
      exact ih o2 h (arg_step_pc_nonneg o o2 a hs h0)

/-- C29: a format layer number of 2^31 or more counts as no format layer. For every
sequence of flags whose format layer numbers are all 2^31 or more (below 2^32, as
sscanf stores them in an unsigned int), with a device name anywhere among them: when
the loop over the arguments ends, fl_num is negative, the checks against --stop and
--pc are skipped (the variables are accepted) and the default for the action is
applied; and main does exactly what it does for the same arguments without the format
layer flags: the same exit status, the same calls of the transport and the same
lines. -/
theorem high_layer_ignored (pre post : List Flag) (dev : List Char) (t : Transport)
    (hdev : isDeviceName dev = true) (hh : ∀ f ∈ pre ++ post, f.layerHigh = true) :
    main (pre.map Flag.arg ++ dev :: post.map Flag.arg) t
      = main ((dropLayer pre).map Flag.arg ++ dev :: (dropLayer post).map Flag.arg) t ∧
    (∀ s u, Flag.formatLayer s ∈ pre ++ post → sscanf_x s = some u →
      2 ^ 31 ≤ u ∧ u < 2 ^ 32 ∧ toInt u < 0) ∧
    ∀ o, parse_args Options.init (pre.map Flag.arg ++ dev :: post.map Flag.arg) = .next o →
      o.fl_num < 0 ∧
      resolve o = .ok { o with startstop :=
        if o.startstop = -1 ∧ o.loej ≠ 0 then 0
        else if o.startstop = -1 ∧ o.power_conds = 0 then 1
        else o.startstop } := by
  have hl := line_dropLayer pre post dev hdev hh
  refine ⟨?_, ?_, ?_⟩
  · cases hp : parse_args Options.init (pre.map Flag.arg ++ dev :: post.map Flag.arg) with
    | stop e m =>
      simp only [hp] at hl
      rw [main_of_stop _ t e m hp, main_of_stop _ t e m hl]
    | next o =>
      simp only [hp] at hl
      obtain ⟨hneg, hd⟩ := hl
      rw [main_of_next _ t o hp, main_of_next _ t _ hd]
      exact (tail_fl_num t o (-1) hneg (by decide)).symm
  · intro s u hmem hs
    have := hh _ hmem
    simp only [Flag.layerHigh, hs, decide_eq_true_eq] at this
    exact ⟨this, sscanf_x_lt s u hs, toInt_neg u this (sscanf_x_lt s u hs)⟩
  · intro o hp
    simp only [hp] at hl
    obtain ⟨hneg, _⟩ := hl
    obtain ⟨hname, _⟩ := line_next pre post dev o hdev hp
    refine ⟨hneg, ?_⟩
    simp only [resolve, hname, ge_iff_le, not_le.mpr hneg, if_false]
    congr 1
    by_cases h1 : o.startstop = -1
    · by_cases h2 : o.loej = 0
      · simp [h1, h2]
      · simp [h1, h2]
    · simp [h1]

/-- C29 at the arguments --fl=80000000 --stop with a device name: the unit is stopped, as
for --stop alone. -/
theorem high_layer_ignored_witness :
    main ["--fl=80000000".toList, "--stop".toList, "/dev/sg0".toList]
        { invalid_op := 9, illegal_req := 5, open1 := 3, start_stop := 0 }
      = main ["--stop".toList, "/dev/sg0".toList]
        { invalid_op := 9, illegal_req := 5, open1 := 3, start_stop := 0 } ∧
    (main ["--stop".toList, "/dev/sg0".toList]
        { invalid_op := 9, illegal_req := 5, open1 := 3, start_stop := 0 }).events
      = [.openDevice "/dev/sg0".toList 0 0 3, .startStopUnit 3 0 0 0 0 0 0, .closeDevice 3] :=
  ⟨(high_layer_ignored [.formatLayer "80000000".toList, .stop] [] "/dev/sg0".toList
      { invalid_op := 9, illegal_req := 5, open1 := 3, start_stop := 0 }
      (by decide) (by decide)).1, by decide⟩

/-- C30: the fields of the START STOP UNIT command depend only on the branch taken.
For all arguments that main accepts and a device that opens, main opens the device,
issues the command and closes the device. When a format layer is in effect (fl_num
is not negative) the command has the format layer number and the power condition,
with fl = 1, loej = 1 and start = 1, whatever loej and the action are; when it is not
and the power condition is above zero, the command has the power condition, with
loej = 0 and start = 0, whatever loej and the action are; when it is not and the power
condition is zero (it is never negative), an action is set and the command has loej
and the action. The immediate bit is the one given in all three cases; the checks and defaults change
nothing but the action. So --pc=3 --eject sends no eject. -/
theorem command_fields (argv : List (List Char)) (t : Transport) (o o1 : Options)
    (hp : parse_args Options.init argv = .next o) (hr : resolve o = .ok o1)
    (hopen : 0 ≤ t.open1) :
    (o1.immed = o.immed ∧ o1.loej = o.loej ∧ o1.fl_num = o.fl_num ∧
      o1.power_conds = o.power_conds ∧ o1.file_name = o.file_name ∧ o.file_name ≠ none) ∧
    0 ≤ o1.power_conds ∧
    (0 ≤ o1.fl_num →
      (main argv t).events
        = [.openDevice (o1.file_name.getD []) 0 o1.verbose t.open1,
           .startStopUnit t.open1 o1.immed o1.fl_num o1.power_conds 1 1 1,
           .closeDevice t.open1]) ∧
    (o1.fl_num < 0 → 0 < o1.power_conds →
      (main argv t).events
        = [.openDevice (o1.file_name.getD []) 0 o1.verbose t.open1,
           .startStopUnit t.open1 o1.immed 0 o1.power_conds 0 0 0,
           .closeDevice t.open1]) ∧
    (o1.fl_num < 0 → o1.power_conds = 0 →
      o1.startstop ≠ -1 ∧
      (main argv t).events
        = [.openDevice (o1.file_name.getD []) 0 o1.verbose t.open1,
           .startStopUnit t.open1 o1.immed 0 0 0 o1.loej o1.startstop,
           .closeDevice t.open1]) ∧
    (main ["--pc=3".toList, "--eject".toList, "/dev/sg0".toList]
        { invalid_op := 9, illegal_req := 5, open1 := 3, start_stop := 0 }).events
      = [.openDevice "/dev/sg0".toList 0 0 3, .startStopUnit 3 0 0 3 0 0 0, .closeDevice 3] := by
  have hm : main argv t = run t o1 := by
    rw [main_of_next argv t o hp, hr]
  have hev : (main argv t).events
      = [.openDevice (o1.file_name.getD []) 0 o1.verbose t.open1] ++ command o1 t.open1
        ++ [.closeDevice t.open1] := by
    rw [hm]
    simp only [run, not_lt.mpr hopen, if_false]
  have hres : (o1.immed = o.immed ∧ o1.loej = o.loej ∧ o1.fl_num = o.fl_num ∧
      o1.power_conds = o.power_conds ∧ o1.file_name = o.file_name ∧ o.file_name ≠ none) ∧
      (o1.fl_num < 0 → o1.power_conds = 0 → o1.startstop ≠ -1) := by
    unfold resolve at hr
    split at hr
    · simp at hr
    · rename_i name hname
      split at hr
      · split at hr
        · simp at hr
        · split at hr
          · simp at hr
          · simp only [Except.ok.injEq] at hr
            subst hr
            rename_i hfl _ _
            exact ⟨⟨rfl, rfl, rfl, rfl, rfl, by simp [hname]⟩, fun h => by omega⟩
      · simp only [Except.ok.injEq] at hr
        subst hr
        refine ⟨⟨rfl, rfl, rfl, rfl, rfl, by simp [hname]⟩, ?_⟩
        intro _ hpc
        simp only at hpc ⊢
        by_cases h1 : o.startstop = -1
        · by_cases h2 : o.loej = 0
          · simp [h1, h2, hpc]
          · simp [h1, h2]
        · simp [h1]
  have hpc0 : 0 ≤ o1.power_conds := by
    rw [hres.1.2.2.2.1]
    exact parse_args_pc_nonneg argv _ o hp (by decide)
  refine ⟨hres.1, hpc0, ?_, ?_, ?_, by decide⟩
  · intro hfl
    rw [hev]
    simp only [command, ge_iff_le, hfl, if_true, List.cons_append, List.nil_append]
  · intro hfl hpc
    rw [hev]
    simp only [command, ge_iff_le, not_le.mpr hfl, if_false, gt_iff_lt, hpc, if_true,
      List.cons_append, List.nil_append]
  · intro hfl hpc
    have hss := hres.2 hfl hpc
    refine ⟨hss, ?_⟩
    rw [hev]
    simp only [command, ge_iff_le, not_le.mpr hfl, if_false, gt_iff_lt, hpc, lt_self_iff_false,
      ne_eq, hss, not_false_eq_true, if_true, List.cons_append, List.nil_append]

/-- C30 at the arguments --fl=2 --loej --imm=1 with a device name: the command has the
format layer 2 with fl = 1, loej = 1, start = 1 and the immediate bit. -/
theorem command_fields_witness :
    (main ["--fl=2".toList, "--loej".toList, "--imm=1".toList, "/dev/sg0".toList]
        { invalid_op := 9, illegal_req := 5, open1 := 3, start_stop := 0 }).events
      = [.openDevice "/dev/sg0".toList 0 0 3, .startStopUnit 3 1 2 0 1 1 1, .closeDevice 3] :=
  (command_fields ["--fl=2".toList, "--loej".toList, "--imm=1".toList, "/dev/sg0".toList]
    { invalid_op := 9, illegal_req := 5, open1 := 3, start_stop := 0 }
    ⟨-1, some "/dev/sg0".toList, 1, 1, 2, 0, 0⟩ ⟨-1, some "/dev/sg0".toList, 1, 1, 2, 0, 0⟩
    (by decide) (by decide) (by decide)).2.2.1 (by decide)

end SgStart

/-! ## Theorems about the three programs -/

namespace SgUtils

/-! ### The calls of sg_readcap and of sg_start -/

theorem phase16_events (t : SgReadcap.Transport) (o : SgReadcap.Options) (fd : Int)
    (events : List SgReadcap.Event) (out : List SgReadcap.Msg) :
    (SgReadcap.phase16 t o fd events out).events
      = events ++ [.readcap16 fd o.pmi o.llba] ++ [.closeDevice fd] := by
  unfold SgReadcap.phase16
  split <;> rfl

/-- The calls sg_readcap can make after the loop over the arguments. -/
theorem readcap_run_events (t : SgReadcap.Transport) (o : SgReadcap.Options) :
    (SgReadcap.run t o).events = [] ∨
    (∃ name ro, t.open1 < 0 ∧
      (SgReadcap.run t o).events = [.openDevice name ro o.verbose t.open1]) ∨
    (∃ name ro, 0 ≤ t.open1 ∧
      (SgReadcap.run t o).events
        = [.openDevice name ro o.verbose t.open1, .readcap10 t.open1 o.pmi o.lba,
           .closeDevice t.open1]) ∨
    (∃ name ro, 0 ≤ t.open1 ∧
      (SgReadcap.run t o).events
        = [.openDevice name ro o.verbose t.open1, .readcap10 t.open1 o.pmi o.lba,
           .readcap16 t.open1 o.pmi o.llba, .closeDevice t.open1]) ∨
    (∃ name ro, 0 ≤ t.open1 ∧ t.open2 < 0 ∧
      (SgReadcap.run t o).events
        = [.openDevice name ro o.verbose t.open1, .readcap10 t.open1 o.pmi o.lba,
           .closeDevice t.open1, .openDevice name 0 o.verbose t.open2]) ∨
    (∃ name ro, 0 ≤ t.open1 ∧ 0 ≤ t.open2 ∧
      (SgReadcap.run t o).events
        = [.openDevice name ro o.verbose t.open1, .readcap10 t.open1 o.pmi o.lba,
           .closeDevice t.open1, .openDevice name 0 o.verbose t.open2,
           .readcap16 t.open2 o.pmi o.llba, .closeDevice t.open2]) ∨
    (∃ name ro, 0 ≤ t.open1 ∧
      (SgReadcap.run t o).events
        = [.openDevice name ro o.verbose t.open1, .readcap16 t.open1 o.pmi o.llba,
           .closeDevice t.open1]) := by
  cases hf : o.file_name with
  | none => left; simp [SgReadcap.run, hf]
  | some name =>
    by_cases hc : o.pmi = 0 ∧ o.lba > 0
    · left; simp only [SgReadcap.run, hf, hc, and_self, if_true]
    · by_cases ho : t.open1 < 0
      · right; left
        exact ⟨name, _, ho, by simp only [SgReadcap.run, hf, hc, if_false, ho, if_true]; rfl⟩
      · have h1 : 0 ≤ t.open1 := not_lt.mp ho
        by_cases hd : o.do16 = 0
        · by_cases hr : t.readcap10.1 = 0
          · by_cases hs : SgReadcap.get32 t.readcap10.2 0 = 0xffffffff
            · exact Or.inr (Or.inr (Or.inr (Or.inl ⟨name, _, h1, by
                simp only [SgReadcap.run, hf, hc, if_false, ho, hd, if_true, hr, hs,
                  ne_eq, not_true_eq_false, phase16_events]
                rfl⟩)))
            · exact Or.inr (Or.inr (Or.inl ⟨name, _, h1, by
                simp only [SgReadcap.run, hf, hc, if_false, ho, hd, if_true, hr, hs,
                  ne_eq, not_false_eq_true, SgReadcap.good]
                rfl⟩))
          · by_cases hi : t.invalid_op = t.readcap10.1
            · by_cases h2 : t.open2 < 0
              · exact Or.inr (Or.inr (Or.inr (Or.inr (Or.inl ⟨name, _, h1, h2, by
                  simp only [SgReadcap.run, hf, hc, if_false, ho, hd, if_true, hr, hi, h2]
                  rfl⟩))))
              · exact Or.inr (Or.inr (Or.inr (Or.inr (Or.inr (Or.inl
                  ⟨name, _, h1, not_lt.mp h2, by
                    simp only [SgReadcap.run, hf, hc, if_false, ho, hd, if_true, hr, hi, h2,
                      phase16_events]
                    rfl⟩)))))
            · refine Or.inr (Or.inr (Or.inl ⟨name, 1, h1, ?_⟩))
              simp only [SgReadcap.run, hf, hc, if_false, ho, hd, if_true, hr, hi]
              split
              · rfl
              · split <;> rfl
        · exact Or.inr (Or.inr (Or.inr (Or.inr (Or.inr (Or.inr ⟨name, _, h1, by
            simp only [SgReadcap.run, hf, hc, if_false, ho, hd, phase16_events]
            rfl⟩)))))

theorem readcap_run_calls (t : SgReadcap.Transport) (o : SgReadcap.Options) :
    closesAll none ((SgReadcap.run t o).events.map readcapCall) = true ∧
    (commands ((SgReadcap.run t o).events.map readcapCall) = [] ∨
     commands ((SgReadcap.run t o).events.map readcapCall) = [.readCapacity10] ∨
     commands ((SgReadcap.run t o).events.map readcapCall) = [.readCapacity16] ∨
     commands ((SgReadcap.run t o).events.map readcapCall)
       = [.readCapacity10, .readCapacity16]) := by
  rcases readcap_run_events t o with h | ⟨n, ro, h1, h⟩ | ⟨n, ro, h1, h⟩ | ⟨n, ro, h1, h⟩ |
    ⟨n, ro, h1, h2, h⟩ | ⟨n, ro, h1, h2, h⟩ | ⟨n, ro, h1, h⟩
  · simp [h, closesAll, commands]
  · simp [h, closesAll, commands, readcapCall, h1]
  · simp [h, closesAll, commands, readcapCall, not_lt.mpr h1]
  · simp [h, closesAll, commands, readcapCall, not_lt.mpr h1]
  · simp [h, closesAll, commands, readcapCall, not_lt.mpr h1, h2]
  · simp [h, closesAll, commands, readcapCall, not_lt.mpr h1, not_lt.mpr h2]
  · simp [h, closesAll, commands, readcapCall, not_lt.mpr h1]

theorem readcap_main_calls (argv : List (List Char)) (t : SgReadcap.Transport) :
    closesAll none ((SgReadcap.main argv t).events.map readcapCall) = true ∧
    (commands ((SgReadcap.main argv t).events.map readcapCall) = [] ∨
     commands ((SgReadcap.main argv t).events.map readcapCall) = [.readCapacity10] ∨
     commands ((SgReadcap.main argv t).events.map readcapCall) = [.readCapacity16] ∨
     commands ((SgReadcap.main argv t).events.map readcapCall)
       = [.readCapacity10, .readCapacity16]) := by
  unfold SgReadcap.main
  split
  · exact ⟨rfl, Or.inl rfl⟩
  · exact readcap_run_calls t _

theorem start_command_calls (o : SgStart.Options) (fd : Int) :
    SgStart.command o fd = [] ∨
    ∃ immed fl_num pc fl loej start,
      SgStart.command o fd = [.startStopUnit fd immed fl_num pc fl loej start] := by
  unfold SgStart.command
  split_ifs
  · exact Or.inr ⟨_, _, _, _, _, _, rfl⟩
  · exact Or.inr ⟨_, _, _, _, _, _, rfl⟩
  · exact Or.inr ⟨_, _, _, _, _, _, rfl⟩
  · exact Or.inl rfl

theorem start_run_calls (t : SgStart.Transport) (o : SgStart.Options) :
    closesAll none ((SgStart.run t o).events.map startCall) = true ∧
    (commands ((SgStart.run t o).events.map startCall)).length ≤ 1 := by
  unfold SgStart.run
  split
  · rename_i h
    simp [closesAll, commands, startCall, h]
  · rename_i h
    rcases start_command_calls o t.open1 with hc | ⟨a, b, c, d, e, f, hc⟩ <;>
      simp [closesAll, commands, startCall, h, hc]

theorem start_main_calls (argv : List (List Char)) (t : SgStart.Transport) :
    closesAll none ((SgStart.main argv t).events.map startCall) = true ∧
    (commands ((SgStart.main argv t).events.map startCall)).length ≤ 1 := by
  unfold SgStart.main
  split
  · exact ⟨rfl, by simp [commands]⟩
  · exact start_run_calls t _

/-! ### The calls of sg_reassign -/

theorem reassign_main_calls (opts : List SgReassign.Opt) (args : List (List Char))
    (stdin : List Char) (param_arr : List Nat) (t : SgReassign.Transport)
    (hp : param_arr.length = SgReassign.PARAM_ARR_SIZE) :
    ∃ r, SgReassign.main opts args stdin param_arr t = some r ∧
      (commands (r.events.map reassignCall)).length ≤ 1 ∧
      (closesAll none (r.events.map reassignCall) = false →
        ∃ o name, SgReassign.opt_loop (SgReassign.Options.init stdin) opts = .next o ∧
          o.dummy ≠ 0 ∧ o.got_addr ≠ 0 ∧ 0 ≤ t.open1 ∧ r.exit = 0 ∧
          r.events = [.openDevice name 0 o.verbose t.open1]) := by
  rcases SgReassign.main_cases opts args stdin param_arr t hp with
    ⟨e, m, _, hm⟩ | ⟨o, r, ho, hl, hn, hr, hm⟩
  · exact ⟨_, hm, by simp [commands], by simp [closesAll]⟩
  · refine ⟨r, hm, ?_⟩
    obtain ⟨r1, hr1, hev⟩ := SgReassign.run_events t o args param_arr hl hn hp
    rw [hr] at hr1
    simp only [Option.some.injEq] at hr1
    subst hr1
    rcases hev with ⟨h, _⟩ | ⟨name, h1, _, h⟩ | ⟨name, h1, h2, h3, h4, h⟩ |
      ⟨name, e, p, h1, _, _, h⟩ | ⟨name, h1, _, h⟩
    · simp [h, commands, closesAll]
    · simp [h, commands, closesAll, reassignCall, h1]
    · refine ⟨by simp [h, commands, reassignCall, not_lt.mpr h1], ?_⟩
      intro _
      exact ⟨o, name, ho, h2, h3, h1, h4, h⟩
    · simp [h, commands, closesAll, reassignCall, not_lt.mpr h1]
    · simp [h, commands, closesAll, reassignCall, not_lt.mpr h1]

set_option maxRecDepth 100000 in
/-- C21, at the failing input of sg_reassign with --address=1 and --dummy on a device that
opens as handle 3: main returns 0 after the open of the device and the handle is
never closed. -/
theorem dummy_leaves_handle_open :
    SgReassign.main [.address "1".toList, .dummy] ["/dev/sda".toList] []
        (List.replicate SgReassign.PARAM_ARR_SIZE 0)
        { invalid_op := 9, open1 := 3, reassign_blocks := 0, read_defect10 := (0, []),
          close := 0 }
      = some { exit := 0, events := [.openDevice "/dev/sda".toList 0 0 3],
               out := [.dummyNotExecuted] } ∧
    closesAll none ([SgReassign.Event.openDevice "/dev/sda".toList 0 0 3].map reassignCall)
      = false := by
  have hopt : SgReassign.opt_loop (SgReassign.Options.init []) [.address "1".toList, .dummy]
      = .next { dummy := 1, got_addr := 1, eight := -1,
                addr_arr := (List.replicate SgReassign.MAX_NUM_ADDR 0).set 0 1,
                addr_arr_len := 1, grown := 0, longlist := 0, verbose := 0, stdin := [] } := by
    decide
  refine ⟨?_, by decide⟩
  simp only [SgReassign.main, hopt]
  exact SgReassign.run_dummy _ _ "/dev/sda".toList _ 0 (by simp) (by decide) (by simp)
    (by decide) rfl (by decide) (by decide) (by decide) (by decide) (by decide)

/-- C22: configuration and parsing errors come before any device I/O. In sg_reassign,
when the loop over the options reaches an option --address whose list build_lba_arr
refuses (syntax error, number error or capacity exceeded), main returns 1 with the
line about the bad argument and no call of the transport, whatever options and
arguments follow; and when the options are read and the width check refuses the
addresses, main returns 1 with no call of the transport. In sg_start, when the loop
over the arguments stops as ambiguous, as it does for all well-formed flags that hold
one of --eject, --stop, 0 and one of --load, --start, 1, and when the loop ends and the
check of the format layer refuses the variables, main ends with status 1 and no call
of the transport. -/
theorem errors_before_io :
    (∀ (pre post : List SgReassign.Opt) (a : List Char) (o : SgReassign.Options)
        (e : SgReassign.BuildErr) (args : List (List Char)) (stdin : List Char)
        (param_arr : List Nat) (t : SgReassign.Transport),
      SgReassign.opt_loop (SgReassign.Options.init stdin) pre = .next o →
      SgReassign.main_address a o.stdin = .error e →
      SgReassign.main (pre ++ .address a :: post) args stdin param_arr t
        = some { exit := 1, events := [], out := [.badAddress e] }) ∧
    (∀ (opts : List SgReassign.Opt) (o : SgReassign.Options) (e : SgReassign.ParamErr)
        (args : List (List Char)) (stdin : List Char) (param_arr : List Nat)
        (t : SgReassign.Transport),
      SgReassign.opt_loop (SgReassign.Options.init stdin) opts = .next o →
      o.got_addr ≠ 0 →
      SgReassign.select_eight SgReassign.ULONG_MAX o.eight (o.addr_arr.take o.addr_arr_len)
        = .error e →
      ∃ r, SgReassign.main opts args stdin param_arr t = some r ∧ r.exit = 1 ∧ r.events = []) ∧
    (∀ (argv : List (List Char)) (t : SgStart.Transport),
      SgStart.parse_args SgStart.Options.init argv = SgStart.ambiguous →
      SgStart.main argv t = { exit := 1, events := [], out := [.ambiguous, .usage] }) ∧
    (∀ (pre post : List SgStart.Flag) (dev : List Char) (t : SgStart.Transport),
      (∀ f ∈ pre ++ post, f.wf = true) → SgStart.isDeviceName dev = true →
      (.eject ∈ pre ++ post ∨ .stop ∈ pre ++ post ∨ .zero ∈ pre ++ post) →
      (.load ∈ pre ++ post ∨ .start ∈ pre ++ post ∨ .one ∈ pre ++ post) →
      SgStart.main (pre.map SgStart.Flag.arg ++ dev :: post.map SgStart.Flag.arg) t
        = { exit := 1, events := [], out := [.ambiguous, .usage] }) ∧
    (∀ (argv : List (List Char)) (t : SgStart.Transport) (o : SgStart.Options),
      SgStart.parse_args SgStart.Options.init argv = .next o →
      o.file_name ≠ none → 0 ≤ o.fl_num → (o.startstop = 0 ∨ 0 < o.power_conds) →
      (SgStart.main argv t).exit = 1 ∧ (SgStart.main argv t).events = [] ∧
      ((SgStart.main argv t).out = [.flWithStop, .usage] ∨
       (SgStart.main argv t).out = [.flWithPc, .usage])) := by
  refine ⟨?_, ?_, ?_, ?_, ?_⟩
  · intro pre post a o e args stdin param_arr t hpre ha
    simp only [SgReassign.main, SgReassign.opt_loop_append, hpre, SgReassign.opt_loop,
      SgReassign.opt_step, ha]
  · intro opts o e args stdin param_arr t ho ha he
    obtain ⟨h1, h2⟩ := SgReassign.opt_loop_bound opts _ o ho (SgReassign.init_bound stdin).1
      (SgReassign.init_bound stdin).2
    obtain ⟨r, hr, hx, hev⟩ := SgReassign.run_width_error t o args param_arr e (by omega) ha he
    exact ⟨r, by simp only [SgReassign.main, ho, hr], hx, hev⟩
  · intro argv t h
    exact SgStart.main_of_stop argv t 1 _ h
  · intro pre post dev t hwf hdev h0 h1
    exact SgStart.main_of_stop _ t 1 _ (SgStart.line_ambiguous pre post dev hwf hdev h0 h1)
  · intro argv t o hp hname hfl hc
    rw [SgStart.main_of_next argv t o hp]
    cases hf : o.file_name with
    | none => exact absurd hf hname
    | some name =>
      by_cases hs : o.startstop = 0
      · simp [SgStart.resolve, hf, hfl, hs]
      · have hpc : 0 < o.power_conds := by
          rcases hc with h | h
          · exact absurd h hs
          · exact h
        simp [SgStart.resolve, hf, hfl, hs, hpc]

/-- C22 at the option --address=1,,2 of sg_reassign, refused as a number error, and at
the arguments --stop --start of sg_start. -/
theorem errors_before_io_witness :
    SgReassign.main [.verbose, .address "1,,2".toList, .dummy] ["/dev/sda".toList] [] []
        { invalid_op := 9, open1 := 3, reassign_blocks := 0, read_defect10 := (0, []),
          close := 0 }
      = some { exit := 1, events := [], out := [.badAddress .numberError] } ∧
    SgStart.main ["--stop".toList, "--start".toList, "/dev/sg0".toList]
        { invalid_op := 9, illegal_req := 5, open1 := 3, start_stop := 0 }
      = { exit := 1, events := [], out := [.ambiguous, .usage] } :=
  ⟨errors_before_io.1 [.verbose] [.dummy] "1,,2".toList
      { dummy := 0, got_addr := 0, eight := -1,
        addr_arr := List.replicate SgReassign.MAX_NUM_ADDR 0,
        addr_arr_len := 0, grown := 0, longlist := 0, verbose := 1, stdin := [] }
      .numberError ["/dev/sda".toList] [] [] _ rfl (by decide),
   errors_before_io.2.2.1 _ _ (by decide)⟩

/-- C23: one run submits at most two commands. For all arguments and every behaviour of
the transport, the commands sg_readcap submits are none, one READ CAPACITY (10), one
READ CAPACITY (16), or one READ CAPACITY (10) followed by one READ CAPACITY (16), never
the 16-byte one first; sg_start submits at most one command; and sg_reassign, which
returns for every sequence of options and arguments (param_arr having the size main
gives it), submits at most one command. -/
theorem commands_at_most_two :
    (∀ (argv : List (List Char)) (t : SgReadcap.Transport),
      (commands ((SgReadcap.main argv t).events.map readcapCall)).length ≤ 2 ∧
      (commands ((SgReadcap.main argv t).events.map readcapCall) = [] ∨
       commands ((SgReadcap.main argv t).events.map readcapCall) = [.readCapacity10] ∨
       commands ((SgReadcap.main argv t).events.map readcapCall) = [.readCapacity16] ∨
       commands ((SgReadcap.main argv t).events.map readcapCall)
         = [.readCapacity10, .readCapacity16])) ∧
    (∀ (opts : List SgReassign.Opt) (args : List (List Char)) (stdin : List Char)
        (param_arr : List Nat) (t : SgReassign.Transport),
      param_arr.length = SgReassign.PARAM_ARR_SIZE →
      ∃ r, SgReassign.main opts args stdin param_arr t = some r ∧
        (commands (r.events.map reassignCall)).length ≤ 1) ∧
    (∀ (argv : List (List Char)) (t : SgStart.Transport),
      (commands ((SgStart.main argv t).events.map startCall)).length ≤ 1) := by
  refine ⟨?_, ?_, ?_⟩
  · intro argv t
    have h := (readcap_main_calls argv t).2
    refine ⟨?_, h⟩
    rcases h with h | h | h | h <;> rw [h] <;> decide
  · intro opts args stdin param_arr t hp
    obtain ⟨r, hr, hc, _⟩ := reassign_main_calls opts args stdin param_arr t hp
    exact ⟨r, hr, hc⟩
  · intro argv t
    exact (start_main_calls argv t).2

/-- C23 at a run of sg_reassign with one address on a device that opens. -/
theorem commands_at_most_two_witness :
    ∃ r, SgReassign.main [.address "1".toList] ["/dev/sda".toList] []
          (List.replicate SgReassign.PARAM_ARR_SIZE 0)
          { invalid_op := 9, open1 := 3, reassign_blocks := 0, read_defect10 := (0, []),
            close := 0 } = some r ∧
      (commands (r.events.map reassignCall)).length ≤ 1 :=
  commands_at_most_two.2.1 _ _ _ _ _ (List.length_replicate _ _)

end SgUtils
